import Mathlib

/-!
# PKplex: self-duplex search of `plex_functions.c`

A shallow embedding of `PKLduplexfold_XS`, `make_ptypes`, `duplexfold_XS` and
`backtrack_XS` from `src/ViennaRNA/plex_functions.c`, followed by theorems about the fill
step, the readout, the acceptance test, the backtracking walk, the whole search, the
pair-type table, the result list and the bounds of the matrix accesses.

Conventions of the embedding.

* C `int` values are `Int`. The sums of the readout and of the acceptance test involve the
  caller-supplied table `access_s1` and are reduced to the 32-bit range of `int` by
  `wrapInt` after every operation, as two's-complement arithmetic does. The sums of the
  fill step and of `backtrack_XS` involve only matrix entries, the sentinel `INF` and
  values of the energy model, in hundredths of kcal/mol, and are not reduced.
* An element of `c3` read by `backtrack_XS` outside the allocated array
  `c3[n1][W][W]` is undefined behaviour in C; it is the outcome `Outcome.undef`. The
  accesses of the initialisation, the base case, the fill step and the readout are inside
  the array for every window `W >= 1`, as is proved below, and are not checked.
* The global arrays (`ptype`, `indx`, `SS1`, `rtype`, `access_s1`) are total functions
  on `Int`; the energy array `c3` is a total function of its three indices, and so are
  the character arrays `st1` and `st2`.
* `for` loops are folds over the list of values taken by the loop variable
  (`rangeUp`, `rangeDown`); a conjunction of two loop bounds is the `min`/`max` of the bounds.
* The `while` loop of `backtrack_XS` is a recursion on a fuel that counts executions of
  its body; `backtrack_XS` supplies more fuel than the loop can use.
* The `while` loop of `make_ptypes` counts `i` down to 0 and is a recursion on `i`;
  `make_ptypes` is the list of its assignments to `ptype`, applied in order.
* `vrna_message_error` terminates the program; it is the outcome `Outcome.fail`.
* `INF`, the energy functions `vrna_E_ext_stem` and `E_IntLoop` and the tables are not
  defined in the file; they are fields of `Env`. The table `pair`, the constant `TURN`, the
  flag `noLonelyPairs` and the results of `encode_sequence` and `vrna_idx_col_wise` are
  parameters of `make_ptypes` and `PKLduplexfold_XS`.
* `W` stands for the parameter `max_interaction_length`; `length` is `strlen(s1)`, which
  the caller `PKLduplexfold_XS` also stores in the global `n1`.

The definitions come first: the program, the vocabulary of the statements (chains of
interior loops, the pairs encoded by a structure string) and the concrete inputs on
which the definitions are evaluated. The lemmas and theorems follow.
-/

namespace PKplex

/-- The constant `MAXLOOP`, redefined to 10 at the top of the file. -/
def MAXLOOP : Int := 10

/-- The value of a 32-bit `int` computation whose exact result is `x`: the representative
of `x` modulo `2^32` in `[-2^31, 2^31)`. -/
def wrapInt (x : Int) : Int := (x + 2147483648) % 4294967296 - 2147483648

/-- The index triples inside the allocated matrix `c3[length][W][W]`. -/
def inBox (length W a b c : Int) : Prop :=
  0 ≤ a ∧ a < length ∧ 0 ≤ b ∧ b < W ∧ 0 ≤ c ∧ c < W

instance (length W a b c : Int) : Decidable (inBox length W a b c) := by
  unfold inBox; infer_instance

/-- Values `lo, lo+1, ..., hi-1` of a loop `for (x = lo; x < hi; x++)`. -/
def rangeUp (lo hi : Int) : List Int :=
  (List.range (hi - lo).toNat).map (fun (t : Nat) => lo + (t : Int))

/-- Values `hi, hi-1, ..., lo+1` of a loop `for (x = hi; x > lo; x--)`. -/
def rangeDown (hi lo : Int) : List Int :=
  (List.range (hi - lo).toNat).map (fun (t : Nat) => hi - (t : Int))

/-- A loop whose body may execute `break`: the body returns `none` to leave the loop. -/
def forBreak {σ : Type} : List Int → (Int → σ → Option σ) → σ → σ
  | [], _, s => s
  | x :: xs, body, s =>
    match body x s with
    | none => s
    | some s' => forBreak xs body s'

/-- The energy array `c3[a][b][c]`. -/
abbrev Matrix := Int → Int → Int → Int

/-- Assignment `c3[a][b][c] = v`. -/
def Matrix.set (c3 : Matrix) (a b c v : Int) : Matrix :=
  fun x y z => if x = a ∧ y = b ∧ z = c then v else c3 x y z

/-- A character array, indexed from 0. -/
abbrev CharArr := Int → Char

/-- The terminating character of a C string. -/
def NUL : Char := Char.ofNat 0

/-- Assignment `st[a] = ch`. -/
def CharArr.set (st : CharArr) (a : Int) (ch : Char) : CharArr :=
  fun x => if x = a then ch else st x

/-- The C string held in an array of `size` characters: everything before the first NUL. -/
def cstring (st : CharArr) (size : Int) : List Char :=
  ((rangeUp 0 size).map st).takeWhile (fun ch => decide (ch ≠ NUL))

/-- The file-level state read by the search (`n1`, `ptype`, `indx`, `SS1`, the `rtype`
table of the parameter set `P`) together with the constant `INF` and the two energy
functions of the energy model, which are declared outside this file. -/
structure Env where
  /-- Length of the sequence, `n1`. -/
  n1 : Int
  /-- Flat array of pair types, `ptype[]`. -/
  ptype : Int → Int
  /-- Column index of the triangular layout, `indx[]`. -/
  indx : Int → Int
  /-- Encoded sequence `SS1[]`. -/
  SS1 : Int → Int
  /-- Reverse pair type, `P->model_details.rtype[]`. -/
  rtype : Int → Int
  /-- The sentinel `INF`. -/
  INF : Int
  /-- Call `vrna_E_ext_stem(type, si1, sj1, P)`. -/
  vrna_E_ext_stem : Int → Int → Int → Int
  /-- Call `E_IntLoop(n1, n2, type, type_2, si1, sj1, sp1, sq1, P)`. -/
  E_IntLoop : Int → Int → Int → Int → Int → Int → Int → Int → Int

/-- Outcome of a computation: a value, a call of `vrna_message_error`, exhausted fuel
(an artefact of the model of `while`), or a read outside the allocated array `c3`
(undefined behaviour in C). -/
inductive Outcome (α : Type) where
  | ok (a : α)
  | fail (msg : String)
  | fuel
  | undef

/-- The lookup `ptype[indx[j] + i]`. -/
def Env.pt (e : Env) (i j : Int) : Int := e.ptype (e.indx j + i)

/-- The three nested loops `c3[j][k][l] = INF` at the start of a scan position. -/
def initMatrix (e : Env) (length W : Int) (c3 : Matrix) : Matrix :=
  (rangeUp 0 length).foldl (fun c3 j =>
    (rangeUp 0 W).foldl (fun c3 k =>
      (rangeUp 0 W).foldl (fun c3 l => c3.set j k l e.INF) c3) c3) c3

/-- Closed form of `initMatrix`: `INF` inside the allocated box, the old value outside. -/
def initBox (e : Env) (length W : Int) (c3 : Matrix) : Matrix :=
  fun a b c =>
    if 0 ≤ a ∧ a < length ∧ 0 ≤ b ∧ b < W ∧ 0 ≤ c ∧ c < W then e.INF else c3 a b c

/-- The loop "matrix starting values for (i,j)-basepairs". -/
def baseCase (e : Env) (W i : Int) (c3 : Matrix) : Matrix :=
  (rangeUp (i + 4) (e.n1 - 10)).foldl (fun c3 j =>
    let type := e.pt i j
    if type ≠ 0 then
      c3.set (j - 11) (W - 1) 0 (e.vrna_E_ext_stem (e.rtype type) (e.SS1 (j - 1)) (e.SS1 (i + 1)))
    else c3) c3

/-- Innermost loop of the fill step, over `j`. -/
def fillJ (e : Env) (W i k l p q E : Int) (c3 : Matrix) : Matrix :=
  let tempK := W - i + k - 1
  (rangeUp (max (i + 4) (l - W + 1)) (q + 1)).foldl (fun c3 j =>
    let type := e.pt i j
    if type ≠ 0 then
      c3.set (j - 11) tempK (l - j)
        (min (c3 (j - 11) tempK (l - j)) (c3 (j - 11) (W - i + p - 1) (q - j) + E))
    else c3) c3

/-- Loop of the fill step over `q`, with its `break` and `continue`. -/
def fillQ (e : Env) (W i k l type2 p : Int) (c3 : Matrix) : Matrix :=
  forBreak (rangeDown (l - 1) (max (i + 4) (l - MAXLOOP - 1) - 1)) (fun q c3 =>
    if p - k + l - q - 2 > MAXLOOP then none
    else
      let type3 := e.pt p q
      if type3 = 0 then some c3
      else
        let E := e.E_IntLoop (p - k - 1) (l - q - 1) type2 (e.rtype type3)
          (e.SS1 (k + 1)) (e.SS1 (l - 1)) (e.SS1 (p - 1)) (e.SS1 (q + 1))
        some (fillJ e W i k l p q E c3)) c3

/-- Loop of the fill step over `p`. -/
def fillP (e : Env) (W i k l type2 : Int) (c3 : Matrix) : Matrix :=
  (rangeUp (k + 1) (min i (k + MAXLOOP + 1) + 1)).foldl
    (fun c3 p => fillQ e W i k l type2 p c3) c3

/-- Loop of the fill step over `l`. -/
def fillL (e : Env) (W i k : Int) (c3 : Matrix) : Matrix :=
  (rangeUp (i + 5) (e.n1 - 9)).foldl (fun c3 l =>
    let type2 := e.pt k l
    if type2 = 0 then c3 else fillP e W i k l type2 c3) c3

/-- The fill step ("fill matrix"): the loop over `k`. -/
def fill (e : Env) (W i : Int) (c3 : Matrix) : Matrix :=
  let i_pos_begin := max 9 (i - W)
  (rangeDown (i - 1) i_pos_begin).foldl (fun c3 k => fillL e W i k c3) c3

/-- The matrix of scan position `i` after initialisation, base case and fill. -/
def filled (e : Env) (length W i : Int) (c3 : Matrix) : Matrix :=
  fill e W i (baseCase e W i (initMatrix e length W c3))

/-- The running minimum of the readout: `Emin`, `k_min`, `l_min`, `j_min`. -/
structure Best where
  Emin : Int
  k_min : Int
  l_min : Int
  j_min : Int
deriving DecidableEq, Repr

/-- The energy `E` computed in the readout for the combination `(j, k, l)`: the
assignment `E = c3[j-11][W-i+k-1][l-j]` and the three statements `E += ...`, each an
`int` computation. -/
def total (e : Env) (access_s1 : Int → Int → Int) (W i : Int) (c3 : Matrix) (j k l : Int) : Int :=
  let i_pos_begin := max 9 (i - W)
  let j_pos_end := min (e.n1 - 9) (j + W)
  let E := c3 (j - 11) (W - i + k - 1) (l - j)
  let E := wrapInt (E + wrapInt (access_s1 (i - k + 1) i + access_s1 (l - j + 1) l))
  let E := wrapInt (E + e.vrna_E_ext_stem (e.pt k l)
        (if k > i_pos_begin + 1 then e.SS1 (k - 1) else -1)
        (if l < j_pos_end - 1 then e.SS1 (l + 1) else -1))
  wrapInt (E + e.vrna_E_ext_stem (e.rtype (e.pt i j)) (e.SS1 (j - 1)) (e.SS1 (i + 1)))

/-- The readout ("read out matrix minimum"). -/
def readout (e : Env) (access_s1 : Int → Int → Int) (W i : Int) (c3 : Matrix) : Best :=
  let i_pos_begin := max 9 (i - W)
  (rangeUp (i + 4) (e.n1 - 10)).foldl (fun b j =>
    let type := e.pt i j
    if type = 0 then b
    else
      let j_pos_end := min (e.n1 - 9) (j + W)
      (rangeDown (i - 1) i_pos_begin).foldl (fun b k =>
        (rangeUp (j + 1) j_pos_end).foldl (fun b l =>
          let type2 := e.pt k l
          if type2 = 0 then b
          else
            let E := total e access_s1 W i c3 j k l
            if E < b.Emin then Best.mk E k l j else b) b) b)
    (Best.mk e.INF 0 0 0)

/-- The combinations `(j, k, l)` over which the readout ranges: `j` in `[i+4, n1-11]`,
`k` in `(max(9, i-W), i-1]`, `l` in `[j+1, min(n1-9, j+W)-1]`, both pair types nonzero. -/
def inReadout (e : Env) (W i j k l : Int) : Prop :=
  i + 4 ≤ j ∧ j ≤ e.n1 - 11 ∧ max 9 (i - W) < k ∧ k ≤ i - 1 ∧ j + 1 ≤ l ∧
    l ≤ min (e.n1 - 9) (j + W) - 1 ∧ e.pt i j ≠ 0 ∧ e.pt k l ≠ 0

instance (e : Env) (W i j k l : Int) : Decidable (inReadout e W i j k l) := by
  unfold inReadout; infer_instance

/-- The enumeration order of the readout: `j` increasing, then `k` decreasing, then `l`
increasing. `(j, k, l)` comes strictly before `(j2, k2, l2)`. -/
def precedes (j k l j2 k2 l2 : Int) : Prop :=
  j < j2 ∨ (j = j2 ∧ (k2 < k ∨ (k = k2 ∧ l < l2)))

instance (j k l j2 k2 l2 : Int) : Decidable (precedes j k l j2 k2 l2) := by
  unfold precedes; infer_instance

/-- The combinations visited by the readout, in the order of the three loops. -/
def readoutCands (e : Env) (W i : Int) : List (Int × Int × Int) :=
  (rangeUp (i + 4) (e.n1 - 10)).flatMap (fun j =>
    if e.pt i j = 0 then []
    else (rangeDown (i - 1) (max 9 (i - W))).flatMap (fun k =>
      ((rangeUp (j + 1) (min (e.n1 - 9) (j + W))).filter (fun l => decide (e.pt k l ≠ 0))).map
        (fun l => (j, k, l))))

/-- The update `if (E < Emin)` of the readout for one combination. -/
def pickBest (e : Env) (access_s1 : Int → Int → Int) (W i : Int) (c3 : Matrix)
    (b : Best) (c : Int × Int × Int) : Best :=
  if total e access_s1 W i c3 c.1 c.2.1 c.2.2 < b.Emin then
    Best.mk (total e access_s1 W i c3 c.1 c.2.1 c.2.2) c.2.1 c.2.2 c.1
  else b

/-- The accessibility penalty `dGx` of the combination selected by the readout. -/
def Best.dGx (b : Best) (access_s1 : Int → Int → Int) (i : Int) : Int :=
  access_s1 (i - b.k_min + 1) i

/-- The accessibility penalty `dGy` of the combination selected by the readout. -/
def Best.dGy (b : Best) (access_s1 : Int → Int → Int) : Int :=
  access_s1 (b.l_min - b.j_min + 1) b.l_min

/-- The value `total = Emin - dGx - dGy` of the acceptance test, computed in `int`. -/
def Best.net (b : Best) (access_s1 : Int → Int → Int) (i : Int) : Int :=
  wrapInt (wrapInt (b.Emin - b.dGx access_s1 i) - b.dGy access_s1)

/-- The result of the readout at scan position `i`, on the matrix filled for `i`. -/
def bestAt (e : Env) (length : Int) (access_s1 : Int → Int → Int) (W i : Int) (c3 : Matrix) :
    Best :=
  readout e access_s1 W i (filled e length W i c3)

/-- The `q` loop of `backtrack_XS`: the first `q` whose entry matches, if any. -/
def findQ (e : Env) (c3 : Matrix) (W i j k l E type p : Int) : List Int → Option Int
  | [] => none
  | q :: qs =>
    if p - k + l - q - 2 > MAXLOOP then none
    else
      let type2 := e.pt p q
      if type2 = 0 then findQ e c3 W i j k l E type p qs
      else
        let LE := e.E_IntLoop (p - k - 1) (l - q - 1) type (e.rtype type2)
          (e.SS1 (k + 1)) (e.SS1 (l - 1)) (e.SS1 (p - 1)) (e.SS1 (q + 1))
        if E = c3 (j - 11) (W - i + p - 1) (q - j) + LE then some q
        else findQ e c3 W i j k l E type p qs

/-- The `p` loop of `backtrack_XS`: the pair `(p, q)` assigned to `(k, l)` when `traced`
is set, if any. -/
def findP (e : Env) (c3 : Matrix) (W i j k l E type : Int) : List Int → Option (Int × Int)
  | [] => none
  | p :: ps =>
    match findQ e c3 W i j k l E type p (rangeDown (l - 1) (j - 1)) with
    | some q => some (p, q)
    | none => findP e c3 W i j k l E type ps

/-- State of the `while` loop of `backtrack_XS`. -/
structure Walk where
  k : Int
  l : Int
  st1 : CharArr
  st2 : CharArr

/-- The `while (k <= i && l >= j)` loop of `backtrack_XS`; `fuel` bounds the number of
executions of the body. The body starts with the read `E = c3[j-11][W-i+k-1][l-j]`; the
array has `n1` rows (the caller allocates `strlen(s1)` rows and stores that length in
`n1`), and a read outside it is `Outcome.undef`. The reads `c3[j-11][W-i+p-1][q-j]` of the
two inner loops have `k < p <= i` and `j <= q < l` and are inside the array when the first
read is. -/
def backtrackLoop (e : Env) (c3 : Matrix) (W i j i0 : Int) :
    Nat → Walk → Outcome Walk
  | fuel, w =>
    if w.k ≤ i ∧ w.l ≥ j then
      match fuel with
      | 0 => Outcome.fuel
      | fuel + 1 =>
        if ¬ inBox e.n1 W (j - 11) (W - i + w.k - 1) (w.l - j) then Outcome.undef
        else
        let E := c3 (j - 11) (W - i + w.k - 1) (w.l - j)
        let st1 := w.st1.set (w.k - i0) '('
        let st2 := w.st2.set (w.l - j) ')'
        let type := e.pt w.k w.l
        if type = 0 then Outcome.fail "backtrack failed in fold duplex bli"
        else
          match findP e c3 W i j w.k w.l E type (rangeUp (w.k + 1) (i + 1)) with
          | some (p, q) => backtrackLoop e c3 W i j i0 fuel (Walk.mk p q st1 st2)
          | none =>
            if E - e.vrna_E_ext_stem (e.rtype type) (e.SS1 (w.l - 1)) (e.SS1 (w.k + 1)) ≠ 0 then
              Outcome.fail "backtrack failed in fold duplex bal"
            else Outcome.ok (Walk.mk w.k w.l st1 st2)
    else Outcome.ok w

/-- The loop `for (p = 0; p <= hi; p++) if (!st[p]) st[p] = '.'`. -/
def padDots (st : CharArr) (hi : Int) : CharArr :=
  (rangeUp 0 (hi + 1)).foldl (fun st p => if st p = NUL then st.set p '.' else st) st

/-- Result of `backtrack_XS`: the characters written to `struc`, and the number of bytes
allocated for `struc`. -/
structure Traced where
  struc : List Char
  alloc : Int

/-- The function `backtrack_XS(k, l, i, j, max_interaction_length)`. -/
def backtrack_XS (e : Env) (c3 : Matrix) (k l i j W : Int) : Outcome Traced :=
  let st1 : CharArr := (fun _ => NUL)
  let st1 := st1.set (i - k + 1) NUL
  let st2 : CharArr := (fun _ => NUL)
  let st2 := st2.set (l - j + 1) NUL
  let i0 := k
  let j0 := l
  match backtrackLoop e c3 W i j i0 ((i - k).toNat + (l - j).toNat + 1) (Walk.mk k l st1 st2) with
  | Outcome.fuel => Outcome.fuel
  | Outcome.undef => Outcome.undef
  | Outcome.fail msg => Outcome.fail msg
  | Outcome.ok w =>
    let st1 := padDots w.st1 (i - i0)
    let st2 := padDots w.st2 (j0 - j)
    Outcome.ok (Traced.mk
      (cstring st1 (i - i0 + 2) ++ '&' :: cstring st2 (j0 - j + 2))
      (w.k - i0 + 1 + j0 - w.l + 1 + 2))

/-- An entry of the result list, `vrna_pkplex_t`. The fields `ddG`, `dG1`, `dG2` and
`energy` hold the integer (hundredths of kcal/mol) that the program multiplies by 0.01. -/
structure vrna_pkplex_t where
  tb : Int
  te : Int
  qb : Int
  qe : Int
  ddG : Int
  dG1 : Int
  dG2 : Int
  energy : Int
  /-- The field `structure`. -/
  struc : List Char
  inactive : Int
  processed : Int
deriving DecidableEq, Repr

/-- The growable array `storage` with `storage_size` and `storage_fill`. -/
structure Storage where
  storage : List vrna_pkplex_t
  storage_size : Int
  storage_fill : Int
deriving DecidableEq, Repr

/-- State carried from one scan position to the next. -/
structure Scan where
  c3 : Matrix
  store : Storage

/-- The statements executed when `total < penalty`: write the entry, advance
`storage_fill`, and grow `storage_size` by the factor 1.4 (truncated) when the array is
about to be full. -/
def append (s : Storage) (hit : vrna_pkplex_t) : Storage :=
  let storage_fill := s.storage_fill + 1
  if storage_fill = s.storage_size - 1 then
    Storage.mk (s.storage ++ [hit]) (s.storage_size * 14 / 10) storage_fill
  else
    Storage.mk (s.storage ++ [hit]) s.storage_size storage_fill

/-- The part of the body of the `while` loop of `duplexfold_XS` after the readout:
the test `Emin < penalty`, the call of `backtrack_XS` and the test `total < penalty`. -/
def accept (e : Env) (access_s1 : Int → Int → Int) (penalty W i : Int) (c3 : Matrix)
    (b : Best) (s : Storage) : Outcome Storage :=
  if b.Emin < penalty then
    match backtrack_XS e c3 b.k_min b.l_min i b.j_min W with
    | Outcome.fuel => Outcome.fuel
    | Outcome.undef => Outcome.undef
    | Outcome.fail msg => Outcome.fail msg
    | Outcome.ok t =>
      let dGx := access_s1 (i - b.k_min + 1) i
      let dGy := access_s1 (b.l_min - b.j_min + 1) b.l_min
      let total := wrapInt (wrapInt (b.Emin - dGx) - dGy)
      if total < penalty then
        Outcome.ok (append s (vrna_pkplex_t.mk (b.k_min - 10) (i - 10) (b.j_min - 10)
          (b.l_min - 10) b.Emin dGx dGy total t.struc 0 0))
      else Outcome.ok s
  else Outcome.ok s

/-- One execution of the body of `while (i-- > 11)` in `duplexfold_XS`, for the value `i`
the body sees. -/
def scanPosition (e : Env) (length : Int) (access_s1 : Int → Int → Int) (penalty W i : Int)
    (s : Scan) : Outcome Scan :=
  let c3 := filled e length W i s.c3
  let b := readout e access_s1 W i c3
  match accept e access_s1 penalty W i c3 b s.store with
  | Outcome.fuel => Outcome.fuel
  | Outcome.undef => Outcome.undef
  | Outcome.fail msg => Outcome.fail msg
  | Outcome.ok store => Outcome.ok (Scan.mk c3 store)

/-- The scan positions in the order in which `while (i-- > 11)` visits them, starting
from `i = length - 9`: `length - 10, ..., 11`. -/
def scanPositions (length : Int) : List Int := rangeDown (length - 10) 10

/-- The loop over the scan positions. -/
def scanAll (e : Env) (length : Int) (access_s1 : Int → Int → Int) (penalty W : Int) :
    List Int → Scan → Outcome Scan
  | [], s => Outcome.ok s
  | i :: is, s =>
    match scanPosition e length access_s1 penalty W i s with
    | Outcome.fuel => Outcome.fuel
    | Outcome.undef => Outcome.undef
    | Outcome.fail msg => Outcome.fail msg
    | Outcome.ok s' => scanAll e length access_s1 penalty W is s'

/-- The state before the first scan position: `c3` zero-filled by `vrna_alloc`, an empty
`storage` of capacity 64. -/
def scanStart : Scan := Scan.mk (fun _ _ _ => 0) (Storage.mk [] 64 0)

/-- The function `duplexfold_XS(s1, access_s1, penalty, max_interaction_length)`, with
`length = strlen(s1)`: the entries of the returned list before the end marker. The array
`c3` comes zero-filled from `vrna_alloc`. -/
def duplexfold_XS (e : Env) (length : Int) (access_s1 : Int → Int → Int)
    (penalty max_interaction_length : Int) : Outcome (List vrna_pkplex_t) :=
  match scanAll e length access_s1 penalty max_interaction_length (scanPositions length)
      scanStart with
  | Outcome.fuel => Outcome.fuel
  | Outcome.undef => Outcome.undef
  | Outcome.fail msg => Outcome.fail msg
  | Outcome.ok s => Outcome.ok s.store.storage

/-! ### The fill step as a list of relaxations -/

/-- One execution of the assignment in the innermost loop of the fill step:
`c3[ta][tb][tc] = MIN2(c3[ta][tb][tc], c3[sa][sb][sc] + add)`. -/
structure Relax where
  ta : Int
  tb : Int
  tc : Int
  sa : Int
  sb : Int
  sc : Int
  add : Int

/-- The effect of one relaxation on the matrix. -/
def applyRelax (c3 : Matrix) (o : Relax) : Matrix :=
  c3.set o.ta o.tb o.tc (min (c3 o.ta o.tb o.tc) (c3 o.sa o.sb o.sc + o.add))

/-! ### Chains of interior loops -/

/-- The entry of `c3` that belongs to the boundary pair `a = (k, l)` at scan position `i`
with inner partner `j`: `c3[j-11][W-i+k-1][l-j]`. -/
def entry (c3 : Matrix) (W i j : Int) (a : Int × Int) : Int :=
  c3 (j - 11) (W - i + a.1 - 1) (a.2 - j)

/-- The call of `E_IntLoop` for the interior loop closed by `a = (k, l)` outside and
`b = (p, q)` inside, as made by the fill step and by `backtrack_XS`. -/
def stepEnergy (e : Env) (a b : Int × Int) : Int :=
  e.E_IntLoop (b.1 - a.1 - 1) (a.2 - b.2 - 1) (e.pt a.1 a.2) (e.rtype (e.pt b.1 b.2))
    (e.SS1 (a.1 + 1)) (e.SS1 (a.2 - 1)) (e.SS1 (b.1 - 1)) (e.SS1 (b.2 + 1))

/-- The call `vrna_E_ext_stem(rtype[type], SS1[l-1], SS1[k+1], P)` for the pair `a = (k, l)`. -/
def stemEnergy (e : Env) (a : Int × Int) : Int :=
  e.vrna_E_ext_stem (e.rtype (e.pt a.1 a.2)) (e.SS1 (a.2 - 1)) (e.SS1 (a.1 + 1))

/-- The relaxation executed by the fill step for the loop variables `k, l, p, q, j`. -/
def relaxOf (e : Env) (W i k l p q j : Int) : Relax :=
  Relax.mk (j - 11) (W - i + k - 1) (l - j) (j - 11) (W - i + p - 1) (q - j)
    (stepEnergy e (k, l) (p, q))

/-- The relaxations of the `j` loop, in order. -/
def opsJ (e : Env) (W i k l p q : Int) : List Relax :=
  ((rangeUp (max (i + 4) (l - W + 1)) (q + 1)).filter (fun j => decide (e.pt i j ≠ 0))).map
    (fun j => relaxOf e W i k l p q j)

/-- The relaxations of the `q` loop, in order. -/
def opsQ (e : Env) (W i k l p : Int) : List Relax :=
  ((rangeDown (l - 1) (max (i + 4) (l - MAXLOOP - 1) - 1)).filter
      (fun q => decide (¬ p - k + l - q - 2 > MAXLOOP) && decide (e.pt p q ≠ 0))).flatMap
    (fun q => opsJ e W i k l p q)

/-- The relaxations of the `p` loop, in order. -/
def opsP (e : Env) (W i k l : Int) : List Relax :=
  (rangeUp (k + 1) (min i (k + MAXLOOP + 1) + 1)).flatMap (fun p => opsQ e W i k l p)

/-- The relaxations of one iteration of the `k` loop of the fill step, in order. -/
def opsL (e : Env) (W i k : Int) : List Relax :=
  ((rangeUp (i + 5) (e.n1 - 9)).filter (fun l => decide (e.pt k l ≠ 0))).flatMap
    (fun l => opsP e W i k l)

/-- A step of a chain of interior loops: from the outer pair `a = (k, l)` to the inner
pair `b = (p, q)` with `k < p`, `q < l` and at most `MAXLOOP` unpaired bases in total. -/
def link (a b : Int × Int) : Prop :=
  a.1 < b.1 ∧ b.2 < a.2 ∧ (b.1 - a.1 - 1) + (a.2 - b.2 - 1) ≤ MAXLOOP

instance (a b : Int × Int) : Decidable (link a b) := by
  unfold link; infer_instance

/-- The list `ps` is a valid chain from the boundary pair `(k, l)` to the inner pair
`(i, j)`: it starts at `(k, l)`, ends at `(i, j)`, consecutive pairs are linked and every
pair has a nonzero pair type. -/
def isChain (e : Env) (k l i j : Int) (ps : List (Int × Int)) : Prop :=
  ps.head? = some (k, l) ∧ ps.getLast? = some (i, j) ∧ List.Chain' link ps ∧
    ∀ a ∈ ps, e.pt a.1 a.2 ≠ 0

/-- Sum of the interior-loop energies between consecutive pairs of a list. -/
def loopSum (e : Env) : List (Int × Int) → Int
  | [] => 0
  | [_] => 0
  | a :: b :: rest => stepEnergy e a b + loopSum e (b :: rest)

/-- The energy of a chain that ends at `(i, j)`: the external-stem energy of `(i, j)` plus
the interior-loop energies of its steps. -/
def chainEnergy (e : Env) (i j : Int) (ps : List (Int × Int)) : Int :=
  stemEnergy e (i, j) + loopSum e ps

/-- The energy model is small relative to `INF` for the window `W`: every value of
`E_IntLoop` and of `vrna_E_ext_stem` is at most `B` in absolute value, and `W` such values
stay below `INF / 2`. -/
def smallEnergies (e : Env) (W B : Int) : Prop :=
  (∀ n1 n2 t t2 a b c d, |e.E_IntLoop n1 n2 t t2 a b c d| ≤ B) ∧
    (∀ t a b, |e.vrna_E_ext_stem t a b| ≤ B) ∧ 2 * (W * B) < e.INF

/-- The pair `b = (p, q)` is a decomposition point that `backtrack_XS` accepts at
`a = (k, l)`: it lies in the range of the two loops, the loop has at most `MAXLOOP`
unpaired bases, the pair type is nonzero and the entries match exactly. -/
def isStep (e : Env) (c3 : Matrix) (W i j : Int) (a b : Int × Int) : Prop :=
  a.1 < b.1 ∧ b.1 ≤ i ∧ j ≤ b.2 ∧ b.2 < a.2 ∧ b.1 - a.1 + a.2 - b.2 - 2 ≤ MAXLOOP ∧
    e.pt b.1 b.2 ≠ 0 ∧ entry c3 W i j a = entry c3 W i j b + stepEnergy e a b

/-- The pair `b` is the first accepted decomposition point at `a` in the order `p`
increasing, then `q` decreasing. -/
def firstStep (e : Env) (c3 : Matrix) (W i j : Int) (a b : Int × Int) : Prop :=
  isStep e c3 W i j a b ∧
    ∀ b2 : Int × Int, isStep e c3 W i j a b2 → b.1 < b2.1 ∨ (b.1 = b2.1 ∧ b2.2 ≤ b.2)

/-- The pairs at which the `while` loop of `backtrack_XS` executes its body, in order,
starting from `(k, l)`. -/
def walkPairs (e : Env) (c3 : Matrix) (W i j : Int) : Nat → Int → Int → List (Int × Int)
  | fuel, k, l =>
    if k ≤ i ∧ l ≥ j then
      match fuel with
      | 0 => []
      | fuel + 1 =>
        (k, l) ::
          (if e.pt k l = 0 then []
           else
            match findP e c3 W i j k l (c3 (j - 11) (W - i + k - 1) (l - j)) (e.pt k l)
                (rangeUp (k + 1) (i + 1)) with
            | some (p, q) => walkPairs e c3 W i j fuel p q
            | none => [])
    else []

/-- The array `st` after the assignments `st[x] = ch` for the listed indices `x`. -/
def markAll (st : CharArr) (ch : Char) (idxs : List Int) : CharArr :=
  idxs.foldl (fun st x => st.set x ch) st

/-- A string of `n` characters that has `ch` at the listed positions and `.` elsewhere. -/
def dotBracket (ch : Char) (n : Int) (idxs : List Int) : List Char :=
  (rangeUp 0 n).map (fun x => if x ∈ idxs then ch else '.')

/-- Positions of the character `ch` in a list of characters, counted from `n`. -/
def indicesFrom (ch : Char) : Int → List Char → List Int
  | _, [] => []
  | n, c :: cs => if c = ch then n :: indicesFrom ch (n + 1) cs else indicesFrom ch (n + 1) cs

/-- The part of a structure string before the separator `&`. -/
def firstHalf (struc : List Char) : List Char := struc.takeWhile (fun c => decide (c ≠ '&'))

/-- The part of a structure string after the separator `&`. -/
def secondHalf (struc : List Char) : List Char :=
  (struc.dropWhile (fun c => decide (c ≠ '&'))).drop 1

/-- The base pairs encoded by a structure string returned by `backtrack_XS(k, l, i, j)`:
the m-th `(` from the left is matched with the m-th `)` from the right; the first half
starts at sequence position `k`, the second half at `j`. -/
def decode (struc : List Char) (k j : Int) : List (Int × Int) :=
  ((indicesFrom '(' 0 (firstHalf struc)).map (fun x => k + x)).zip
    ((indicesFrom ')' 0 (secondHalf struc)).reverse.map (fun x => j + x))

/-! ### Concrete inputs used to evaluate the definitions -/

/-- The layout of `vrna_idx_col_wise`: `indx[j] = j (j - 1) / 2`. -/
def colWise (j : Int) : Int := j * (j - 1) / 2

/-- A pair-type array in which exactly the listed pairs `(i, j)` have type 1. -/
def ptypeOf (pairs : List (Int × Int)) : Int → Int :=
  fun x => if pairs.any (fun p => decide (colWise p.2 + p.1 = x)) then 1 else 0

/-- The table `rtype` of the default model: types 1 and 2, 3 and 4, 5 and 6 are swapped. -/
def rtypeDefault (t : Int) : Int :=
  if t = 1 then 2 else if t = 2 then 1 else if t = 3 then 4 else if t = 4 then 3
  else if t = 5 then 6 else if t = 6 then 5 else t

/-- A sequence of length 38 in which 12 pairs with 16 and both 10 and 11 pair with 28;
external stems cost 0 and every interior loop -3. The loop between `(11, 28)` or
`(10, 28)` and `(12, 16)` would have 11 unpaired bases, so no chain connects them. -/
def envFar : Env :=
  Env.mk 38 (ptypeOf [(12, 16), (11, 28), (10, 28)]) colWise (fun x => x) rtypeDefault
    10000000 (fun _ _ _ => 0) (fun _ _ _ _ _ _ _ _ => -3)

/-- The matrix of scan position 12 of `envFar` with window 13. -/
def c3Far : Matrix :=
  fill envFar 13 12 (baseCase envFar 13 12 (initBox envFar 38 13 (fun _ _ _ => 0)))

/-- A sequence of length 27 in which 11 pairs with 15 and 10 pairs with both 16 and 17;
every external stem costs 5 and every interior loop -3. -/
def envNear : Env :=
  Env.mk 27 (ptypeOf [(11, 15), (10, 16), (10, 17)]) colWise (fun x => x) rtypeDefault
    10000000 (fun _ _ _ => 5) (fun _ _ _ _ _ _ _ _ => -3)

/-- The matrix of scan position 11 of `envNear` with window 3. -/
def c3Near : Matrix :=
  fill envNear 3 11 (baseCase envNear 3 11 (initBox envNear 27 3 (fun _ _ _ => 0)))

/-- The entry stored at scan position 11 of `envNear` (window 3, no accessibility
penalties, `penalty = 100`): regions `0..1` and `5..6`, energy 12, structure `((&))`. -/
def hitNear : vrna_pkplex_t :=
  vrna_pkplex_t.mk 0 1 5 6 12 0 0 12 ['(', '(', '&', ')', ')'] 0 0

/-- The state after scan position 11 of `envNear`, entered from `scanStart`. -/
def scanNear : Scan := Scan.mk c3Near (Storage.mk [hitNear] 64 1)

/-- The structure `((&).)` with the 7 bytes allocated for it, returned by
`backtrack_XS(10, 17, 11, 15, 3)` on `c3Near`. -/
def tracedNear : Traced := Traced.mk ['(', '(', '&', ')', '.', ')'] 7

/-- An accessibility table with every entry `2^30`: the sum of two entries is outside the
range of `int`. -/
def accessBig : Int → Int → Int := fun _ _ => 1073741824

/-- The entry stored at scan position 11 of `envNear` with the table `accessBig`
(window 3, `penalty = 100`): `ddG = 12 - 2^31`, `dG1 = dG2 = 2^30`, `energy = 12`. -/
def hitBig : vrna_pkplex_t :=
  vrna_pkplex_t.mk 0 1 5 6 (-2147483636) 1073741824 1073741824 12
    ['(', '(', '&', ')', ')'] 0 0

/-! ### The whole search -/

/-- The result of the readout at scan position `i`. The matrix left by the previous scan
position is overwritten inside the allocated box before it is read, so the zero matrix
stands for it. -/
def bestOf (e : Env) (length : Int) (access_s1 : Int → Int → Int) (W i : Int) : Best :=
  bestAt e length access_s1 W i (fun _ _ _ => 0)

/-- The entry written to `storage` at scan position `i` for the readout result `b` and the
structure string `struc`. -/
def hitOf (access_s1 : Int → Int → Int) (i : Int) (b : Best) (struc : List Char) :
    vrna_pkplex_t :=
  vrna_pkplex_t.mk (b.k_min - 10) (i - 10) (b.j_min - 10) (b.l_min - 10) b.Emin
    (b.dGx access_s1 i) (b.dGy access_s1)
    (b.net access_s1 i) struc 0 0

/-! ### The pair-type table -/

/-- The loop `while ((i >= 1) && (j <= n))` of `make_ptypes`, as the list of assignments
`ptype[indx[j] + i] = type` it executes, each recorded as `(i, j, type)`. The loop variable
`i` only counts down to 0, so it is the natural number on which the recursion runs; the
other arguments are `j`, `type`, `ntype` and `otype` on entry to the iteration. -/
def diagWrites (S1 : Int → Int) (pair : Int → Int → Int) (noLonelyPairs n : Int) :
    Nat → Int → Int → Int → Int → List (Int × Int × Int)
  | 0, _, _, _, _ => []
  | m + 1, j, type, ntype, otype =>
    let i : Int := (m : Int) + 1
    if j ≤ n then
      let ntype := if i > 1 ∧ j < n then pair (S1 (i - 1)) (S1 (j + 1)) else ntype
      let type := if noLonelyPairs ≠ 0 ∧ otype = 0 ∧ ntype = 0 then 0 else type
      (i, j, type) :: diagWrites S1 pair noLonelyPairs n m (j + 1) ntype ntype type
    else []

/-- The assignments to `ptype` executed by `make_ptypes`, in order, each as `(i, j, type)`.
The encoded sequence `S1` (with `S1[0]` its length), the table `pair`, the constant `TURN`
and the flag `noLonelyPairs` are declared outside the file and are parameters. -/
def ptypeWrites (S1 : Int → Int) (pair : Int → Int → Int) (TURN noLonelyPairs : Int) :
    List (Int × Int × Int) :=
  let n := S1 0
  (rangeUp 1 (n - TURN)).flatMap (fun k =>
    (rangeUp 1 3).flatMap (fun l =>
      let i := k
      let j := i + TURN + l
      if j > n then []
      else diagWrites S1 pair noLonelyPairs n i.toNat j (pair (S1 i) (S1 j)) 0 0))

/-- The function `make_ptypes`: the array `ptype` after the assignments. The pair types
are small, so the cast `(char)type` keeps them. -/
def make_ptypes (S1 : Int → Int) (pair : Int → Int → Int) (TURN noLonelyPairs : Int)
    (indx : Int → Int) (ptype : Int → Int) : Int → Int :=
  (ptypeWrites S1 pair TURN noLonelyPairs).foldl
    (fun pt w => fun x => if x = indx w.2.1 + w.1 then w.2.2 else pt x) ptype

/-- The function `PKLduplexfold_XS(s1, access_s1, penalty, max_interaction_length, delta)`.
The results of `strlen`, `encode_sequence` and `vrna_idx_col_wise`, which are not in the file,
are the parameters `strlen`, `S1`, `SS1` and `indx`; the energy parameters are those of `P`.
The array `ptype` comes zero-filled from `vrna_alloc` and is filled by `make_ptypes`. -/
def PKLduplexfold_XS (P : Env) (pair : Int → Int → Int) (TURN noLonelyPairs : Int)
    (strlen : Int) (S1 SS1 indx : Int → Int) (access_s1 : Int → Int → Int)
    (penalty max_interaction_length _delta : Int) : Outcome (List vrna_pkplex_t) :=
  let n1 := strlen
  let ptype := make_ptypes S1 pair TURN noLonelyPairs indx (fun _ => 0)
  duplexfold_XS (Env.mk n1 ptype indx SS1 P.rtype P.INF P.vrna_E_ext_stem P.E_IntLoop) n1
    access_s1 penalty max_interaction_length

/-- The environment in which `PKLduplexfold_XS` runs `duplexfold_XS`. -/
def envOf (P : Env) (pair : Int → Int → Int) (TURN noLonelyPairs : Int)
    (strlen : Int) (S1 SS1 indx : Int → Int) : Env :=
  Env.mk strlen (make_ptypes S1 pair TURN noLonelyPairs indx (fun _ => 0)) indx SS1 P.rtype
    P.INF P.vrna_E_ext_stem P.E_IntLoop

/-! ### The scan in a form that evaluates

Each scan position overwrites the allocated box before reading it, so the scan can be
computed with every position starting from the zero matrix. -/

/-- The matrix of scan position `i` computed from the zero matrix, with the closed form
of the initialisation. -/
def filledBox (e : Env) (length W i : Int) : Matrix :=
  fill e W i (baseCase e W i (initBox e length W (fun _ _ _ => 0)))

/-- The image of an outcome under a function of the value. -/
def Outcome.map {α β : Type} (f : α → β) : Outcome α → Outcome β
  | Outcome.ok a => Outcome.ok (f a)
  | Outcome.fail msg => Outcome.fail msg
  | Outcome.fuel => Outcome.fuel
  | Outcome.undef => Outcome.undef

/-- The body of the scan loop for position `i`, on the matrix `filledBox`. -/
def scanPositionBox (e : Env) (length : Int) (access_s1 : Int → Int → Int)
    (penalty W i : Int) (s : Storage) : Outcome Storage :=
  accept e access_s1 penalty W i (filledBox e length W i)
    (readout e access_s1 W i (filledBox e length W i)) s

/-- The scan loop, on the matrices `filledBox`. -/
def scanAllBox (e : Env) (length : Int) (access_s1 : Int → Int → Int) (penalty W : Int) :
    List Int → Storage → Outcome Storage
  | [], s => Outcome.ok s
  | i :: is, s =>
    match scanPositionBox e length access_s1 penalty W i s with
    | Outcome.fuel => Outcome.fuel
    | Outcome.undef => Outcome.undef
    | Outcome.fail msg => Outcome.fail msg
    | Outcome.ok s2 => scanAllBox e length access_s1 penalty W is s2

/-- The result list of the search, computed on the matrices `filledBox`. -/
def duplexfoldBox (e : Env) (length : Int) (access_s1 : Int → Int → Int)
    (penalty W : Int) : Outcome (List vrna_pkplex_t) :=
  (scanAllBox e length access_s1 penalty W (scanPositions length) (Storage.mk [] 64 0)).map
    (fun s => s.storage)

/-! ### More concrete inputs -/

/-- The table `pair` of the default model for the encoding A = 1, C = 2, G = 3, U = 4:
CG = 1, GC = 2, GU = 3, UG = 4, AU = 5, UA = 6, every other combination 0. -/
def pairStd (a b : Int) : Int :=
  if a = 2 ∧ b = 3 then 1 else if a = 3 ∧ b = 2 then 2 else if a = 3 ∧ b = 4 then 3
  else if a = 4 ∧ b = 3 then 4 else if a = 1 ∧ b = 4 then 5 else if a = 4 ∧ b = 1 then 6
  else 0

/-- An encoded sequence of length 27 (stored at index 0) with G at positions 10 and 11 and
C at positions 15 and 16; every other position holds 0 and pairs with nothing. -/
def seqNear (x : Int) : Int :=
  if x = 0 then 27 else if x = 10 ∨ x = 11 then 3 else if x = 15 ∨ x = 16 then 2 else 0

/-- A sequence of length 38 in which no two positions pair. -/
def envNone : Env :=
  Env.mk 38 (fun _ => 0) colWise (fun x => x) rtypeDefault 10000000 (fun _ _ _ => 5)
    (fun _ _ _ _ _ _ _ _ => -3)

/-- A sequence of length 25 in which 11 pairs with 15 and 10 pairs with 16. -/
def envShort : Env :=
  Env.mk 25 (ptypeOf [(11, 15), (10, 16)]) colWise (fun x => x) rtypeDefault 10000000
    (fun _ _ _ => 5) (fun _ _ _ _ _ _ _ _ => -3)

/-- A sequence of length 38 in which 11 pairs with 15 and with 16, and 10 pairs with 27;
external stems cost 0 and every interior loop -3. The loop between `(10, 27)` and
`(11, 15)` would have 11 unpaired bases and `(11, 16)` is not enclosed by a pair that
reaches `(11, 15)`, so no chain connects `(10, 27)` to `(11, 15)`. -/
def envSide : Env :=
  Env.mk 38 (ptypeOf [(11, 15), (11, 16), (10, 27)]) colWise (fun x => x) rtypeDefault
    10000000 (fun _ _ _ => 0) (fun _ _ _ _ _ _ _ _ => -3)

/-! ### Scan positions with a connected best candidate -/

/-- The readout of scan position `i` selected a combination, and a valid chain of interior
loops connects its boundary pair `(k_min, l_min)` to the inner pair `(i, j_min)`. -/
def connectedAt (e : Env) (length : Int) (access_s1 : Int → Int → Int) (W i : Int) : Prop :=
  (bestOf e length access_s1 W i).Emin < e.INF ∧
    ∃ ps, isChain e (bestOf e length access_s1 W i).k_min (bestOf e length access_s1 W i).l_min
      i (bestOf e length access_s1 W i).j_min ps

/-- The threshold `penalty` lies above the best total and the net energy of every scan
position with a connected best candidate, and not above the best total of any other scan
position (which is `INF` where the readout selected nothing). -/
def stablePenalty (e : Env) (length : Int) (access_s1 : Int → Int → Int) (W penalty : Int) :
    Prop :=
  ∀ i ∈ scanPositions length,
    (connectedAt e length access_s1 W i →
      (bestOf e length access_s1 W i).Emin < penalty ∧
      (bestOf e length access_s1 W i).net access_s1 i < penalty) ∧
    (¬ connectedAt e length access_s1 W i → penalty ≤ (bestOf e length access_s1 W i).Emin)

/-! ### Sequences for the pair-type table -/

/-- An encoded sequence of length 7 (stored at index 0) with A at position 1 and U at
position 7; every other position holds 0 and pairs with nothing. -/
def seqEnd (x : Int) : Int :=
  if x = 0 then 7 else if x = 1 then 1 else if x = 7 then 4 else 0

/-- An encoded sequence of length 9 (stored at index 0) with A at position 2 and U at
position 8; every other position holds 0 and pairs with nothing. -/
def seqMid (x : Int) : Int :=
  if x = 0 then 9 else if x = 2 then 1 else if x = 8 then 4 else 0

/-! ### Decomposition points of the fill step and of the backtracking -/

/-- The decomposition points `(p, q)` over which the two `for` loops of `backtrack_XS` range
at the pair `(k, l)`, in order: `p` from `k + 1` up to `i`; for each `p`, `q` from `l - 1`
down to `j` until `p - k + l - q - 2 > MAXLOOP` leaves the `q` loop; points of pair type 0
are skipped. -/
def backtrackPoints (e : Env) (i j k l : Int) : List (Int × Int) :=
  (rangeUp (k + 1) (i + 1)).flatMap (fun p =>
    (((rangeDown (l - 1) (j - 1)).takeWhile
        (fun q => decide (¬ p - k + l - q - 2 > MAXLOOP))).filter
      (fun q => decide (e.pt p q ≠ 0))).map (fun q => (p, q)))

/-- The test `E == c3[j-11][W-i+p-1][q-j] + LE` of `backtrack_XS` at the point `pq`, with
`LE` the value of `E_IntLoop` for the loop closed by `(k, l)` and `pq`. -/
def matchAt (e : Env) (c3 : Matrix) (W i j k l E type : Int) (pq : Int × Int) : Bool :=
  decide (E = c3 (j - 11) (W - i + pq.1 - 1) (pq.2 - j) +
    e.E_IntLoop (pq.1 - k - 1) (l - pq.2 - 1) type (e.rtype (e.pt pq.1 pq.2))
      (e.SS1 (k + 1)) (e.SS1 (l - 1)) (e.SS1 (pq.1 - 1)) (e.SS1 (pq.2 + 1)))

/-- The relaxations of iteration `k` of the fill step that assign the entry
`c3[j-11][W-i+k-1][l-j]` of the inner partner `j` and the boundary pair `(k, l)`, in the
order in which they are executed. -/
def fillUpdates (e : Env) (W i j k l : Int) : List Relax :=
  (opsL e W i k).filter
    (fun o => decide (o.ta = j - 11 ∧ o.tb = W - i + k - 1 ∧ o.tc = l - j))

/-- The decomposition points `(p, q)` through which the fill step updates the entry of
`(j, k, l)`, in order: the source entry of each relaxation is `c3[j-11][W-i+p-1][q-j]`. -/
def fillPoints (e : Env) (W i j k l : Int) : List (Int × Int) :=
  (fillUpdates e W i j k l).map (fun o => (o.sb - W + i + 1, o.sc + j))

/-- The order of the two loops over decomposition points: `p` increasing, then `q`
decreasing. -/
def pointBefore (a b : Int × Int) : Prop :=
  a.1 < b.1 ∨ (a.1 = b.1 ∧ b.2 < a.2)

/-! ### The result collector -/

/-- The array `storage` has room for the next entry and for the end marker:
`storage_fill <= storage_size - 2`, with `storage_fill` the number of entries stored and a
capacity of at least 64. -/
def withinCapacity (s : Storage) : Prop :=
  (s.storage.length : Int) = s.storage_fill ∧ s.storage_fill + 2 ≤ s.storage_size ∧
    64 ≤ s.storage_size

/-! # Lemmas and theorems -/

/-! ## Loop ranges -/

theorem mem_rangeUp {lo hi x : Int} : x ∈ rangeUp lo hi ↔ lo ≤ x ∧ x < hi := by
  unfold rangeUp
  simp only [List.mem_map, List.mem_range]
  constructor
  · rintro ⟨t, ht, rfl⟩
    rw [Int.lt_toNat] at ht
    omega
  · rintro ⟨h1, h2⟩
    refine ⟨(x - lo).toNat, ?_, ?_⟩
    · rw [Int.lt_toNat, Int.toNat_of_nonneg (by omega)]; omega
    · rw [Int.toNat_of_nonneg (by omega)]; omega

theorem mem_rangeDown {hi lo x : Int} : x ∈ rangeDown hi lo ↔ lo < x ∧ x ≤ hi := by
  unfold rangeDown
  simp only [List.mem_map, List.mem_range]
  constructor
  · rintro ⟨t, ht, rfl⟩
    rw [Int.lt_toNat] at ht
    omega
  · rintro ⟨h1, h2⟩
    refine ⟨(hi - x).toNat, ?_, ?_⟩
    · rw [Int.lt_toNat, Int.toNat_of_nonneg (by omega)]; omega
    · rw [Int.toNat_of_nonneg (by omega)]; omega

theorem pairwise_rangeUp (lo hi : Int) : (rangeUp lo hi).Pairwise (fun a b => a < b) := by
  unfold rangeUp
  rw [List.pairwise_map]
  exact (List.pairwise_lt_range _).imp (fun h => by have := Int.ofNat_lt.mpr h; omega)

theorem pairwise_rangeDown (hi lo : Int) : (rangeDown hi lo).Pairwise (fun a b => b < a) := by
  unfold rangeDown
  rw [List.pairwise_map]
  exact (List.pairwise_lt_range _).imp (fun h => by have := Int.ofNat_lt.mpr h; omega)

theorem rangeUp_nil {lo hi : Int} (h : hi ≤ lo) : rangeUp lo hi = [] := by
  unfold rangeUp
  have : (hi - lo).toNat = 0 := Int.toNat_eq_zero.mpr (by omega)
  simp [this]

theorem rangeUp_cons {lo hi : Int} (h : lo < hi) : rangeUp lo hi = lo :: rangeUp (lo + 1) hi := by
  unfold rangeUp
  have h0 : ((hi - lo).toNat : Int) = hi - lo := Int.toNat_of_nonneg (by omega)
  have h1 : ((hi - (lo + 1)).toNat : Int) = hi - (lo + 1) := Int.toNat_of_nonneg (by omega)
  obtain ⟨n, hn⟩ : ∃ n : Nat, (hi - lo).toNat = n + 1 := ⟨(hi - lo).toNat - 1, by omega⟩
  have h2 : (hi - (lo + 1)).toNat = n := by omega
  rw [hn, h2, List.range_succ_eq_map]
  simp only [List.map_cons, List.map_map, Nat.cast_zero, add_zero, List.cons.injEq, true_and]
  apply List.map_congr_left
  intro t _
  simp only [Function.comp_apply, Nat.cast_succ]
  omega

theorem rangeDown_nil {hi lo : Int} (h : hi ≤ lo) : rangeDown hi lo = [] := by
  unfold rangeDown
  have : (hi - lo).toNat = 0 := Int.toNat_eq_zero.mpr (by omega)
  simp [this]

theorem rangeDown_cons {hi lo : Int} (h : lo < hi) :
    rangeDown hi lo = hi :: rangeDown (hi - 1) lo := by
  unfold rangeDown
  have h0 : ((hi - lo).toNat : Int) = hi - lo := Int.toNat_of_nonneg (by omega)
  have h1 : ((hi - 1 - lo).toNat : Int) = hi - 1 - lo := Int.toNat_of_nonneg (by omega)
  obtain ⟨n, hn⟩ : ∃ n : Nat, (hi - lo).toNat = n + 1 := ⟨(hi - lo).toNat - 1, by omega⟩
  have h2 : (hi - 1 - lo).toNat = n := by omega
  rw [hn, h2, List.range_succ_eq_map]
  simp only [List.map_cons, List.map_map, Nat.cast_zero, sub_zero, List.cons.injEq, true_and]
  apply List.map_congr_left
  intro t _
  simp only [Function.comp_apply, Nat.cast_succ]
  omega

theorem foldl_flatMap_eq {α β γ : Type} (f : β → γ → β) (g : α → List γ) (l : List α) (b : β) :
    (l.flatMap g).foldl f b = l.foldl (fun b a => (g a).foldl f b) b := by
  induction l generalizing b with
  | nil => rfl
  | cons a l ih => simp [List.flatMap_cons, List.foldl_append, ih]

/-! ## Readout -/

theorem foldl_filter_map_eq {α β γ : Type} (f : β → γ → β) (g : α → γ) (p : α → Bool)
    (l : List α) (b : β) :
    ((l.filter p).map g).foldl f b = l.foldl (fun b a => if p a then f b (g a) else b) b := by
  induction l generalizing b with
  | nil => rfl
  | cons a l ih =>
    by_cases h : p a <;> simp [List.filter_cons, h, ih]

theorem readout_eq_foldl (e : Env) (access_s1 : Int → Int → Int) (W i : Int) (c3 : Matrix) :
    readout e access_s1 W i c3 =
      (readoutCands e W i).foldl (pickBest e access_s1 W i c3) (Best.mk e.INF 0 0 0) := by
  unfold readout readoutCands
  rw [foldl_flatMap_eq]
  apply List.foldl_ext
  intro b j _
  by_cases h : e.pt i j = 0
  · simp [h]
  · simp only [h, if_false]
    rw [foldl_flatMap_eq]
    apply List.foldl_ext
    intro b k _
    rw [foldl_filter_map_eq]
    apply List.foldl_ext
    intro b l _
    by_cases h2 : e.pt k l = 0
    · simp [h2]
    · simp [h2, pickBest]

theorem mem_readoutCands {e : Env} {W i : Int} {c : Int × Int × Int} :
    c ∈ readoutCands e W i ↔ inReadout e W i c.1 c.2.1 c.2.2 := by
  obtain ⟨j, k, l⟩ := c
  unfold readoutCands inReadout
  simp only [List.mem_flatMap, mem_rangeUp, mem_rangeDown]
  constructor
  · rintro ⟨j', hj, h⟩
    by_cases hp : e.pt i j' = 0
    · simp [hp] at h
    · simp only [hp, if_false, List.mem_flatMap, mem_rangeDown, List.mem_map, List.mem_filter,
        mem_rangeUp, decide_eq_true_eq, Prod.mk.injEq] at h
      obtain ⟨k', hk, l', ⟨hl, hpl⟩, rfl, rfl, rfl⟩ := h
      exact ⟨hj.1, by omega, hk.1, hk.2, hl.1, by omega, hp, hpl⟩
  · rintro ⟨h1, h2, h3, h4, h5, h6, h7, h8⟩
    refine ⟨j, ⟨h1, by omega⟩, ?_⟩
    simp only [h7, if_false, List.mem_flatMap, mem_rangeDown, List.mem_map, List.mem_filter,
        mem_rangeUp, decide_eq_true_eq, Prod.mk.injEq]
    exact ⟨k, ⟨h3, h4⟩, l, ⟨⟨h5, by omega⟩, h8⟩, trivial, rfl, rfl⟩

theorem pairwise_readoutCands (e : Env) (W i : Int) :
    (readoutCands e W i).Pairwise
      (fun c d => precedes c.1 c.2.1 c.2.2 d.1 d.2.1 d.2.2) := by
  unfold readoutCands
  rw [List.pairwise_flatMap]
  constructor
  · intro j _
    by_cases hp : e.pt i j = 0
    · simp [hp]
    · simp only [hp, if_false]
      rw [List.pairwise_flatMap]
      constructor
      · intro k _
        rw [List.pairwise_map]
        apply List.Pairwise.filter
        exact (pairwise_rangeUp _ _).imp (fun h => Or.inr ⟨rfl, Or.inr ⟨rfl, h⟩⟩)
      · refine (pairwise_rangeDown _ _).imp ?_
        intro k1 k2 hk x hx y hy
        simp only [List.mem_map, List.mem_filter] at hx hy
        obtain ⟨_, _, rfl⟩ := hx
        obtain ⟨_, _, rfl⟩ := hy
        exact Or.inr ⟨rfl, Or.inl hk⟩
  · refine (pairwise_rangeUp _ _).imp ?_
    intro j1 j2 hj x hx y hy
    have hx1 : x.1 = j1 := by
      by_cases hp : e.pt i j1 = 0
      · simp [hp] at hx
      · simp only [hp, if_false, List.mem_flatMap, List.mem_map] at hx
        obtain ⟨_, _, _, _, rfl⟩ := hx
        rfl
    have hy1 : y.1 = j2 := by
      by_cases hp : e.pt i j2 = 0
      · simp [hp] at hy
      · simp only [hp, if_false, List.mem_flatMap, List.mem_map] at hy
        obtain ⟨_, _, _, _, rfl⟩ := hy
        rfl
    exact Or.inl (by rw [hx1, hy1]; exact hj)

/-- Invariant of the running minimum after the combinations `cs` have been examined. -/
theorem pickBest_foldl (e : Env) (access_s1 : Int → Int → Int) (W i : Int) (c3 : Matrix)
    (cs : List (Int × Int × Int)) :
    let tot := fun c : Int × Int × Int => total e access_s1 W i c3 c.1 c.2.1 c.2.2
    let b := cs.foldl (pickBest e access_s1 W i c3) (Best.mk e.INF 0 0 0)
    (b = Best.mk e.INF 0 0 0 ∧ ∀ c ∈ cs, e.INF ≤ tot c) ∨
    (∃ pre c post, cs = pre ++ c :: post ∧ b = Best.mk (tot c) c.2.1 c.2.2 c.1 ∧
      tot c < e.INF ∧ (∀ d ∈ pre, tot c < tot d) ∧ ∀ d ∈ post, tot c ≤ tot d) := by
  intro tot
  induction cs using List.reverseRecOn with
  | nil => left; simp
  | append_singleton cs c ih =>
    simp only [List.foldl_append, List.foldl_cons, List.foldl_nil]
    rcases ih with ⟨hb, hall⟩ | ⟨pre, c0, post, hcs, hb, hlt, hpre, hpost⟩
    · rw [hb]
      by_cases hc : tot c < e.INF
      · right
        refine ⟨cs, c, [], by simp, ?_, hc, ?_, by simp⟩
        · simp only [pickBest]; rw [if_pos hc]
        · intro d hd
          exact lt_of_lt_of_le hc (hall d hd)
      · left
        refine ⟨?_, ?_⟩
        · simp only [pickBest]; rw [if_neg hc]
        · intro d hd
          rcases List.mem_append.mp hd with h | h
          · exact hall d h
          · simp only [List.mem_singleton] at h
            rw [h]; exact not_lt.mp hc
    · rw [hb]
      right
      by_cases hc : tot c < tot c0
      · refine ⟨cs, c, [], by simp, ?_, lt_trans hc hlt, ?_, by simp⟩
        · simp only [pickBest]; rw [if_pos hc]
        · intro d hd
          rw [hcs] at hd
          rcases List.mem_append.mp hd with h | h
          · exact lt_trans hc (hpre d h)
          · rcases List.mem_cons.mp h with h | h
            · rw [h]; exact hc
            · exact lt_of_lt_of_le hc (hpost d h)
      · refine ⟨pre, c0, post ++ [c], by simp [hcs], ?_, hlt, hpre, ?_⟩
        · simp only [pickBest]; rw [if_neg hc]
        · intro d hd
          rcases List.mem_append.mp hd with h | h
          · exact hpost d h
          · simp only [List.mem_singleton] at h
            rw [h]; exact not_lt.mp hc

/-! ## Initialisation -/

theorem foldl_set_const (xs : List Int) (c3 : Matrix) (j k v : Int) :
    xs.foldl (fun c3 l => Matrix.set c3 j k l v) c3 =
      fun a b c => if a = j ∧ b = k ∧ c ∈ xs then v else c3 a b c := by
  induction xs generalizing c3 with
  | nil => funext a b c; simp
  | cons x xs ih =>
    rw [List.foldl_cons, ih]
    funext a b c
    simp only [Matrix.set, List.mem_cons]
    by_cases h1 : a = j <;> by_cases h2 : b = k <;> by_cases h3 : c = x <;>
      by_cases h4 : c ∈ xs <;> simp [h1, h2, h3, h4]

theorem foldl_set_const2 (ks xs : List Int) (c3 : Matrix) (j v : Int) :
    ks.foldl (fun c3 k => xs.foldl (fun c3 l => Matrix.set c3 j k l v) c3) c3 =
      fun a b c => if a = j ∧ b ∈ ks ∧ c ∈ xs then v else c3 a b c := by
  induction ks generalizing c3 with
  | nil => funext a b c; simp
  | cons k ks ih =>
    rw [List.foldl_cons, ih, foldl_set_const]
    funext a b c
    simp only [List.mem_cons]
    by_cases h1 : a = j <;> by_cases h2 : b = k <;> by_cases h3 : b ∈ ks <;>
      by_cases h4 : c ∈ xs <;> simp [h1, h2, h3, h4]

theorem foldl_set_const3 (js ks xs : List Int) (c3 : Matrix) (v : Int) :
    js.foldl (fun c3 j =>
        ks.foldl (fun c3 k => xs.foldl (fun c3 l => Matrix.set c3 j k l v) c3) c3) c3 =
      fun a b c => if a ∈ js ∧ b ∈ ks ∧ c ∈ xs then v else c3 a b c := by
  induction js generalizing c3 with
  | nil => funext a b c; simp
  | cons j js ih =>
    rw [List.foldl_cons, ih, foldl_set_const2]
    funext a b c
    simp only [List.mem_cons]
    by_cases h1 : a = j <;> by_cases h2 : a ∈ js <;> by_cases h3 : b ∈ ks <;>
      by_cases h4 : c ∈ xs <;> simp [h1, h2, h3, h4]

theorem initMatrix_eq (e : Env) (length W : Int) (c3 : Matrix) :
    initMatrix e length W c3 = initBox e length W c3 := by
  unfold initMatrix initBox
  rw [foldl_set_const3]
  funext a b c
  simp only [mem_rangeUp]
  congr 1
  apply propext
  constructor
  · rintro ⟨⟨h1, h2⟩, ⟨h3, h4⟩, h5, h6⟩; exact ⟨h1, h2, h3, h4, h5, h6⟩
  · rintro ⟨h1, h2, h3, h4, h5, h6⟩; exact ⟨⟨h1, h2⟩, ⟨h3, h4⟩, h5, h6⟩

/-! ## Arithmetic of `int` -/

theorem wrapInt_of_range (x : Int) (h1 : -2147483648 ≤ x) (h2 : x < 2147483648) :
    wrapInt x = x := by
  unfold wrapInt
  omega

theorem wrapInt_range (x : Int) : -2147483648 ≤ wrapInt x ∧ wrapInt x < 2147483648 := by
  unfold wrapInt
  omega

/-- The reduction `wrapInt` gives the representative in `[-2^31, 2^31)` modulo `2^32`; it
leaves a value of that range unchanged. -/
theorem wrapInt_char (x : Int) :
    -2147483648 ≤ wrapInt x ∧ wrapInt x < 2147483648 ∧ (wrapInt x - x) % 4294967296 = 0 ∧
      (-2147483648 ≤ x → x < 2147483648 → wrapInt x = x) := by
  unfold wrapInt
  omega

theorem wrapInt_add_left (a b : Int) : wrapInt (wrapInt a + b) = wrapInt (a + b) := by
  unfold wrapInt
  omega

theorem wrapInt_add_right (a b : Int) : wrapInt (a + wrapInt b) = wrapInt (a + b) := by
  unfold wrapInt
  omega

theorem wrapInt_sub_left (a b : Int) : wrapInt (wrapInt a - b) = wrapInt (a - b) := by
  unfold wrapInt
  omega

theorem wrapInt_sum (a b c d f : Int) :
    wrapInt (wrapInt (wrapInt (a + wrapInt (b + c)) + d) + f) = wrapInt (a + b + c + d + f) := by
  unfold wrapInt
  omega

/-- The three `int` additions of the readout give the sum of the five terms, reduced to
the range of `int`. -/
theorem total_eq (e : Env) (access_s1 : Int → Int → Int) (W i : Int) (c3 : Matrix)
    (j k l : Int) :
    total e access_s1 W i c3 j k l =
      wrapInt (c3 (j - 11) (W - i + k - 1) (l - j)
        + access_s1 (i - k + 1) i + access_s1 (l - j + 1) l
        + e.vrna_E_ext_stem (e.pt k l)
            (if k > max 9 (i - W) + 1 then e.SS1 (k - 1) else -1)
            (if l < min (e.n1 - 9) (j + W) - 1 then e.SS1 (l + 1) else -1)
        + e.vrna_E_ext_stem (e.rtype (e.pt i j)) (e.SS1 (j - 1)) (e.SS1 (i + 1))) := by
  exact wrapInt_sum _ _ _ _ _

/-- The readout in terms of the energies `total` of the combinations in its range. -/
theorem readout_spec (e : Env) (access_s1 : Int → Int → Int) (W i : Int) (c3 : Matrix) :
    ((∀ j k l, inReadout e W i j k l → e.INF ≤ total e access_s1 W i c3 j k l) ∧
      readout e access_s1 W i c3 = Best.mk e.INF 0 0 0) ∨
    ((readout e access_s1 W i c3).Emin < e.INF ∧
      inReadout e W i (readout e access_s1 W i c3).j_min (readout e access_s1 W i c3).k_min
        (readout e access_s1 W i c3).l_min ∧
      total e access_s1 W i c3 (readout e access_s1 W i c3).j_min
        (readout e access_s1 W i c3).k_min (readout e access_s1 W i c3).l_min =
        (readout e access_s1 W i c3).Emin ∧
      ∀ j k l, inReadout e W i j k l →
        (readout e access_s1 W i c3).Emin ≤ total e access_s1 W i c3 j k l ∧
        (total e access_s1 W i c3 j k l = (readout e access_s1 W i c3).Emin →
          (j = (readout e access_s1 W i c3).j_min ∧ k = (readout e access_s1 W i c3).k_min ∧
            l = (readout e access_s1 W i c3).l_min) ∨
          precedes (readout e access_s1 W i c3).j_min (readout e access_s1 W i c3).k_min
            (readout e access_s1 W i c3).l_min j k l)) := by
  rw [readout_eq_foldl]
  have key := pickBest_foldl e access_s1 W i c3 (readoutCands e W i)
  simp only at key
  rcases key with ⟨hb, hall⟩ | ⟨pre, c, post, hcs, hb, hlt, hpre, hpost⟩
  · left
    exact ⟨fun j k l h => hall (j, k, l) (mem_readoutCands.mpr h), hb⟩
  · right
    rw [hb]
    obtain ⟨j0, k0, l0⟩ := c
    have hc : inReadout e W i j0 k0 l0 :=
      (mem_readoutCands (c := (j0, k0, l0))).mp (by rw [hcs]; simp)
    refine ⟨hlt, hc, rfl, ?_⟩
    intro j k l h
    have hm : (j, k, l) ∈ readoutCands e W i := mem_readoutCands.mpr h
    have hpw := pairwise_readoutCands e W i
    rw [hcs] at hm hpw
    rcases List.mem_append.mp hm with h1 | h1
    · have h3 := hpre _ h1
      simp only at h3
      exact ⟨le_of_lt h3, fun h4 => by simp only at h4; omega⟩
    · rcases List.mem_cons.mp h1 with h2 | h2
      · simp only [Prod.mk.injEq] at h2
        obtain ⟨rfl, rfl, rfl⟩ := h2
        exact ⟨le_refl _, fun _ => Or.inl ⟨rfl, rfl, rfl⟩⟩
      · have h3 := hpost _ h2
        simp only at h3
        refine ⟨h3, fun _ => Or.inr ?_⟩
        exact (List.pairwise_cons.mp (List.pairwise_append.mp hpw).2.1).1 _ h2

/-- C2 (amended): the value `Emin` of the readout is the minimum of `INF` and of the
energies of all combinations `(j, k, l)` in the readout range, where the energy of a
combination is the sum `c3[j-11][W-i+k-1][l-j] + access[i-k+1][i] + access[l-j+1][l] +
ext_stem(type(k,l), flanks) + ext_stem(rtype[type(i,j)], SS1[j-1], SS1[i+1])` reduced to
the range of `int` (the 5' flank is `SS1[k-1]` unless `k` is the leftmost admissible `k`,
the 3' flank is `SS1[l+1]` unless `l` is the rightmost admissible `l`, and -1 otherwise).
When `Emin < INF` the stored `(j_min, k_min, l_min)` is in the range and its energy is
`Emin`. The reduction `wrapInt` gives the representative in `[-2^31, 2^31)` modulo `2^32`
and leaves every sum inside the range of `int` unchanged. -/
theorem readout_minimum (e : Env) (access_s1 : Int → Int → Int) (W i : Int) (c3 : Matrix) :
    (readout e access_s1 W i c3).Emin ≤ e.INF ∧
    (∀ j k l, inReadout e W i j k l →
      (readout e access_s1 W i c3).Emin ≤
        wrapInt (c3 (j - 11) (W - i + k - 1) (l - j)
          + access_s1 (i - k + 1) i + access_s1 (l - j + 1) l
          + e.vrna_E_ext_stem (e.pt k l)
              (if k > max 9 (i - W) + 1 then e.SS1 (k - 1) else -1)
              (if l < min (e.n1 - 9) (j + W) - 1 then e.SS1 (l + 1) else -1)
          + e.vrna_E_ext_stem (e.rtype (e.pt i j)) (e.SS1 (j - 1)) (e.SS1 (i + 1)))) ∧
    ((readout e access_s1 W i c3).Emin = e.INF ∨
      ∃ j k l, inReadout e W i j k l ∧
        (readout e access_s1 W i c3).Emin =
          wrapInt (c3 (j - 11) (W - i + k - 1) (l - j)
            + access_s1 (i - k + 1) i + access_s1 (l - j + 1) l
            + e.vrna_E_ext_stem (e.pt k l)
                (if k > max 9 (i - W) + 1 then e.SS1 (k - 1) else -1)
                (if l < min (e.n1 - 9) (j + W) - 1 then e.SS1 (l + 1) else -1)
            + e.vrna_E_ext_stem (e.rtype (e.pt i j)) (e.SS1 (j - 1)) (e.SS1 (i + 1)))) ∧
    ((readout e access_s1 W i c3).Emin < e.INF →
      inReadout e W i (readout e access_s1 W i c3).j_min (readout e access_s1 W i c3).k_min
        (readout e access_s1 W i c3).l_min ∧
      wrapInt (c3 ((readout e access_s1 W i c3).j_min - 11) (W - i + (readout e access_s1 W i c3).k_min - 1) ((readout e access_s1 W i c3).l_min - (readout e access_s1 W i c3).j_min)
        + access_s1 (i - (readout e access_s1 W i c3).k_min + 1) i + access_s1 ((readout e access_s1 W i c3).l_min - (readout e access_s1 W i c3).j_min + 1) (readout e access_s1 W i c3).l_min
        + e.vrna_E_ext_stem (e.pt (readout e access_s1 W i c3).k_min (readout e access_s1 W i c3).l_min)
            (if (readout e access_s1 W i c3).k_min > max 9 (i - W) + 1 then e.SS1 ((readout e access_s1 W i c3).k_min - 1) else -1)
            (if (readout e access_s1 W i c3).l_min < min (e.n1 - 9) ((readout e access_s1 W i c3).j_min + W) - 1 then e.SS1 ((readout e access_s1 W i c3).l_min + 1) else -1)
        + e.vrna_E_ext_stem (e.rtype (e.pt i (readout e access_s1 W i c3).j_min)) (e.SS1 ((readout e access_s1 W i c3).j_min - 1)) (e.SS1 (i + 1))) =
        (readout e access_s1 W i c3).Emin) ∧
    (∀ x : Int, -2147483648 ≤ wrapInt x ∧ wrapInt x < 2147483648 ∧
      (wrapInt x - x) % 4294967296 = 0 ∧
      (-2147483648 ≤ x → x < 2147483648 → wrapInt x = x)) := by
  refine ⟨?_, ?_, ?_, ?_, wrapInt_char⟩
  · rcases readout_spec e access_s1 W i c3 with ⟨_, hb⟩ | ⟨hlt, _, _, _⟩
    · rw [hb]
    · exact le_of_lt hlt
  · intro j k l h
    rw [← total_eq]
    rcases readout_spec e access_s1 W i c3 with ⟨hall, hb⟩ | ⟨_, _, _, hmin⟩
    · rw [hb]
      exact hall j k l h
    · exact (hmin j k l h).1
  · rcases readout_spec e access_s1 W i c3 with ⟨_, hb⟩ | ⟨_, hsel, hatt, _⟩
    · left
      rw [hb]
    · right
      refine ⟨_, _, _, hsel, ?_⟩
      rw [← total_eq]
      exact hatt.symm
  · intro hlt
    rcases readout_spec e access_s1 W i c3 with ⟨_, hb⟩ | ⟨_, hsel, hatt, _⟩
    · rw [hb] at hlt
      exact absurd hlt (lt_irrefl _)
    · refine ⟨hsel, ?_⟩
      rw [← total_eq]
      exact hatt

theorem c3Far_eq : filled envFar 38 13 12 (fun _ _ _ => 0) = c3Far := by
  unfold filled c3Far
  rw [initMatrix_eq]

theorem c3Near_fill : filled envNear 27 3 11 (fun _ _ _ => 0) = c3Near := by
  unfold filled c3Near
  rw [initMatrix_eq]

set_option maxRecDepth 100000 in
/-- C2 (counterexample): at scan position 11 of `envNear` with window 3 and every
accessibility penalty equal to `2^30`, the sum of the five terms is at least `INF` for every
combination of the readout range, so the minimum of `INF` and of those sums is `INF`; the
readout computes `Emin = 12 - 2^31`, because the `int` sum of the two penalties is
`-2^31`. -/
theorem readout_minimum_counterexample :
    (readout envNear accessBig 3 11 (filled envNear 27 3 11 (fun _ _ _ => 0))).Emin =
      -2147483636 ∧
    envNear.INF = 10000000 ∧
    ∀ j k l, inReadout envNear 3 11 j k l →
      envNear.INF ≤
        (filled envNear 27 3 11 (fun _ _ _ => 0)) (j - 11) (3 - 11 + k - 1) (l - j)
        + accessBig (11 - k + 1) 11 + accessBig (l - j + 1) l
        + envNear.vrna_E_ext_stem (envNear.pt k l)
            (if k > max 9 (11 - 3) + 1 then envNear.SS1 (k - 1) else -1)
            (if l < min (envNear.n1 - 9) (j + 3) - 1 then envNear.SS1 (l + 1) else -1)
        + envNear.vrna_E_ext_stem (envNear.rtype (envNear.pt 11 j)) (envNear.SS1 (j - 1)) (envNear.SS1 (11 + 1)) := by
  rw [c3Near_fill]
  refine ⟨by decide, rfl, ?_⟩
  intro j k l h
  have hall : ∀ c ∈ readoutCands envNear 3 11,
      envNear.INF ≤
        c3Near (c.1 - 11) (3 - 11 + c.2.1 - 1) (c.2.2 - c.1)
        + accessBig (11 - c.2.1 + 1) 11 + accessBig (c.2.2 - c.1 + 1) c.2.2
        + envNear.vrna_E_ext_stem (envNear.pt c.2.1 c.2.2)
            (if c.2.1 > max 9 (11 - 3) + 1 then envNear.SS1 (c.2.1 - 1) else -1)
            (if c.2.2 < min (envNear.n1 - 9) (c.1 + 3) - 1 then envNear.SS1 (c.2.2 + 1) else -1)
        + envNear.vrna_E_ext_stem (envNear.rtype (envNear.pt 11 c.1)) (envNear.SS1 (c.1 - 1)) (envNear.SS1 (11 + 1)) := by
    decide
  exact hall (j, k, l) (mem_readoutCands.mpr h)

/-- C3 (amended): the energy `total` of a combination is the `int` sum of the readout. When
every combination of the readout range has an energy of at least `INF`, the readout selects
nothing: it keeps `Emin = INF` and `(0, 0, 0)`. When some combination has an energy below
`INF`, the readout stores a combination of the range that attains the minimal energy
`Emin < INF`, and every combination that attains it is the stored one or comes after it in
the enumeration order (`j` increasing, then `k` decreasing, then `l` increasing). The scan
positions are visited in decreasing order. -/
theorem readout_first (e : Env) (access_s1 : Int → Int → Int) (W i length : Int)
    (c3 : Matrix) :
    (∀ j k l, total e access_s1 W i c3 j k l =
      wrapInt (c3 (j - 11) (W - i + k - 1) (l - j)
        + access_s1 (i - k + 1) i + access_s1 (l - j + 1) l
        + e.vrna_E_ext_stem (e.pt k l)
            (if k > max 9 (i - W) + 1 then e.SS1 (k - 1) else -1)
            (if l < min (e.n1 - 9) (j + W) - 1 then e.SS1 (l + 1) else -1)
        + e.vrna_E_ext_stem (e.rtype (e.pt i j)) (e.SS1 (j - 1)) (e.SS1 (i + 1)))) ∧
    ((∀ j k l, inReadout e W i j k l → e.INF ≤ total e access_s1 W i c3 j k l) →
      readout e access_s1 W i c3 = Best.mk e.INF 0 0 0) ∧
    ((∃ j k l, inReadout e W i j k l ∧ total e access_s1 W i c3 j k l < e.INF) →
      (readout e access_s1 W i c3).Emin < e.INF ∧
      inReadout e W i (readout e access_s1 W i c3).j_min (readout e access_s1 W i c3).k_min
        (readout e access_s1 W i c3).l_min ∧
      total e access_s1 W i c3 (readout e access_s1 W i c3).j_min
        (readout e access_s1 W i c3).k_min (readout e access_s1 W i c3).l_min =
        (readout e access_s1 W i c3).Emin ∧
      ∀ j k l, inReadout e W i j k l →
        (readout e access_s1 W i c3).Emin ≤ total e access_s1 W i c3 j k l ∧
        (total e access_s1 W i c3 j k l = (readout e access_s1 W i c3).Emin →
          (j = (readout e access_s1 W i c3).j_min ∧ k = (readout e access_s1 W i c3).k_min ∧
            l = (readout e access_s1 W i c3).l_min) ∨
          precedes (readout e access_s1 W i c3).j_min (readout e access_s1 W i c3).k_min
            (readout e access_s1 W i c3).l_min j k l)) ∧
    (scanPositions length).Pairwise (fun a b => b < a) := by
  refine ⟨fun j k l => total_eq e access_s1 W i c3 j k l, ?_, ?_, pairwise_rangeDown _ _⟩
  · intro hall
    rcases readout_spec e access_s1 W i c3 with ⟨_, hb⟩ | ⟨hlt, hsel, hatt, _⟩
    · exact hb
    · have h1 := hall _ _ _ hsel
      rw [hatt] at h1
      exact absurd hlt (not_lt.mpr h1)
  · rintro ⟨j, k, l, h, hlt⟩
    rcases readout_spec e access_s1 W i c3 with ⟨hall, _⟩ | hr
    · exact absurd hlt (not_lt.mpr (hall j k l h))
    · exact hr

set_option maxRecDepth 100000 in
/-- C3 (counterexample): at scan position 12 of `envFar` the combinations `(16, 11, 28)`
and `(16, 10, 28)` both attain the minimal total of the readout range, yet the readout
selects neither: it keeps `(0, 0, 0)`, which is not in the range. -/
theorem readout_first_counterexample :
    inReadout envFar 13 12 16 11 28 ∧ inReadout envFar 13 12 16 10 28 ∧
    (∀ j k l, inReadout envFar 13 12 j k l →
      total envFar (fun _ _ => 0) 13 12 (filled envFar 38 13 12 (fun _ _ _ => 0)) 16 11 28 ≤
        total envFar (fun _ _ => 0) 13 12 (filled envFar 38 13 12 (fun _ _ _ => 0)) j k l) ∧
    total envFar (fun _ _ => 0) 13 12 (filled envFar 38 13 12 (fun _ _ _ => 0)) 16 10 28 =
      total envFar (fun _ _ => 0) 13 12 (filled envFar 38 13 12 (fun _ _ _ => 0)) 16 11 28 ∧
    readout envFar (fun _ _ => 0) 13 12 (filled envFar 38 13 12 (fun _ _ _ => 0)) =
      Best.mk 10000000 0 0 0 ∧
    ¬ inReadout envFar 13 12 0 0 0 := by
  rw [c3Far_eq]
  refine ⟨by decide, by decide, ?_, by decide, by decide, by decide⟩
  intro j k l h
  have hall : ∀ c ∈ readoutCands envFar 13 12,
      total envFar (fun _ _ => 0) 13 12 c3Far 16 11 28 ≤
        total envFar (fun _ _ => 0) 13 12 c3Far c.1 c.2.1 c.2.2 := by decide
  exact hall (j, k, l) (mem_readoutCands.mpr h)

set_option maxRecDepth 100000 in
theorem readout_first_witness :
    (∃ j k l, inReadout envNear 3 11 j k l ∧
      total envNear (fun _ _ => 0) 3 11 c3Near j k l < envNear.INF) ∧
    readout envNear (fun _ _ => 0) 3 11 c3Near = Best.mk 12 10 16 15 ∧
    total envNear (fun _ _ => 0) 3 11 c3Near 15 10 17 = 12 ∧
    ((readout envNear (fun _ _ => 0) 3 11 c3Near).Emin < envNear.INF ∧
      inReadout envNear 3 11 (readout envNear (fun _ _ => 0) 3 11 c3Near).j_min
        (readout envNear (fun _ _ => 0) 3 11 c3Near).k_min
        (readout envNear (fun _ _ => 0) 3 11 c3Near).l_min ∧
      total envNear (fun _ _ => 0) 3 11 c3Near
        (readout envNear (fun _ _ => 0) 3 11 c3Near).j_min
        (readout envNear (fun _ _ => 0) 3 11 c3Near).k_min
        (readout envNear (fun _ _ => 0) 3 11 c3Near).l_min =
        (readout envNear (fun _ _ => 0) 3 11 c3Near).Emin ∧
      ∀ j k l, inReadout envNear 3 11 j k l →
        (readout envNear (fun _ _ => 0) 3 11 c3Near).Emin ≤
          total envNear (fun _ _ => 0) 3 11 c3Near j k l ∧
        (total envNear (fun _ _ => 0) 3 11 c3Near j k l =
            (readout envNear (fun _ _ => 0) 3 11 c3Near).Emin →
          (j = (readout envNear (fun _ _ => 0) 3 11 c3Near).j_min ∧
            k = (readout envNear (fun _ _ => 0) 3 11 c3Near).k_min ∧
            l = (readout envNear (fun _ _ => 0) 3 11 c3Near).l_min) ∨
          precedes (readout envNear (fun _ _ => 0) 3 11 c3Near).j_min
            (readout envNear (fun _ _ => 0) 3 11 c3Near).k_min
            (readout envNear (fun _ _ => 0) 3 11 c3Near).l_min j k l)) :=
  ⟨⟨15, 10, 16, by decide, by decide⟩, by decide, by decide,
    (readout_first envNear (fun _ _ => 0) 3 11 27 c3Near).2.2.1
      ⟨15, 10, 16, by decide, by decide⟩⟩

/-! ## Acceptance test -/

theorem append_storage (s : Storage) (hit : vrna_pkplex_t) :
    (append s hit).storage = s.storage ++ [hit] := by
  unfold append
  simp only
  split <;> rfl

/-- C4 (amended): when the body of the scan loop completes for position `i`, an entry is
appended to the result list exactly when `Emin < penalty` and the `int` value of
`Emin - dG1 - dG2` (the difference reduced to the range of `int`) is below `penalty`;
otherwise the list is unchanged. The appended entry has `te = i - 10` and records `Emin`,
the two accessibility penalties of the selected combination and that `int` value. The
reduction `wrapInt` gives the representative in `[-2^31, 2^31)` modulo `2^32` and leaves a
difference inside the range of `int` unchanged. -/
theorem accept_iff (e : Env) (length : Int) (access_s1 : Int → Int → Int) (penalty W i : Int)
    (s s2 : Scan) (h : scanPosition e length access_s1 penalty W i s = Outcome.ok s2) :
    ((((bestAt e length access_s1 W i s.c3).Emin < penalty ∧
      wrapInt ((bestAt e length access_s1 W i s.c3).Emin
        - (bestAt e length access_s1 W i s.c3).dGx access_s1 i
        - (bestAt e length access_s1 W i s.c3).dGy access_s1) < penalty) ↔
      ∃ hit, s2.store.storage = s.store.storage ++ [hit]) ∧
    (¬ ((bestAt e length access_s1 W i s.c3).Emin < penalty ∧
      wrapInt ((bestAt e length access_s1 W i s.c3).Emin
        - (bestAt e length access_s1 W i s.c3).dGx access_s1 i
        - (bestAt e length access_s1 W i s.c3).dGy access_s1) < penalty) →
      s2.store = s.store) ∧
    (∀ hit, s2.store.storage = s.store.storage ++ [hit] →
      hit.te = i - 10 ∧
      hit.ddG = (bestAt e length access_s1 W i s.c3).Emin ∧
      hit.dG1 = (bestAt e length access_s1 W i s.c3).dGx access_s1 i ∧
      hit.dG2 = (bestAt e length access_s1 W i s.c3).dGy access_s1 ∧
      hit.energy = wrapInt (hit.ddG - hit.dG1 - hit.dG2))) ∧
    (∀ x : Int, -2147483648 ≤ wrapInt x ∧ wrapInt x < 2147483648 ∧
      (wrapInt x - x) % 4294967296 = 0 ∧
      (-2147483648 ≤ x → x < 2147483648 → wrapInt x = x)) := by
  unfold bestAt Best.dGx Best.dGy
  generalize hb : readout e access_s1 W i (filled e length W i s.c3) = b at *
  have hne : ∀ (l : List vrna_pkplex_t) (x : vrna_pkplex_t), l ≠ l ++ [x] := by
    intro l x hl
    have := congrArg List.length hl
    simp at this
  unfold scanPosition at h
  simp only [hb] at h
  unfold accept at h
  simp only [wrapInt_sub_left] at h
  refine ⟨?_, wrapInt_char⟩
  by_cases h1 : b.Emin < penalty
  · simp only [h1, if_true] at h
    cases hbt : backtrack_XS e (filled e length W i s.c3) b.k_min b.l_min i b.j_min W with
    | fuel => rw [hbt] at h; simp at h
    | undef => rw [hbt] at h; simp at h
    | fail msg => rw [hbt] at h; simp at h
    | ok t =>
      rw [hbt] at h
      by_cases h2 : wrapInt (b.Emin - access_s1 (i - b.k_min + 1) i -
          access_s1 (b.l_min - b.j_min + 1) b.l_min) < penalty
      · simp only [h2, if_true, Outcome.ok.injEq] at h
        subst h
        simp only [append_storage]
        refine ⟨⟨fun _ => ⟨_, rfl⟩, fun _ => ⟨h1, h2⟩⟩, fun hn => absurd ⟨h1, h2⟩ hn, ?_⟩
        intro hit hh
        have := List.append_cancel_left hh
        simp only [List.cons.injEq, and_true] at this
        subst this
        exact ⟨rfl, rfl, rfl, rfl, rfl⟩
      · simp only [h2, if_false, Outcome.ok.injEq] at h
        subst h
        refine ⟨⟨fun hc => absurd hc.2 h2, fun ⟨hit, hh⟩ => absurd hh (hne _ _)⟩,
          fun _ => rfl, fun hit hh => absurd hh (hne _ _)⟩
  · simp only [h1, if_false, Outcome.ok.injEq] at h
    subst h
    refine ⟨⟨fun hc => absurd hc.1 h1, fun ⟨hit, hh⟩ => absurd hh (hne _ _)⟩,
      fun _ => rfl, fun hit hh => absurd hh (hne _ _)⟩

/-- C5 (amended): when `Emin` is not below `penalty`, the body of the scan loop finishes
without calling `backtrack_XS` and leaves the result list unchanged; when `Emin` is below
`penalty`, `backtrack_XS` is called before the net energy (the `int` value of
`Emin - dG1 - dG2`) is tested, and a failure of that call ends the search whatever the net
energy is. -/
theorem accept_backtracks (e : Env) (access_s1 : Int → Int → Int) (penalty W i : Int)
    (c3 : Matrix) (b : Best) (s : Storage) :
    (¬ b.Emin < penalty → accept e access_s1 penalty W i c3 b s = Outcome.ok s) ∧
    (b.Emin < penalty → ∀ msg,
      backtrack_XS e c3 b.k_min b.l_min i b.j_min W = Outcome.fail msg →
      accept e access_s1 penalty W i c3 b s = Outcome.fail msg) ∧
    (b.Emin < penalty → ∀ t,
      backtrack_XS e c3 b.k_min b.l_min i b.j_min W = Outcome.ok t →
      ¬ wrapInt (b.Emin - access_s1 (i - b.k_min + 1) i
          - access_s1 (b.l_min - b.j_min + 1) b.l_min) < penalty →
      accept e access_s1 penalty W i c3 b s = Outcome.ok s) := by
  refine ⟨?_, ?_, ?_⟩
  · intro h; unfold accept; simp [h]
  · intro h msg hbt; unfold accept; simp [h, hbt]
  · intro h t hbt h2
    unfold accept
    simp only [wrapInt_sub_left]
    simp [h, hbt, h2]

set_option maxRecDepth 100000 in
/-- C5 (counterexample): at scan position 12 of `envFar`, with every accessibility penalty
equal to -1 and `penalty = INF`, the best total is below `penalty` and the net energy is
not, so the candidate is rejected; `backtrack_XS` has nevertheless been called, and its
failure ends the search. -/
theorem accept_backtracks_counterexample :
    (readout envFar (fun _ _ => -1) 13 12 (filled envFar 38 13 12 scanStart.c3)).Emin
      < 10000000 ∧
    ¬ ((readout envFar (fun _ _ => -1) 13 12 (filled envFar 38 13 12 scanStart.c3)).Emin
      - (-1) - (-1) < 10000000) ∧
    scanPosition envFar 38 (fun _ _ => -1) 10000000 13 12 scanStart =
      Outcome.fail "backtrack failed in fold duplex bal" := by
  have h : filled envFar 38 13 12 scanStart.c3 = c3Far := c3Far_eq
  unfold scanPosition
  simp only [h]
  refine ⟨by decide, by decide, ?_⟩
  rfl

theorem c3Near_eq : filled envNear 27 3 11 scanStart.c3 = c3Near := by
  unfold filled c3Near
  rw [initMatrix_eq]
  rfl

theorem scanPosition_near :
    scanPosition envNear 27 (fun _ _ => 0) 100 3 11 scanStart = Outcome.ok scanNear := by
  have h : filled envNear 27 3 11 scanStart.c3 = c3Near := c3Near_eq
  unfold scanPosition
  simp only [h]
  rfl

theorem accept_iff_witness :
    scanPosition envNear 27 (fun _ _ => 0) 100 3 11 scanStart = Outcome.ok scanNear ∧
    ((((bestAt envNear 27 (fun _ _ => 0) 3 11 scanStart.c3).Emin < 100 ∧
      wrapInt ((bestAt envNear 27 (fun _ _ => 0) 3 11 scanStart.c3).Emin
        - (bestAt envNear 27 (fun _ _ => 0) 3 11 scanStart.c3).dGx (fun _ _ => 0) 11
        - (bestAt envNear 27 (fun _ _ => 0) 3 11 scanStart.c3).dGy (fun _ _ => 0)) < 100) ↔
      ∃ hit, scanNear.store.storage = scanStart.store.storage ++ [hit]) ∧
    (∀ hit, scanNear.store.storage = scanStart.store.storage ++ [hit] →
      hit.te = 11 - 10 ∧
      hit.ddG = (bestAt envNear 27 (fun _ _ => 0) 3 11 scanStart.c3).Emin ∧
      hit.dG1 = (bestAt envNear 27 (fun _ _ => 0) 3 11 scanStart.c3).dGx (fun _ _ => 0) 11 ∧
      hit.dG2 = (bestAt envNear 27 (fun _ _ => 0) 3 11 scanStart.c3).dGy (fun _ _ => 0) ∧
      hit.energy = wrapInt (hit.ddG - hit.dG1 - hit.dG2))) :=
  ⟨scanPosition_near,
    (accept_iff envNear 27 (fun _ _ => 0) 100 3 11 scanStart scanNear scanPosition_near).1.1,
    (accept_iff envNear 27 (fun _ _ => 0) 100 3 11 scanStart scanNear
      scanPosition_near).1.2.2⟩

set_option maxRecDepth 100000 in
/-- C4 (counterexample): at scan position 11 of `envNear` with window 3, every accessibility
penalty equal to `2^30` and `penalty = 10`, the best total is `Emin = 12 - 2^31 < 10` and
`Emin - dG1 - dG2 = 12 - 2^32 < 10`, yet no entry is appended: the `int` value of
`Emin - dG1 - dG2` is 12. -/
theorem accept_iff_counterexample :
    scanPosition envNear 27 accessBig 10 3 11 scanStart =
      Outcome.ok (Scan.mk c3Near scanStart.store) ∧
    (bestAt envNear 27 accessBig 3 11 scanStart.c3).Emin = -2147483636 ∧
    (bestAt envNear 27 accessBig 3 11 scanStart.c3).Emin < 10 ∧
    (bestAt envNear 27 accessBig 3 11 scanStart.c3).Emin
      - (bestAt envNear 27 accessBig 3 11 scanStart.c3).dGx accessBig 11
      - (bestAt envNear 27 accessBig 3 11 scanStart.c3).dGy accessBig < 10 ∧
    wrapInt ((bestAt envNear 27 accessBig 3 11 scanStart.c3).Emin
      - (bestAt envNear 27 accessBig 3 11 scanStart.c3).dGx accessBig 11
      - (bestAt envNear 27 accessBig 3 11 scanStart.c3).dGy accessBig) = 12 := by
  have h : filled envNear 27 3 11 scanStart.c3 = c3Near := c3Near_eq
  unfold scanPosition bestAt
  simp only [h]
  refine ⟨?_, by decide, by decide, by decide, by decide⟩
  rfl

/-! ## The search for a decomposition point in `backtrack_XS` -/

theorem findQ_some {e : Env} {c3 : Matrix} {W i j k l E type p : Int} {qs : List Int} {q : Int}
    (hs : qs.Pairwise (fun a b => b < a))
    (h : findQ e c3 W i j k l E type p qs = some q) :
    q ∈ qs ∧ p - k + l - q - 2 ≤ MAXLOOP ∧ e.pt p q ≠ 0 ∧
      E = c3 (j - 11) (W - i + p - 1) (q - j) + e.E_IntLoop (p - k - 1) (l - q - 1) type
        (e.rtype (e.pt p q)) (e.SS1 (k + 1)) (e.SS1 (l - 1)) (e.SS1 (p - 1)) (e.SS1 (q + 1)) ∧
      ∀ q2 ∈ qs, q < q2 → ¬ (e.pt p q2 ≠ 0 ∧
        E = c3 (j - 11) (W - i + p - 1) (q2 - j) + e.E_IntLoop (p - k - 1) (l - q2 - 1) type
          (e.rtype (e.pt p q2)) (e.SS1 (k + 1)) (e.SS1 (l - 1)) (e.SS1 (p - 1))
          (e.SS1 (q2 + 1))) := by
  induction qs with
  | nil => simp [findQ] at h
  | cons x xs ih =>
    rw [List.pairwise_cons] at hs
    unfold findQ at h
    by_cases h1 : p - k + l - x - 2 > MAXLOOP
    · simp [h1] at h
    · simp only [h1, if_false] at h
      by_cases h2 : e.pt p x = 0
      · simp only [h2, if_true] at h
        obtain ⟨m, s, t, u, v⟩ := ih hs.2 h
        refine ⟨List.mem_cons_of_mem _ m, s, t, u, ?_⟩
        intro q2 hq2 hlt
        rcases List.mem_cons.mp hq2 with r | r
        · subst r; intro hh; exact hh.1 h2
        · exact v q2 r hlt
      · simp only [h2, if_false] at h
        by_cases h3 : E = c3 (j - 11) (W - i + p - 1) (x - j) + e.E_IntLoop (p - k - 1)
            (l - x - 1) type (e.rtype (e.pt p x)) (e.SS1 (k + 1)) (e.SS1 (l - 1))
            (e.SS1 (p - 1)) (e.SS1 (x + 1))
        · rw [if_pos h3] at h
          simp only [Option.some.injEq] at h
          subst h
          refine ⟨List.mem_cons_self _ _, not_lt.mp h1, h2, h3, ?_⟩
          intro q2 hq2 hlt
          rcases List.mem_cons.mp hq2 with r | r
          · omega
          · have := hs.1 q2 r; omega
        · rw [if_neg h3] at h
          obtain ⟨m, s, t, u, v⟩ := ih hs.2 h
          refine ⟨List.mem_cons_of_mem _ m, s, t, u, ?_⟩
          intro q2 hq2 hlt
          rcases List.mem_cons.mp hq2 with r | r
          · subst r; intro hh; exact h3 hh.2
          · exact v q2 r hlt

theorem findQ_none {e : Env} {c3 : Matrix} {W i j k l E type p : Int} {qs : List Int}
    (hs : qs.Pairwise (fun a b => b < a))
    (h : findQ e c3 W i j k l E type p qs = none) :
    ∀ q ∈ qs, ¬ (p - k + l - q - 2 ≤ MAXLOOP ∧ e.pt p q ≠ 0 ∧
      E = c3 (j - 11) (W - i + p - 1) (q - j) + e.E_IntLoop (p - k - 1) (l - q - 1) type
        (e.rtype (e.pt p q)) (e.SS1 (k + 1)) (e.SS1 (l - 1)) (e.SS1 (p - 1))
        (e.SS1 (q + 1))) := by
  induction qs with
  | nil => simp
  | cons x xs ih =>
    rw [List.pairwise_cons] at hs
    unfold findQ at h
    intro q hq
    by_cases h1 : p - k + l - x - 2 > MAXLOOP
    · intro hh
      rcases List.mem_cons.mp hq with r | r
      · subst r; omega
      · have := hs.1 q r; omega
    · simp only [h1, if_false] at h
      by_cases h2 : e.pt p x = 0
      · simp only [h2, if_true] at h
        rcases List.mem_cons.mp hq with r | r
        · subst r; intro hh; exact hh.2.1 h2
        · exact ih hs.2 h q r
      · simp only [h2, if_false] at h
        by_cases h3 : E = c3 (j - 11) (W - i + p - 1) (x - j) + e.E_IntLoop (p - k - 1)
            (l - x - 1) type (e.rtype (e.pt p x)) (e.SS1 (k + 1)) (e.SS1 (l - 1))
            (e.SS1 (p - 1)) (e.SS1 (x + 1))
        · rw [if_pos h3] at h; simp at h
        · rw [if_neg h3] at h
          rcases List.mem_cons.mp hq with r | r
          · subst r; intro hh; exact h3 hh.2.2
          · exact ih hs.2 h q r

theorem findP_some {e : Env} {c3 : Matrix} {W i j k l : Int} {ps : List Int} {p q : Int}
    (hs : ps.Pairwise (fun a b => a < b)) (hps : ∀ x ∈ ps, k < x ∧ x ≤ i)
    (h : findP e c3 W i j k l (entry c3 W i j (k, l)) (e.pt k l) ps = some (p, q)) :
    p ∈ ps ∧ isStep e c3 W i j (k, l) (p, q) ∧
      ∀ b2 : Int × Int, b2.1 ∈ ps → isStep e c3 W i j (k, l) b2 →
        p < b2.1 ∨ (p = b2.1 ∧ b2.2 ≤ q) := by
  induction ps with
  | nil => simp [findP] at h
  | cons x xs ih =>
    rw [List.pairwise_cons] at hs
    unfold findP at h
    cases hq : findQ e c3 W i j k l (entry c3 W i j (k, l)) (e.pt k l) x
        (rangeDown (l - 1) (j - 1)) with
    | some q0 =>
      rw [hq] at h
      simp only [Option.some.injEq, Prod.mk.injEq] at h
      obtain ⟨rfl, rfl⟩ := h
      obtain ⟨m, s, t, u, v⟩ := findQ_some (pairwise_rangeDown _ _) hq
      rw [mem_rangeDown] at m
      have hx := hps x (List.mem_cons_self _ _)
      refine ⟨List.mem_cons_self _ _, ⟨hx.1, hx.2, by omega, by omega, s, t, u⟩, ?_⟩
      rintro ⟨p2, q2⟩ hb2 hst
      simp only at hb2 ⊢
      rcases List.mem_cons.mp hb2 with r | r
      · right
        refine ⟨r.symm, ?_⟩
        by_contra hlt
        subst r
        obtain ⟨a1, a2, a3, a4, a5, a6, a7⟩ := hst
        simp only at a3 a4
        exact v q2 (mem_rangeDown.mpr ⟨by omega, by omega⟩) (by omega) ⟨a6, a7⟩
      · left; exact hs.1 p2 r
    | none =>
      rw [hq] at h
      simp only at h
      obtain ⟨m, s, v⟩ := ih hs.2 (fun y hy => hps y (List.mem_cons_of_mem _ hy)) h
      refine ⟨List.mem_cons_of_mem _ m, s, ?_⟩
      rintro ⟨p2, q2⟩ hb2 hst
      simp only at hb2 ⊢
      rcases List.mem_cons.mp hb2 with r | r
      · exfalso
        subst r
        obtain ⟨a1, a2, a3, a4, a5, a6, a7⟩ := hst
        simp only at a3 a4 a5
        exact findQ_none (pairwise_rangeDown _ _) hq q2
          (mem_rangeDown.mpr ⟨by omega, by omega⟩) ⟨a5, a6, a7⟩
      · exact v (p2, q2) r hst

theorem findP_none {e : Env} {c3 : Matrix} {W i j k l : Int} {ps : List Int}
    (h : findP e c3 W i j k l (entry c3 W i j (k, l)) (e.pt k l) ps = none) :
    ∀ b2 : Int × Int, b2.1 ∈ ps → ¬ isStep e c3 W i j (k, l) b2 := by
  induction ps with
  | nil => simp
  | cons x xs ih =>
    unfold findP at h
    cases hq : findQ e c3 W i j k l (entry c3 W i j (k, l)) (e.pt k l) x
        (rangeDown (l - 1) (j - 1)) with
    | some q0 => rw [hq] at h; simp at h
    | none =>
      rw [hq] at h
      simp only at h
      rintro ⟨p2, q2⟩ hb2 hst
      simp only at hb2
      rcases List.mem_cons.mp hb2 with r | r
      · subst r
        obtain ⟨a1, a2, a3, a4, a5, a6, a7⟩ := hst
        simp only at a3 a4 a5
        exact findQ_none (pairwise_rangeDown _ _) hq q2
          (mem_rangeDown.mpr ⟨by omega, by omega⟩) ⟨a5, a6, a7⟩
      · exact ih h (p2, q2) r hst

/-- The two loops of `backtrack_XS` find the first accepted decomposition point. -/
theorem findP_firstStep {e : Env} {c3 : Matrix} {W i j k l p q : Int}
    (h : findP e c3 W i j k l (entry c3 W i j (k, l)) (e.pt k l) (rangeUp (k + 1) (i + 1)) =
      some (p, q)) :
    firstStep e c3 W i j (k, l) (p, q) := by
  obtain ⟨_, s, v⟩ := findP_some (pairwise_rangeUp _ _)
    (fun x hx => by rw [mem_rangeUp] at hx; omega) h
  refine ⟨s, ?_⟩
  intro b2 hb2
  exact v b2 (mem_rangeUp.mpr ⟨by have := hb2.1; simp only at this; omega,
    by have := hb2.2.1; omega⟩) hb2

/-- When the two loops of `backtrack_XS` leave `traced` unset, no decomposition point is
accepted at `(k, l)`. -/
theorem findP_noStep {e : Env} {c3 : Matrix} {W i j k l : Int}
    (h : findP e c3 W i j k l (entry c3 W i j (k, l)) (e.pt k l) (rangeUp (k + 1) (i + 1)) =
      none) :
    ∀ b2 : Int × Int, ¬ isStep e c3 W i j (k, l) b2 := by
  intro b2 hb2
  exact findP_none h b2 (mem_rangeUp.mpr ⟨by have := hb2.1; simp only at this; omega,
    by have := hb2.2.1; omega⟩) hb2

/-! ## The walk of `backtrack_XS` -/

theorem walkPairs_zero (e : Env) (c3 : Matrix) (W i j k l : Int) :
    walkPairs e c3 W i j 0 k l = [] := by
  unfold walkPairs
  split <;> rfl

theorem walkPairs_stop (e : Env) (c3 : Matrix) (W i j k l : Int) (fuel : Nat)
    (h : ¬ (k ≤ i ∧ l ≥ j)) : walkPairs e c3 W i j fuel k l = [] := by
  unfold walkPairs
  rw [if_neg h]

theorem walkPairs_succ (e : Env) (c3 : Matrix) (W i j k l : Int) (fuel : Nat)
    (h : k ≤ i ∧ l ≥ j) :
    walkPairs e c3 W i j (fuel + 1) k l =
      (k, l) ::
        (if e.pt k l = 0 then []
         else
          match findP e c3 W i j k l (entry c3 W i j (k, l)) (e.pt k l)
              (rangeUp (k + 1) (i + 1)) with
          | some (p, q) => walkPairs e c3 W i j fuel p q
          | none => []) := by
  rw [walkPairs, if_pos h]
  rfl

theorem backtrackLoop_stop (e : Env) (c3 : Matrix) (W i j i0 : Int) (fuel : Nat) (w : Walk)
    (h : ¬ (w.k ≤ i ∧ w.l ≥ j)) : backtrackLoop e c3 W i j i0 fuel w = Outcome.ok w := by
  unfold backtrackLoop
  rw [if_neg h]

theorem backtrackLoop_zero (e : Env) (c3 : Matrix) (W i j i0 : Int) (w : Walk)
    (h : w.k ≤ i ∧ w.l ≥ j) : backtrackLoop e c3 W i j i0 0 w = Outcome.fuel := by
  unfold backtrackLoop
  rw [if_pos h]

theorem backtrackLoop_undef (e : Env) (c3 : Matrix) (W i j i0 : Int) (fuel : Nat) (w : Walk)
    (h : w.k ≤ i ∧ w.l ≥ j) (hb : ¬ inBox e.n1 W (j - 11) (W - i + w.k - 1) (w.l - j)) :
    backtrackLoop e c3 W i j i0 (fuel + 1) w = Outcome.undef := by
  rw [backtrackLoop, if_pos h]
  simp only
  rw [if_pos hb]

theorem backtrackLoop_succ (e : Env) (c3 : Matrix) (W i j i0 : Int) (fuel : Nat) (w : Walk)
    (h : w.k ≤ i ∧ w.l ≥ j) (hb : inBox e.n1 W (j - 11) (W - i + w.k - 1) (w.l - j)) :
    backtrackLoop e c3 W i j i0 (fuel + 1) w =
      if e.pt w.k w.l = 0 then Outcome.fail "backtrack failed in fold duplex bli"
      else
        match findP e c3 W i j w.k w.l (entry c3 W i j (w.k, w.l)) (e.pt w.k w.l)
            (rangeUp (w.k + 1) (i + 1)) with
        | some (p, q) =>
          backtrackLoop e c3 W i j i0 fuel
            (Walk.mk p q (w.st1.set (w.k - i0) '(') (w.st2.set (w.l - j) ')'))
        | none =>
          if entry c3 W i j (w.k, w.l) - stemEnergy e (w.k, w.l) ≠ 0 then
            Outcome.fail "backtrack failed in fold duplex bal"
          else Outcome.ok (Walk.mk w.k w.l (w.st1.set (w.k - i0) '(') (w.st2.set (w.l - j) ')')) := by
  rw [backtrackLoop, if_pos h]
  simp only
  rw [if_neg (not_not.mpr hb)]
  rfl

/-- Bounds and monotonicity of the pairs visited by the walk. -/
theorem walkPairs_bounds (e : Env) (c3 : Matrix) (W i j : Int) :
    ∀ (fuel : Nat) (k l : Int),
      (∀ a ∈ walkPairs e c3 W i j fuel k l, k ≤ a.1 ∧ a.1 ≤ i ∧ j ≤ a.2 ∧ a.2 ≤ l) ∧
      (walkPairs e c3 W i j fuel k l).Pairwise (fun a b => a.1 < b.1 ∧ b.2 < a.2) ∧
      ((walkPairs e c3 W i j fuel k l).length ≤ (min (i - k) (l - j) + 1).toNat) := by
  intro fuel
  induction fuel with
  | zero =>
    intro k l
    rw [walkPairs_zero]
    simp
  | succ fuel ih =>
    intro k l
    by_cases h : k ≤ i ∧ l ≥ j
    · rw [walkPairs_succ e c3 W i j k l fuel h]
      by_cases hp : e.pt k l = 0
      · simp only [hp, if_true, List.mem_singleton, List.pairwise_cons, List.not_mem_nil,
          List.length_singleton]
        refine ⟨?_, ?_, ?_⟩
        · rintro a rfl; simp only; omega
        · simp
        · omega
      · simp only [hp, if_false]
        cases hf : findP e c3 W i j k l (entry c3 W i j (k, l)) (e.pt k l)
            (rangeUp (k + 1) (i + 1)) with
        | none =>
          simp only [List.mem_singleton, List.pairwise_cons, List.not_mem_nil,
            List.length_singleton]
          refine ⟨?_, ?_, ?_⟩
          · rintro a rfl; simp only; omega
          · simp
          · omega
        | some b =>
          obtain ⟨p, q⟩ := b
          simp only
          have hst := (findP_firstStep hf).1
          obtain ⟨a1, a2, a3, a4, _⟩ := hst
          simp only at a1 a2 a3 a4
          obtain ⟨ih1, ih2, ih3⟩ := ih p q
          refine ⟨?_, ?_, ?_⟩
          · intro a ha
            rcases List.mem_cons.mp ha with r | r
            · subst r; simp only; omega
            · have := ih1 a r; omega
          · rw [List.pairwise_cons]
            refine ⟨?_, ih2⟩
            intro a ha
            have := ih1 a ha
            simp only
            omega
          · simp only [List.length_cons]
            omega
    · rw [walkPairs_stop e c3 W i j k l _ h]
      simp

theorem markAll_nil (st : CharArr) (ch : Char) : markAll st ch [] = st := rfl

theorem markAll_cons (st : CharArr) (ch : Char) (x : Int) (xs : List Int) :
    markAll st ch (x :: xs) = markAll (st.set x ch) ch xs := rfl

/-- What the loop of `backtrack_XS` has done when it ends without failure. -/
theorem backtrackLoop_ok (e : Env) (c3 : Matrix) (W i j i0 : Int) :
    ∀ (fuel : Nat) (w w2 : Walk), backtrackLoop e c3 W i j i0 fuel w = Outcome.ok w2 →
      w2.st1 = markAll w.st1 '(' ((walkPairs e c3 W i j fuel w.k w.l).map (fun a => a.1 - i0)) ∧
      w2.st2 = markAll w.st2 ')' ((walkPairs e c3 W i j fuel w.k w.l).map (fun a => a.2 - j)) ∧
      (w2.k, w2.l) = (walkPairs e c3 W i j fuel w.k w.l).getLastD (w.k, w.l) ∧
      (∀ a ∈ walkPairs e c3 W i j fuel w.k w.l, e.pt a.1 a.2 ≠ 0) ∧
      List.Chain' (firstStep e c3 W i j) (walkPairs e c3 W i j fuel w.k w.l) ∧
      (∀ a, (walkPairs e c3 W i j fuel w.k w.l).getLast? = some a →
        entry c3 W i j a = stemEnergy e a ∧ ∀ b, ¬ isStep e c3 W i j a b) := by
  intro fuel
  induction fuel with
  | zero =>
    intro w w2 h
    by_cases hc : w.k ≤ i ∧ w.l ≥ j
    · rw [backtrackLoop_zero e c3 W i j i0 w hc] at h
      simp at h
    · rw [backtrackLoop_stop e c3 W i j i0 0 w hc] at h
      simp only [Outcome.ok.injEq] at h
      subst h
      rw [walkPairs_zero]
      simp [markAll_nil]
  | succ fuel ih =>
    intro w w2 h
    by_cases hc : w.k ≤ i ∧ w.l ≥ j
    · have hbx : inBox e.n1 W (j - 11) (W - i + w.k - 1) (w.l - j) := by
        by_contra hbx
        rw [backtrackLoop_undef e c3 W i j i0 fuel w hc hbx] at h
        simp at h
      rw [backtrackLoop_succ e c3 W i j i0 fuel w hc hbx] at h
      rw [walkPairs_succ e c3 W i j w.k w.l fuel hc]
      by_cases hp : e.pt w.k w.l = 0
      · simp [hp] at h
      · simp only [hp, if_false] at h ⊢
        cases hf : findP e c3 W i j w.k w.l (entry c3 W i j (w.k, w.l)) (e.pt w.k w.l)
            (rangeUp (w.k + 1) (i + 1)) with
        | none =>
          rw [hf] at h
          simp only at h ⊢
          by_cases hE : entry c3 W i j (w.k, w.l) - stemEnergy e (w.k, w.l) ≠ 0
          · simp [hE] at h
          · rw [if_neg hE] at h
            simp only [Outcome.ok.injEq] at h
            subst h
            simp only [List.map_cons, List.map_nil, markAll_cons, markAll_nil,
              List.getLastD_cons, List.getLastD_nil, List.mem_singleton, List.chain'_singleton,
              List.getLast?_singleton, Option.some.injEq, true_and]
            refine ⟨?_, ?_⟩
            · rintro a rfl; exact hp
            · rintro a rfl
              exact ⟨by simp only [ne_eq, not_not] at hE; omega, findP_noStep hf⟩
        | some b =>
          obtain ⟨p, q⟩ := b
          rw [hf] at h
          simp only at h ⊢
          obtain ⟨r1, r2, r3, r4, r5, r6⟩ := ih _ _ h
          simp only at r1 r2 r3 r4 r5 r6
          have hfs := findP_firstStep hf
          have hpq : p ≤ i ∧ q ≥ j := ⟨hfs.1.2.1, hfs.1.2.2.1⟩
          obtain ⟨n, rfl⟩ : ∃ n, fuel = n + 1 := by
            cases fuel with
            | zero =>
              rw [backtrackLoop_zero e c3 W i j i0 _ hpq] at h
              simp at h
            | succ n => exact ⟨n, rfl⟩
          have hw := walkPairs_succ e c3 W i j p q n hpq
          refine ⟨?_, ?_, ?_, ?_, ?_, ?_⟩
          · rw [r1]; rfl
          · rw [r2]; rfl
          · rw [r3, hw, List.getLastD_cons, List.getLastD_cons, List.getLastD_cons]
          · intro a ha
            rcases List.mem_cons.mp ha with r | r
            · subst r; exact hp
            · exact r4 a r
          · rw [hw] at r5 ⊢
            exact List.Chain'.cons hfs r5
          · intro a ha
            rw [hw] at r6 ha
            rw [List.getLast?_cons_cons] at ha
            exact r6 a ha
    · rw [backtrackLoop_stop e c3 W i j i0 _ w hc] at h
      simp only [Outcome.ok.injEq] at h
      subst h
      rw [walkPairs_stop e c3 W i j _ _ _ hc]
      simp [markAll_nil]

/-- Fuel above `min(i-k, l-j)` is never exhausted, and more fuel changes nothing. -/
theorem backtrackLoop_fuel (e : Env) (c3 : Matrix) (W i j i0 : Int) :
    ∀ (fuel : Nat) (w : Walk), min (i - w.k) (w.l - j) + 1 ≤ (fuel : Int) →
      backtrackLoop e c3 W i j i0 fuel w ≠ Outcome.fuel ∧
      (∀ fuel2 : Nat, fuel ≤ fuel2 →
        backtrackLoop e c3 W i j i0 fuel2 w = backtrackLoop e c3 W i j i0 fuel w) ∧
      (∀ fuel2 : Nat, fuel ≤ fuel2 →
        walkPairs e c3 W i j fuel2 w.k w.l = walkPairs e c3 W i j fuel w.k w.l) := by
  intro fuel
  induction fuel with
  | zero =>
    intro w hf
    have hc : ¬ (w.k ≤ i ∧ w.l ≥ j) := by
      intro hc
      simp only [Nat.cast_zero] at hf
      omega
    refine ⟨?_, ?_, ?_⟩
    · rw [backtrackLoop_stop e c3 W i j i0 _ w hc]; simp
    · intro fuel2 _
      rw [backtrackLoop_stop e c3 W i j i0 _ w hc, backtrackLoop_stop e c3 W i j i0 _ w hc]
    · intro fuel2 _
      rw [walkPairs_stop e c3 W i j _ _ _ hc, walkPairs_stop e c3 W i j _ _ _ hc]
  | succ fuel ih =>
    intro w hf
    by_cases hc : w.k ≤ i ∧ w.l ≥ j
    · have key : ∀ p q, findP e c3 W i j w.k w.l (entry c3 W i j (w.k, w.l)) (e.pt w.k w.l)
          (rangeUp (w.k + 1) (i + 1)) = some (p, q) →
          min (i - p) (q - j) + 1 ≤ (fuel : Int) := by
        intro p q hfp
        obtain ⟨a1, a2, a3, a4, _⟩ := (findP_firstStep hfp).1
        simp only at a1 a2 a3 a4
        simp only [Nat.cast_succ] at hf
        omega
      refine ⟨?_, ?_, ?_⟩
      · by_cases hbx : inBox e.n1 W (j - 11) (W - i + w.k - 1) (w.l - j)
        swap
        · rw [backtrackLoop_undef e c3 W i j i0 fuel w hc hbx]
          simp
        rw [backtrackLoop_succ e c3 W i j i0 fuel w hc hbx]
        by_cases hp : e.pt w.k w.l = 0
        · simp [hp]
        · simp only [hp, if_false]
          cases hfp : findP e c3 W i j w.k w.l (entry c3 W i j (w.k, w.l)) (e.pt w.k w.l)
              (rangeUp (w.k + 1) (i + 1)) with
          | none =>
            simp only
            split <;> simp
          | some b =>
            obtain ⟨p, q⟩ := b
            simp only
            exact (ih (Walk.mk p q _ _) (key p q hfp)).1
      · intro fuel2 h2
        obtain ⟨n, rfl⟩ : ∃ n, fuel2 = n + 1 := ⟨fuel2 - 1, by omega⟩
        by_cases hbx : inBox e.n1 W (j - 11) (W - i + w.k - 1) (w.l - j)
        swap
        · rw [backtrackLoop_undef e c3 W i j i0 fuel w hc hbx,
            backtrackLoop_undef e c3 W i j i0 n w hc hbx]
        rw [backtrackLoop_succ e c3 W i j i0 fuel w hc hbx,
          backtrackLoop_succ e c3 W i j i0 n w hc hbx]
        by_cases hp : e.pt w.k w.l = 0
        · simp [hp]
        · simp only [hp, if_false]
          cases hfp : findP e c3 W i j w.k w.l (entry c3 W i j (w.k, w.l)) (e.pt w.k w.l)
              (rangeUp (w.k + 1) (i + 1)) with
          | none => rfl
          | some b =>
            obtain ⟨p, q⟩ := b
            simp only
            exact (ih (Walk.mk p q _ _) (key p q hfp)).2.1 n (by omega)
      · intro fuel2 h2
        obtain ⟨n, rfl⟩ : ∃ n, fuel2 = n + 1 := ⟨fuel2 - 1, by omega⟩
        rw [walkPairs_succ e c3 W i j _ _ fuel hc, walkPairs_succ e c3 W i j _ _ n hc]
        by_cases hp : e.pt w.k w.l = 0
        · simp [hp]
        · simp only [hp, if_false]
          cases hfp : findP e c3 W i j w.k w.l (entry c3 W i j (w.k, w.l)) (e.pt w.k w.l)
              (rangeUp (w.k + 1) (i + 1)) with
          | none => rfl
          | some b =>
            obtain ⟨p, q⟩ := b
            simp only
            have := (ih (Walk.mk p q w.st1 w.st2) (key p q hfp)).2.2 n (by omega)
            simp only at this
            rw [this]
    · refine ⟨?_, ?_, ?_⟩
      · rw [backtrackLoop_stop e c3 W i j i0 _ w hc]; simp
      · intro fuel2 _
        rw [backtrackLoop_stop e c3 W i j i0 _ w hc, backtrackLoop_stop e c3 W i j i0 _ w hc]
      · intro fuel2 _
        rw [walkPairs_stop e c3 W i j _ _ _ hc, walkPairs_stop e c3 W i j _ _ _ hc]

/-! ## The structure string -/

theorem markAll_apply (st : CharArr) (ch : Char) (idxs : List Int) (x : Int) :
    markAll st ch idxs x = if x ∈ idxs then ch else st x := by
  induction idxs generalizing st with
  | nil => simp [markAll_nil]
  | cons a xs ih =>
    rw [markAll_cons, ih]
    by_cases h1 : x ∈ xs
    · simp [h1]
    · by_cases h2 : x = a
      · simp [h1, h2, CharArr.set]
      · simp [h1, h2, CharArr.set]

theorem padDots_foldl (xs : List Int) (st : CharArr) (x : Int) :
    xs.foldl (fun st p => if st p = NUL then st.set p '.' else st) st x =
      if x ∈ xs ∧ st x = NUL then '.' else st x := by
  induction xs generalizing st with
  | nil => simp
  | cons a xs ih =>
    rw [List.foldl_cons, ih]
    have hdot : ('.' : Char) ≠ NUL := by decide
    by_cases ha : st a = NUL
    · simp only [ha, if_true, CharArr.set, List.mem_cons]
      by_cases h2 : x = a
      · subst h2; simp [ha, hdot]
      · simp [h2]
    · simp only [ha, if_false, List.mem_cons]
      by_cases h2 : x = a
      · subst h2; simp [ha]
      · simp [h2]

theorem padDots_apply (st : CharArr) (hi x : Int) :
    padDots st hi x = if 0 ≤ x ∧ x ≤ hi ∧ st x = NUL then '.' else st x := by
  unfold padDots
  rw [padDots_foldl]
  simp only [mem_rangeUp]
  by_cases h : st x = NUL
  · by_cases h1 : 0 ≤ x <;> by_cases h2 : x ≤ hi
    · rw [if_pos ⟨⟨h1, by omega⟩, h⟩, if_pos ⟨h1, h2, h⟩]
    · rw [if_neg (fun hh => h2 (by omega)), if_neg (fun hh => h2 hh.2.1)]
    · rw [if_neg (fun hh => h1 hh.1.1), if_neg (fun hh => h1 hh.1)]
    · rw [if_neg (fun hh => h1 hh.1.1), if_neg (fun hh => h1 hh.1)]
  · rw [if_neg (fun hh => h hh.2), if_neg (fun hh => h hh.2.2)]

theorem rangeUp_snoc {lo hi : Int} (h : lo ≤ hi) : rangeUp lo (hi + 1) = rangeUp lo hi ++ [hi] := by
  unfold rangeUp
  have h1 : (hi + 1 - lo).toNat = (hi - lo).toNat + 1 := by omega
  rw [h1, List.range_succ, List.map_append]
  simp only [List.map_cons, List.map_nil, List.append_cancel_left_eq, List.cons.injEq, and_true]
  omega

theorem cstring_eq (st : CharArr) (n : Int) (h1 : ∀ x, 0 ≤ x → x < n → st x ≠ NUL)
    (h2 : st n = NUL) : cstring st (n + 1) = (rangeUp 0 n).map st := by
  unfold cstring
  by_cases hn : 0 ≤ n
  · rw [rangeUp_snoc hn, List.map_append, List.takeWhile_append_of_pos]
    · simp [h2]
    · intro a ha
      simp only [List.mem_map, mem_rangeUp] at ha
      obtain ⟨x, ⟨hx1, hx2⟩, rfl⟩ := ha
      simpa using h1 x hx1 hx2
  · rw [rangeUp_nil (by omega), rangeUp_nil (by omega)]
    rfl

theorem indicesFrom_map (ch : Char) (f : Int → Char) :
    ∀ (n : Nat) (a b : Int), (b - a).toNat = n →
      indicesFrom ch a ((rangeUp a b).map f) =
        (rangeUp a b).filter (fun x => decide (f x = ch)) := by
  intro n
  induction n with
  | zero =>
    intro a b h
    rw [rangeUp_nil (by omega)]
    rfl
  | succ n ih =>
    intro a b h
    rw [rangeUp_cons (by omega)]
    simp only [List.map_cons, indicesFrom, List.filter_cons]
    by_cases hc : f a = ch
    · simp only [hc, if_true, decide_True]
      rw [ih (a + 1) b (by omega)]
    · simp only [hc, if_false, decide_False]
      rw [ih (a + 1) b (by omega)]
      simp

theorem filter_mem_sorted (n : Int) (idxs : List Int) (hs : idxs.Pairwise (fun a b => a < b))
    (hb : ∀ x ∈ idxs, 0 ≤ x ∧ x < n) :
    (rangeUp 0 n).filter (fun x => decide (x ∈ idxs)) = idxs := by
  apply List.eq_of_perm_of_sorted (r := fun a b : Int => a ≤ b)
  · rw [List.perm_ext_iff_of_nodup]
    · intro a
      simp only [List.mem_filter, mem_rangeUp, decide_eq_true_eq]
      constructor
      · exact fun h => h.2
      · exact fun h => ⟨hb a h, h⟩
    · exact ((pairwise_rangeUp 0 n).imp (fun h => ne_of_lt h)).filter _
    · exact hs.imp (fun h => ne_of_lt h)
  · exact ((pairwise_rangeUp 0 n).imp (fun h => le_of_lt h)).filter _
  · exact hs.imp (fun h => le_of_lt h)

theorem indicesFrom_dotBracket (ch : Char) (hch : ch ≠ '.') (n : Int) (idxs : List Int)
    (hs : idxs.Pairwise (fun a b => a < b)) (hb : ∀ x ∈ idxs, 0 ≤ x ∧ x < n) :
    indicesFrom ch 0 (dotBracket ch n idxs) = idxs := by
  unfold dotBracket
  rw [indicesFrom_map ch _ _ 0 n rfl]
  have : (fun x => decide ((if x ∈ idxs then ch else '.') = ch)) =
      (fun x => decide (x ∈ idxs)) := by
    funext x
    by_cases h : x ∈ idxs
    · simp [h]
    · simp only [h, if_false, decide_False, decide_eq_false_iff_not]
      exact fun hh => hch hh.symm
  rw [this]
  exact filter_mem_sorted n idxs hs hb

theorem dotBracket_length (ch : Char) (n : Int) (idxs : List Int) :
    ((dotBracket ch n idxs).length : Int) = max n 0 := by
  unfold dotBracket rangeUp
  simp only [List.length_map, List.length_range]
  omega

theorem dotBracket_mem (ch : Char) (n : Int) (idxs : List Int) (c : Char)
    (h : c ∈ dotBracket ch n idxs) : c = ch ∨ c = '.' := by
  unfold dotBracket at h
  simp only [List.mem_map] at h
  obtain ⟨x, _, rfl⟩ := h
  by_cases hx : x ∈ idxs
  · left; simp [hx]
  · right; simp [hx]

theorem firstHalf_append (s1 s2 : List Char) (h : ∀ c ∈ s1, c ≠ '&') :
    firstHalf (s1 ++ '&' :: s2) = s1 := by
  unfold firstHalf
  rw [List.takeWhile_append_of_pos]
  · simp
  · intro a ha; simpa using h a ha

theorem secondHalf_append (s1 s2 : List Char) (h : ∀ c ∈ s1, c ≠ '&') :
    secondHalf (s1 ++ '&' :: s2) = s2 := by
  unfold secondHalf
  rw [List.dropWhile_append_of_pos]
  · simp
  · intro a ha; simpa using h a ha

/-- The pairs encoded by a structure string built from the positions of a list of pairs
whose first components increase and second components decrease. -/
theorem decode_dotBracket (ps : List (Int × Int)) (k l i j : Int)
    (hs : ps.Pairwise (fun a b => a.1 < b.1 ∧ b.2 < a.2))
    (hb : ∀ a ∈ ps, k ≤ a.1 ∧ a.1 ≤ i ∧ j ≤ a.2 ∧ a.2 ≤ l) :
    decode (dotBracket '(' (i - k + 1) (ps.map (fun a => a.1 - k)) ++
      '&' :: dotBracket ')' (l - j + 1) (ps.map (fun a => a.2 - j))) k j = ps := by
  have hno1 : ∀ c ∈ dotBracket '(' (i - k + 1) (ps.map (fun a => a.1 - k)), c ≠ '&' := by
    intro c hc
    rcases dotBracket_mem _ _ _ _ hc with r | r <;> rw [r] <;> decide
  unfold decode
  rw [firstHalf_append _ _ hno1, secondHalf_append _ _ hno1]
  rw [indicesFrom_dotBracket '(' (by decide)]
  · have h2 : indicesFrom ')' 0 (dotBracket ')' (l - j + 1) (ps.map (fun a => a.2 - j))) =
        (ps.map (fun a => a.2 - j)).reverse := by
      have hmem : ∀ x, x ∈ (ps.map (fun a => a.2 - j)).reverse ↔ x ∈ ps.map (fun a => a.2 - j) :=
        fun x => List.mem_reverse
      have hfun : (fun x => if x ∈ ps.map (fun a => a.2 - j) then ')' else '.') =
          (fun x => if x ∈ (ps.map (fun a => a.2 - j)).reverse then ')' else '.') := by
        funext x
        simp only [hmem]
      have hd : dotBracket ')' (l - j + 1) (ps.map (fun a => a.2 - j)) =
          dotBracket ')' (l - j + 1) (ps.map (fun a => a.2 - j)).reverse := by
        unfold dotBracket
        rw [hfun]
      rw [hd]
      apply indicesFrom_dotBracket ')' (by decide)
      · rw [List.pairwise_reverse, List.pairwise_map]
        exact hs.imp (fun h => by omega)
      · intro x hx
        rw [List.mem_reverse, List.mem_map] at hx
        obtain ⟨a, ha, rfl⟩ := hx
        have := hb a ha
        omega
    rw [h2, List.reverse_reverse, List.map_map, List.map_map]
    symm
    apply List.zip_of_prod
    · apply List.map_congr_left
      intro a _
      simp only [Function.comp_apply]
      omega
    · apply List.map_congr_left
      intro a _
      simp only [Function.comp_apply]
      omega
  · rw [List.pairwise_map]
    exact hs.imp (fun h => by omega)
  · intro x hx
    rw [List.mem_map] at hx
    obtain ⟨a, ha, rfl⟩ := hx
    have := hb a ha
    omega

/-! ## Results about `backtrack_XS` -/

/-- What `backtrack_XS` returns when it does not fail, in terms of the pairs visited by
its loop. -/
theorem backtrack_XS_ok (e : Env) (c3 : Matrix) (k l i j W : Int) (t : Traced)
    (h : backtrack_XS e c3 k l i j W = Outcome.ok t) :
    t.struc =
      dotBracket '(' (i - k + 1)
        ((walkPairs e c3 W i j ((i - k).toNat + (l - j).toNat + 1) k l).map (fun a => a.1 - k)) ++
      '&' :: dotBracket ')' (l - j + 1)
        ((walkPairs e c3 W i j ((i - k).toNat + (l - j).toNat + 1) k l).map (fun a => a.2 - j)) ∧
    t.alloc =
      ((walkPairs e c3 W i j ((i - k).toNat + (l - j).toNat + 1) k l).getLastD (k, l)).1 - k + 1
        + l - ((walkPairs e c3 W i j ((i - k).toNat + (l - j).toNat + 1) k l).getLastD (k, l)).2
        + 1 + 2 ∧
    (∀ a ∈ walkPairs e c3 W i j ((i - k).toNat + (l - j).toNat + 1) k l, e.pt a.1 a.2 ≠ 0) ∧
    List.Chain' (firstStep e c3 W i j)
      (walkPairs e c3 W i j ((i - k).toNat + (l - j).toNat + 1) k l) ∧
    (∀ a, (walkPairs e c3 W i j ((i - k).toNat + (l - j).toNat + 1) k l).getLast? = some a →
      entry c3 W i j a = stemEnergy e a ∧ ∀ b, ¬ isStep e c3 W i j a b) := by
  unfold backtrack_XS at h
  simp only at h
  generalize hfuel : (i - k).toNat + (l - j).toNat + 1 = fuel at h ⊢
  cases hloop : backtrackLoop e c3 W i j k fuel
      (Walk.mk k l (CharArr.set (fun _ => NUL) (i - k + 1) NUL)
        (CharArr.set (fun _ => NUL) (l - j + 1) NUL)) with
  | fuel => rw [hloop] at h; simp at h
  | undef => rw [hloop] at h; simp at h
  | fail msg => rw [hloop] at h; simp at h
  | ok w =>
    rw [hloop] at h
    simp only [Outcome.ok.injEq] at h
    obtain ⟨r1, r2, r3, r4, r5, r6⟩ := backtrackLoop_ok e c3 W i j k fuel _ _ hloop
    simp only at r1 r2 r3 r4 r5 r6
    obtain ⟨b1, b2, _⟩ := walkPairs_bounds e c3 W i j fuel k l
    have hnul : ∀ y : Int, CharArr.set (fun _ => NUL) y NUL = fun _ => NUL := by
      intro y; funext x; simp [CharArr.set]
    rw [hnul] at r1 r2
    have hp : ('(' : Char) ≠ NUL := by decide
    have hq : (')' : Char) ≠ NUL := by decide
    have hd : ('.' : Char) ≠ NUL := by decide
    have hs1 : cstring (padDots w.st1 (i - k)) (i - k + 2) =
        dotBracket '(' (i - k + 1) ((walkPairs e c3 W i j fuel k l).map (fun a => a.1 - k)) := by
      have h2 : i - k + 2 = (i - k + 1) + 1 := by ring
      rw [h2, cstring_eq]
      · unfold dotBracket
        apply List.map_congr_left
        intro x hx
        rw [mem_rangeUp] at hx
        rw [padDots_apply, r1, markAll_apply]
        by_cases hm : x ∈ (walkPairs e c3 W i j fuel k l).map (fun a => a.1 - k)
        · simp [hm, hp]
        · simp only [hm, if_false]
          rw [if_pos ⟨hx.1, by omega, trivial⟩]
      · intro x hx1 hx2
        rw [padDots_apply, r1, markAll_apply]
        by_cases hm : x ∈ (walkPairs e c3 W i j fuel k l).map (fun a => a.1 - k)
        · simp [hm, hp]
        · simp only [hm, if_false]
          rw [if_pos ⟨hx1, by omega, trivial⟩]
          exact hd
      · rw [padDots_apply, r1, markAll_apply]
        have hm : ¬ (i - k + 1 ∈ (walkPairs e c3 W i j fuel k l).map (fun a => a.1 - k)) := by
          intro hm
          rw [List.mem_map] at hm
          obtain ⟨a, ha, hh⟩ := hm
          have := b1 a ha
          omega
        simp only [hm, if_false]
        rw [if_neg (by omega)]
    have hs2 : cstring (padDots w.st2 (l - j)) (l - j + 2) =
        dotBracket ')' (l - j + 1) ((walkPairs e c3 W i j fuel k l).map (fun a => a.2 - j)) := by
      have h2 : l - j + 2 = (l - j + 1) + 1 := by ring
      rw [h2, cstring_eq]
      · unfold dotBracket
        apply List.map_congr_left
        intro x hx
        rw [mem_rangeUp] at hx
        rw [padDots_apply, r2, markAll_apply]
        by_cases hm : x ∈ (walkPairs e c3 W i j fuel k l).map (fun a => a.2 - j)
        · simp [hm, hq]
        · simp only [hm, if_false]
          rw [if_pos ⟨hx.1, by omega, trivial⟩]
      · intro x hx1 hx2
        rw [padDots_apply, r2, markAll_apply]
        by_cases hm : x ∈ (walkPairs e c3 W i j fuel k l).map (fun a => a.2 - j)
        · simp [hm, hq]
        · simp only [hm, if_false]
          rw [if_pos ⟨hx1, by omega, trivial⟩]
          exact hd
      · rw [padDots_apply, r2, markAll_apply]
        have hm : ¬ (l - j + 1 ∈ (walkPairs e c3 W i j fuel k l).map (fun a => a.2 - j)) := by
          intro hm
          rw [List.mem_map] at hm
          obtain ⟨a, ha, hh⟩ := hm
          have := b1 a ha
          omega
        simp only [hm, if_false]
        rw [if_neg (by omega)]
    subst h
    simp only
    rw [hs1, hs2]
    refine ⟨rfl, ?_, r4, r5, r6⟩
    have e1 : w.k = ((walkPairs e c3 W i j fuel k l).getLastD (k, l)).1 := by rw [← r3]
    have e2 : w.l = ((walkPairs e c3 W i j fuel k l).getLastD (k, l)).2 := by rw [← r3]
    rw [e1, e2]

/-- The structure string returned by `backtrack_XS` encodes exactly the pairs visited by
its loop. -/
theorem decode_backtrack (e : Env) (c3 : Matrix) (k l i j W : Int) (t : Traced)
    (h : backtrack_XS e c3 k l i j W = Outcome.ok t) :
    decode t.struc k j = walkPairs e c3 W i j ((i - k).toNat + (l - j).toNat + 1) k l := by
  obtain ⟨r1, _⟩ := backtrack_XS_ok e c3 k l i j W t h
  obtain ⟨b1, b2, _⟩ := walkPairs_bounds e c3 W i j ((i - k).toNat + (l - j).toNat + 1) k l
  rw [r1]
  exact decode_dotBracket _ k l i j b2 b1

theorem walkPairs_head (e : Env) (c3 : Matrix) (W i j k l : Int) (fuel : Nat)
    (hk : k ≤ i) (hl : j ≤ l) :
    (walkPairs e c3 W i j (fuel + 1) k l).head? = some (k, l) := by
  rw [walkPairs_succ e c3 W i j k l fuel ⟨hk, hl⟩]
  rfl

theorem walkPairs_head_eq (e : Env) (c3 : Matrix) (W i j k l : Int) (fuel : Nat) (a : Int × Int)
    (h : (walkPairs e c3 W i j fuel k l).head? = some a) : a = (k, l) := by
  by_cases hc : k ≤ i ∧ l ≥ j
  · cases fuel with
    | zero => rw [walkPairs_zero] at h; simp at h
    | succ n =>
      rw [walkPairs_succ e c3 W i j k l n hc] at h
      simp only [List.head?_cons, Option.some.injEq] at h
      exact h.symm
  · rw [walkPairs_stop e c3 W i j k l _ hc] at h
    simp at h

/-- Along a chain of accepted decomposition points the entries telescope. -/
theorem entry_chain (e : Env) (c3 : Matrix) (W i j : Int) :
    ∀ (ps : List (Int × Int)) (a stop : Int × Int), List.Chain' (isStep e c3 W i j) ps →
      ps.head? = some a → ps.getLast? = some stop →
      entry c3 W i j stop = stemEnergy e stop →
      entry c3 W i j a = loopSum e ps + stemEnergy e stop := by
  intro ps
  induction ps with
  | nil => intro a stop _ h; simp at h
  | cons x xs ih =>
    intro a stop hc hh hl hs
    simp only [List.head?_cons, Option.some.injEq] at hh
    subst hh
    cases xs with
    | nil =>
      simp only [List.getLast?_singleton, Option.some.injEq] at hl
      subst hl
      simp [loopSum, hs]
    | cons y ys =>
      rw [List.getLast?_cons_cons] at hl
      rw [List.chain'_cons] at hc
      have := ih y stop hc.2 rfl hl hs
      have h7 := hc.1.2.2.2.2.2.2
      rw [h7, this]
      simp only [loopSum]
      ring

/-- C7: when `backtrack_XS(k, l, i, j)` returns without failure, every step between
consecutive pairs of the returned structure is the first `(p, q)`, in the order `p`
increasing then `q` decreasing, whose entry matches exactly, and the entry of the
starting pair `(k, l)` is the sum of the interior-loop energies of these steps plus the
external-stem energy of the pair at which the walk stopped (the last pair of the
structure), from which no further step matches. -/
theorem backtrack_energy (e : Env) (c3 : Matrix) (k l i j W : Int) (t : Traced)
    (h : backtrack_XS e c3 k l i j W = Outcome.ok t) :
    List.Chain' (firstStep e c3 W i j) (decode t.struc k j) ∧
    (∀ stop, (decode t.struc k j).getLast? = some stop →
      entry c3 W i j (k, l) = loopSum e (decode t.struc k j) + stemEnergy e stop ∧
      ∀ b, ¬ isStep e c3 W i j stop b) ∧
    (k ≤ i → j ≤ l → (decode t.struc k j).head? = some (k, l) ∧
      ∃ stop, (decode t.struc k j).getLast? = some stop) := by
  rw [decode_backtrack e c3 k l i j W t h]
  obtain ⟨_, _, r4, r5, r6⟩ := backtrack_XS_ok e c3 k l i j W t h
  refine ⟨r5, ?_, ?_⟩
  · intro stop hstop
    refine ⟨?_, (r6 stop hstop).2⟩
    cases hw : walkPairs e c3 W i j ((i - k).toNat + (l - j).toNat + 1) k l with
    | nil => rw [hw] at hstop; simp at hstop
    | cons x xs =>
      have hx : x = (k, l) :=
        walkPairs_head_eq e c3 W i j k l _ x (by rw [hw]; rfl)
      rw [← hw]
      have hchain : List.Chain' (isStep e c3 W i j)
          (walkPairs e c3 W i j ((i - k).toNat + (l - j).toNat + 1) k l) :=
        List.Chain'.imp (fun _ _ hh => hh.1) r5
      apply entry_chain e c3 W i j _ (k, l) stop hchain
      · rw [hw, hx]; rfl
      · exact hstop
      · exact (r6 stop hstop).1
  · intro hk hl
    have hh := walkPairs_head e c3 W i j k l ((i - k).toNat + (l - j).toNat) hk hl
    refine ⟨hh, ?_⟩
    cases hw : walkPairs e c3 W i j ((i - k).toNat + (l - j).toNat + 1) k l with
    | nil => rw [hw] at hh; simp at hh
    | cons x xs => exact ⟨(x :: xs).getLast (by simp), List.getLast?_eq_getLast _ _⟩

theorem backtrack_near : backtrack_XS envNear c3Near 10 17 11 15 3 = Outcome.ok tracedNear := by
  rfl

theorem backtrack_energy_witness :
    backtrack_XS envNear c3Near 10 17 11 15 3 = Outcome.ok tracedNear ∧
    (List.Chain' (firstStep envNear c3Near 3 11 15) (decode tracedNear.struc 10 15) ∧
    (∀ stop, (decode tracedNear.struc 10 15).getLast? = some stop →
      entry c3Near 3 11 15 (10, 17) =
        loopSum envNear (decode tracedNear.struc 10 15) + stemEnergy envNear stop ∧
      ∀ b, ¬ isStep envNear c3Near 3 11 15 stop b) ∧
    ((10 : Int) ≤ 11 → (15 : Int) ≤ 17 → (decode tracedNear.struc 10 15).head? = some (10, 17) ∧
      ∃ stop, (decode tracedNear.struc 10 15).getLast? = some stop)) :=
  ⟨backtrack_near, backtrack_energy envNear c3Near 10 17 11 15 3 tracedNear backtrack_near⟩

theorem indicesFrom_length (ch : Char) (s : List Char) :
    ∀ n : Int, (indicesFrom ch n s).length = s.count ch := by
  induction s with
  | nil => intro n; rfl
  | cons c cs ih =>
    intro n
    unfold indicesFrom
    by_cases h : c = ch
    · subst h
      rw [if_pos rfl, List.length_cons, ih, List.count_cons_self]
    · rw [if_neg h, ih, List.count_cons_of_ne (fun hh => h hh.symm)]

theorem backtrack_halves (e : Env) (c3 : Matrix) (k l i j W : Int) (t : Traced)
    (h : backtrack_XS e c3 k l i j W = Outcome.ok t) :
    t.struc = firstHalf t.struc ++ '&' :: secondHalf t.struc ∧
    firstHalf t.struc = dotBracket '(' (i - k + 1)
        ((walkPairs e c3 W i j ((i - k).toNat + (l - j).toNat + 1) k l).map (fun a => a.1 - k)) ∧
    secondHalf t.struc = dotBracket ')' (l - j + 1)
        ((walkPairs e c3 W i j ((i - k).toNat + (l - j).toNat + 1) k l).map (fun a => a.2 - j)) := by
  obtain ⟨r1, _⟩ := backtrack_XS_ok e c3 k l i j W t h
  have hno1 : ∀ c ∈ dotBracket '(' (i - k + 1)
      ((walkPairs e c3 W i j ((i - k).toNat + (l - j).toNat + 1) k l).map (fun a => a.1 - k)),
      c ≠ '&' := by
    intro c hc
    rcases dotBracket_mem _ _ _ _ hc with r | r <;> rw [r] <;> decide
  have h1 := firstHalf_append _ (dotBracket ')' (l - j + 1)
    ((walkPairs e c3 W i j ((i - k).toNat + (l - j).toNat + 1) k l).map (fun a => a.2 - j))) hno1
  have h2 := secondHalf_append _ (dotBracket ')' (l - j + 1)
    ((walkPairs e c3 W i j ((i - k).toNat + (l - j).toNat + 1) k l).map (fun a => a.2 - j))) hno1
  rw [← r1] at h1 h2
  rw [h1, h2]
  exact ⟨r1, rfl, rfl⟩

/-- C9: for `k <= i` and `j <= l`, a structure returned by `backtrack_XS(k, l, i, j)` is
`s1 ++ "&" ++ s2` where `s1` has `i-k+1` characters, all `(` or `.`, and `s2` has
`l-j+1` characters, all `)` or `.`; it contains exactly one `&`, at index `i-k+1`. For an
entry stored from it the two lengths are `te-tb+1` and `qe-qb+1`. -/
theorem backtrack_format (e : Env) (c3 : Matrix) (k l i j W : Int) (t : Traced)
    (hk : k ≤ i) (hl : j ≤ l) (h : backtrack_XS e c3 k l i j W = Outcome.ok t) :
    (∃ s1 s2, t.struc = s1 ++ '&' :: s2 ∧
      (s1.length : Int) = i - k + 1 ∧ (∀ c ∈ s1, c = '(' ∨ c = '.') ∧
      (s2.length : Int) = l - j + 1 ∧ (∀ c ∈ s2, c = ')' ∨ c = '.')) ∧
    t.struc.count '&' = 1 ∧
    t.struc[(i - k + 1).toNat]? = some '&' ∧
    (∀ (access_s1 : Int → Int → Int) (penalty : Int) (b : Best) (s s2 : Storage)
      (hit : vrna_pkplex_t),
      b.k_min = k → b.l_min = l → b.j_min = j →
      accept e access_s1 penalty W i c3 b s = Outcome.ok s2 →
      s2.storage = s.storage ++ [hit] →
      ∃ s1 s2, hit.struc = s1 ++ '&' :: s2 ∧
        (s1.length : Int) = hit.te - hit.tb + 1 ∧ (s2.length : Int) = hit.qe - hit.qb + 1) := by
  obtain ⟨r0, r1, r2⟩ := backtrack_halves e c3 k l i j W t h
  have hl1 : ((firstHalf t.struc).length : Int) = i - k + 1 := by
    rw [r1, dotBracket_length]; omega
  have hl2 : ((secondHalf t.struc).length : Int) = l - j + 1 := by
    rw [r2, dotBracket_length]; omega
  have hm1 : ∀ c ∈ firstHalf t.struc, c = '(' ∨ c = '.' := by
    intro c hc; rw [r1] at hc; exact dotBracket_mem _ _ _ _ hc
  have hm2 : ∀ c ∈ secondHalf t.struc, c = ')' ∨ c = '.' := by
    intro c hc; rw [r2] at hc; exact dotBracket_mem _ _ _ _ hc
  refine ⟨⟨_, _, r0, hl1, hm1, hl2, hm2⟩, ?_, ?_, ?_⟩
  · rw [r0, List.count_append, List.count_cons_self]
    have c1 : (firstHalf t.struc).count '&' = 0 := by
      rw [List.count_eq_zero]
      intro hc
      rcases hm1 _ hc with r | r <;> exact absurd r (by decide)
    have c2 : (secondHalf t.struc).count '&' = 0 := by
      rw [List.count_eq_zero]
      intro hc
      rcases hm2 _ hc with r | r <;> exact absurd r (by decide)
    rw [c1, c2]
  · have hn : (i - k + 1).toNat = (firstHalf t.struc).length := by omega
    rw [r0, hn, List.getElem?_append_right (le_refl _)]
    simp
  · intro access_s1 penalty b s s2 hit hbk hbl hbj hacc hs
    unfold accept at hacc
    rw [hbk, hbl, hbj, h] at hacc
    by_cases h1 : b.Emin < penalty
    · simp only [h1, if_true] at hacc
      by_cases h2 : wrapInt (wrapInt (b.Emin - access_s1 (i - k + 1) i)
          - access_s1 (l - j + 1) l) < penalty
      · simp only [h2, if_true, Outcome.ok.injEq] at hacc
        subst hacc
        rw [append_storage] at hs
        have := List.append_cancel_left hs
        simp only [List.cons.injEq, and_true] at this
        subst this
        simp only
        exact ⟨_, _, r0, by omega, by omega⟩
      · simp only [h2, if_false, Outcome.ok.injEq] at hacc
        subst hacc
        have := congrArg List.length hs
        simp at this
    · simp only [h1, if_false, Outcome.ok.injEq] at hacc
      subst hacc
      have := congrArg List.length hs
      simp at this

theorem backtrack_format_witness :
    (10 : Int) ≤ 11 ∧ (15 : Int) ≤ 17 ∧
    backtrack_XS envNear c3Near 10 17 11 15 3 = Outcome.ok tracedNear ∧
    ((∃ s1 s2, tracedNear.struc = s1 ++ '&' :: s2 ∧
      (s1.length : Int) = 11 - 10 + 1 ∧ (∀ c ∈ s1, c = '(' ∨ c = '.') ∧
      (s2.length : Int) = 17 - 15 + 1 ∧ (∀ c ∈ s2, c = ')' ∨ c = '.')) ∧
    tracedNear.struc.count '&' = 1 ∧
    tracedNear.struc[((11 : Int) - 10 + 1).toNat]? = some '&' ∧
    (∀ (access_s1 : Int → Int → Int) (penalty : Int) (b : Best) (s s2 : Storage)
      (hit : vrna_pkplex_t),
      b.k_min = 10 → b.l_min = 17 → b.j_min = 15 →
      accept envNear access_s1 penalty 3 11 c3Near b s = Outcome.ok s2 →
      s2.storage = s.storage ++ [hit] →
      ∃ s1 s2, hit.struc = s1 ++ '&' :: s2 ∧
        (s1.length : Int) = hit.te - hit.tb + 1 ∧ (s2.length : Int) = hit.qe - hit.qb + 1)) :=
  ⟨by decide, by decide, backtrack_near,
    backtrack_format envNear c3Near 10 17 11 15 3 tracedNear (by decide) (by decide)
      backtrack_near⟩

/-- C10: in a structure returned by `backtrack_XS(k, l, i, j)` the number of `(` in the
first half equals the number of `)` in the second half; matching the m-th `(` from the
left with the m-th `)` from the right gives one pair per bracket, at positions `(k_m, l_m)`
with `k <= k_m <= i` and `j <= l_m <= l` and a nonzero pair type; the first pair is
`(k, l)`; consecutive pairs are nested and enclose at most `MAXLOOP` unpaired bases. -/
theorem backtrack_pairs (e : Env) (c3 : Matrix) (k l i j W : Int) (t : Traced)
    (h : backtrack_XS e c3 k l i j W = Outcome.ok t) :
    (firstHalf t.struc).count '(' = (secondHalf t.struc).count ')' ∧
    (decode t.struc k j).length = (firstHalf t.struc).count '(' ∧
    (∀ a ∈ decode t.struc k j, k ≤ a.1 ∧ a.1 ≤ i ∧ j ≤ a.2 ∧ a.2 ≤ l ∧ e.pt a.1 a.2 ≠ 0) ∧
    (∀ a, (decode t.struc k j).head? = some a → a = (k, l)) ∧
    (k ≤ i → j ≤ l → (decode t.struc k j).head? = some (k, l)) ∧
    List.Chain' (fun a b : Int × Int => a.1 < b.1 ∧ b.2 < a.2 ∧
      (b.1 - a.1 - 1) + (a.2 - b.2 - 1) ≤ MAXLOOP) (decode t.struc k j) := by
  obtain ⟨r0, r1, r2⟩ := backtrack_halves e c3 k l i j W t h
  obtain ⟨_, _, r4, r5, _⟩ := backtrack_XS_ok e c3 k l i j W t h
  obtain ⟨b1, b2, _⟩ := walkPairs_bounds e c3 W i j ((i - k).toNat + (l - j).toNat + 1) k l
  have hc1 : (firstHalf t.struc).count '(' =
      (walkPairs e c3 W i j ((i - k).toNat + (l - j).toNat + 1) k l).length := by
    rw [← indicesFrom_length '(' _ 0, r1, indicesFrom_dotBracket '(' (by decide)]
    · simp
    · rw [List.pairwise_map]
      exact b2.imp (fun hh => by omega)
    · intro x hx
      rw [List.mem_map] at hx
      obtain ⟨a, ha, rfl⟩ := hx
      have := b1 a ha
      omega
  have hc2 : (secondHalf t.struc).count ')' =
      (walkPairs e c3 W i j ((i - k).toNat + (l - j).toNat + 1) k l).length := by
    have hmem : ∀ x, x ∈ ((walkPairs e c3 W i j ((i - k).toNat + (l - j).toNat + 1) k l).map
        (fun a => a.2 - j)).reverse ↔
        x ∈ (walkPairs e c3 W i j ((i - k).toNat + (l - j).toNat + 1) k l).map
          (fun a => a.2 - j) := fun x => List.mem_reverse
    have hd : dotBracket ')' (l - j + 1)
        ((walkPairs e c3 W i j ((i - k).toNat + (l - j).toNat + 1) k l).map (fun a => a.2 - j)) =
        dotBracket ')' (l - j + 1)
          ((walkPairs e c3 W i j ((i - k).toNat + (l - j).toNat + 1) k l).map
            (fun a => a.2 - j)).reverse := by
      unfold dotBracket
      simp only [hmem]
    rw [← indicesFrom_length ')' _ 0, r2, hd, indicesFrom_dotBracket ')' (by decide)]
    · simp
    · rw [List.pairwise_reverse, List.pairwise_map]
      exact b2.imp (fun hh => by omega)
    · intro x hx
      rw [List.mem_reverse, List.mem_map] at hx
      obtain ⟨a, ha, rfl⟩ := hx
      have := b1 a ha
      omega
  rw [decode_backtrack e c3 k l i j W t h]
  refine ⟨by rw [hc1, hc2], hc1.symm, ?_, ?_, ?_, ?_⟩
  · intro a ha
    have := b1 a ha
    exact ⟨this.1, this.2.1, this.2.2.1, this.2.2.2, r4 a ha⟩
  · intro a ha
    exact walkPairs_head_eq e c3 W i j k l _ a ha
  · intro hk hl
    exact walkPairs_head e c3 W i j k l _ hk hl
  · refine List.Chain'.imp ?_ r5
    intro a b hh
    obtain ⟨a1, a2, a3, a4, a5, _⟩ := hh.1
    exact ⟨a1, a4, by omega⟩

theorem backtrack_pairs_witness :
    backtrack_XS envNear c3Near 10 17 11 15 3 = Outcome.ok tracedNear ∧
    ((firstHalf tracedNear.struc).count '(' = (secondHalf tracedNear.struc).count ')' ∧
    (decode tracedNear.struc 10 15).length = (firstHalf tracedNear.struc).count '(' ∧
    (∀ a ∈ decode tracedNear.struc 10 15,
      10 ≤ a.1 ∧ a.1 ≤ 11 ∧ 15 ≤ a.2 ∧ a.2 ≤ 17 ∧ envNear.pt a.1 a.2 ≠ 0) ∧
    (∀ a, (decode tracedNear.struc 10 15).head? = some a → a = (10, 17)) ∧
    ((10 : Int) ≤ 11 → (15 : Int) ≤ 17 → (decode tracedNear.struc 10 15).head? = some (10, 17)) ∧
    List.Chain' (fun a b : Int × Int => a.1 < b.1 ∧ b.2 < a.2 ∧
      (b.1 - a.1 - 1) + (a.2 - b.2 - 1) ≤ MAXLOOP) (decode tracedNear.struc 10 15)) :=
  ⟨backtrack_near, backtrack_pairs envNear c3Near 10 17 11 15 3 tracedNear backtrack_near⟩

/-! ## The fill step as a list of relaxations -/

theorem forBreak_filter {σ : Type} (P : Int → Bool) (f : Int → σ → σ) :
    ∀ (xs : List Int) (s : σ), xs.Pairwise (fun a b => P b = true → P a = true) →
      forBreak xs (fun x s => if P x = true then some (f x s) else none) s =
        (xs.filter P).foldl (fun s x => f x s) s := by
  intro xs
  induction xs with
  | nil => intro s _; rfl
  | cons x xs ih =>
    intro s hp
    rw [List.pairwise_cons] at hp
    unfold forBreak
    by_cases hx : P x = true
    · simp only [hx, if_true, List.filter_cons]
      exact ih _ hp.2
    · simp only [hx, if_false, List.filter_cons]
      have : xs.filter P = [] := by
        rw [List.filter_eq_nil_iff]
        intro a ha hpa
        exact hx (hp.1 a ha hpa)
      rw [this]
      rfl

theorem foldl_filter_eq {α β : Type} (f : β → α → β) (p : α → Bool) (l : List α) (b : β) :
    (l.filter p).foldl f b = l.foldl (fun b a => if p a then f b a else b) b := by
  induction l generalizing b with
  | nil => rfl
  | cons a l ih =>
    by_cases h : p a <;> simp [List.filter_cons, h, ih]

theorem fillJ_eq (e : Env) (W i k l p q : Int) (c3 : Matrix) :
    fillJ e W i k l p q (stepEnergy e (k, l) (p, q)) c3 =
      (opsJ e W i k l p q).foldl applyRelax c3 := by
  unfold fillJ opsJ
  rw [foldl_filter_map_eq]
  apply List.foldl_ext
  intro m j _
  by_cases h : e.pt i j = 0
  · simp [h]
  · simp [h, applyRelax, relaxOf]

theorem fillQ_eq (e : Env) (W i k l p : Int) (c3 : Matrix) :
    fillQ e W i k l (e.pt k l) p c3 = (opsQ e W i k l p).foldl applyRelax c3 := by
  unfold fillQ opsQ
  have h1 : (fun (q : Int) (c3 : Matrix) =>
      if p - k + l - q - 2 > MAXLOOP then none
      else
        let type3 := e.pt p q
        if type3 = 0 then some c3
        else
          let E := e.E_IntLoop (p - k - 1) (l - q - 1) (e.pt k l) (e.rtype type3)
            (e.SS1 (k + 1)) (e.SS1 (l - 1)) (e.SS1 (p - 1)) (e.SS1 (q + 1))
          some (fillJ e W i k l p q E c3)) =
      (fun (q : Int) (c3 : Matrix) =>
        if (fun q => decide (¬ p - k + l - q - 2 > MAXLOOP)) q = true then
          some ((fun q c3 => if e.pt p q = 0 then c3
            else fillJ e W i k l p q (stepEnergy e (k, l) (p, q)) c3) q c3)
        else none) := by
    funext q m
    by_cases hs : p - k + l - q - 2 > MAXLOOP
    · simp [hs]
    · by_cases ht : e.pt p q = 0
      · simp [hs, ht]
      · simp only [hs, ht, if_false, not_false_eq_true, decide_True, if_true]
        rfl
  rw [h1, forBreak_filter]
  · rw [foldl_flatMap_eq, foldl_filter_eq, foldl_filter_eq]
    apply List.foldl_ext
    intro m q _
    by_cases hs : p - k + l - q - 2 > MAXLOOP
    · simp [hs]
    · by_cases ht : e.pt p q = 0
      · simp [hs, ht]
      · simp only [hs, ht, not_false_eq_true, decide_True, if_true, if_false, Bool.and_self,
          ne_eq]
        exact fillJ_eq e W i k l p q m
  · refine (pairwise_rangeDown _ _).imp ?_
    intro a b hab hb
    simp only [decide_eq_true_eq] at hb ⊢
    omega

theorem fillP_eq (e : Env) (W i k l : Int) (c3 : Matrix) :
    fillP e W i k l (e.pt k l) c3 = (opsP e W i k l).foldl applyRelax c3 := by
  unfold fillP opsP
  rw [foldl_flatMap_eq]
  apply List.foldl_ext
  intro m p _
  exact fillQ_eq e W i k l p m

theorem fillL_eq (e : Env) (W i k : Int) (c3 : Matrix) :
    fillL e W i k c3 = (opsL e W i k).foldl applyRelax c3 := by
  unfold fillL opsL
  rw [foldl_flatMap_eq, foldl_filter_eq]
  apply List.foldl_ext
  intro m l _
  by_cases h : e.pt k l = 0
  · simp [h]
  · simp only [h, if_false, ne_eq, not_false_eq_true, decide_True, if_true]
    exact fillP_eq e W i k l m

/-- The relaxations of iteration `k` of the fill step. -/
theorem mem_opsL {e : Env} {W i k : Int} {o : Relax} :
    o ∈ opsL e W i k ↔
      ∃ l p q j, i + 5 ≤ l ∧ l ≤ e.n1 - 10 ∧ e.pt k l ≠ 0 ∧ k < p ∧ p ≤ i ∧ i + 4 ≤ q ∧ q < l ∧
        p - k + l - q - 2 ≤ MAXLOOP ∧ e.pt p q ≠ 0 ∧ i + 4 ≤ j ∧ l - W + 1 ≤ j ∧ j ≤ q ∧
        e.pt i j ≠ 0 ∧ o = relaxOf e W i k l p q j := by
  unfold opsL opsP opsQ opsJ
  simp only [List.mem_flatMap, List.mem_filter, List.mem_map, mem_rangeUp, mem_rangeDown,
    decide_eq_true_eq, Bool.and_eq_true, MAXLOOP]
  constructor
  · rintro ⟨l, ⟨hl, hkl⟩, p, hp, q, ⟨hq, hs, hpq⟩, j, ⟨hj, hij⟩, rfl⟩
    exact ⟨l, p, q, j, by omega, by omega, hkl, by omega, by omega, by omega, by omega,
      by omega, hpq, by omega, by omega, by omega, hij, rfl⟩
  · rintro ⟨l, p, q, j, h1, h2, h3, h4, h5, h6, h7, h8, h9, h10, h11, h12, h13, rfl⟩
    exact ⟨l, ⟨⟨h1, by omega⟩, h3⟩, p, ⟨by omega, by omega⟩, q,
      ⟨⟨by omega, by omega⟩, by omega, h9⟩, j, ⟨⟨by omega, by omega⟩, h13⟩, rfl⟩

/-- Effect of a list of relaxations none of whose sources is one of its targets. -/
theorem relax_foldl (ops : List Relax) (m : Matrix)
    (hsrc : ∀ o ∈ ops, ∀ o2 ∈ ops, ¬ (o.sa = o2.ta ∧ o.sb = o2.tb ∧ o.sc = o2.tc)) :
    (∀ a b c, ops.foldl applyRelax m a b c ≤ m a b c) ∧
    (∀ o ∈ ops, ops.foldl applyRelax m o.ta o.tb o.tc ≤ m o.sa o.sb o.sc + o.add) ∧
    (∀ a b c, ops.foldl applyRelax m a b c = m a b c ∨
      ∃ o ∈ ops, o.ta = a ∧ o.tb = b ∧ o.tc = c ∧
        ops.foldl applyRelax m a b c = m o.sa o.sb o.sc + o.add) ∧
    (∀ a b c, (∀ o ∈ ops, ¬ (o.ta = a ∧ o.tb = b ∧ o.tc = c)) →
      ops.foldl applyRelax m a b c = m a b c) := by
  induction ops using List.reverseRecOn with
  | nil => simp
  | append_singleton ops o ih =>
    have hsrc2 : ∀ o1 ∈ ops, ∀ o2 ∈ ops, ¬ (o1.sa = o2.ta ∧ o1.sb = o2.tb ∧ o1.sc = o2.tc) :=
      fun o1 h1 o2 h2 => hsrc o1 (List.mem_append_left _ h1) o2 (List.mem_append_left _ h2)
    obtain ⟨i1, i2, i3, i4⟩ := ih hsrc2
    have hlast : o ∈ ops ++ [o] := List.mem_append_right _ (List.mem_singleton_self o)
    have hso : ops.foldl applyRelax m o.sa o.sb o.sc = m o.sa o.sb o.sc :=
      i4 _ _ _ (fun o2 h2 hh => hsrc o hlast o2 (List.mem_append_left _ h2)
        ⟨hh.1.symm, hh.2.1.symm, hh.2.2.symm⟩)
    simp only [List.foldl_append, List.foldl_cons, List.foldl_nil]
    have hval : ∀ a b c, applyRelax (ops.foldl applyRelax m) o a b c =
        if a = o.ta ∧ b = o.tb ∧ c = o.tc then
          min (ops.foldl applyRelax m o.ta o.tb o.tc) (m o.sa o.sb o.sc + o.add)
        else ops.foldl applyRelax m a b c := by
      intro a b c
      simp only [applyRelax, Matrix.set, hso]
    refine ⟨?_, ?_, ?_, ?_⟩
    · intro a b c
      rw [hval]
      by_cases h : a = o.ta ∧ b = o.tb ∧ c = o.tc
      · rw [if_pos h]
        obtain ⟨rfl, rfl, rfl⟩ := h
        exact le_trans (min_le_left _ _) (i1 _ _ _)
      · rw [if_neg h]; exact i1 a b c
    · intro o1 ho1
      rw [hval]
      by_cases h : o1.ta = o.ta ∧ o1.tb = o.tb ∧ o1.tc = o.tc
      · rw [if_pos h]
        rcases List.mem_append.mp ho1 with r | r
        · have := i2 o1 r
          rw [h.1, h.2.1, h.2.2] at this
          exact le_trans (min_le_left _ _) this
        · simp only [List.mem_singleton] at r
          subst r
          exact min_le_right _ _
      · rw [if_neg h]
        rcases List.mem_append.mp ho1 with r | r
        · exact i2 o1 r
        · simp only [List.mem_singleton] at r
          subst r
          exact absurd ⟨rfl, rfl, rfl⟩ h
    · intro a b c
      rw [hval]
      by_cases h : a = o.ta ∧ b = o.tb ∧ c = o.tc
      · rw [if_pos h]
        obtain ⟨rfl, rfl, rfl⟩ := h
        rcases min_cases (ops.foldl applyRelax m o.ta o.tb o.tc) (m o.sa o.sb o.sc + o.add)
          with ⟨hmin, _⟩ | ⟨hmin, _⟩
        · rw [hmin]
          rcases i3 o.ta o.tb o.tc with r | ⟨o1, ho1, r1, r2, r3, r4⟩
          · left; exact r
          · right; exact ⟨o1, List.mem_append_left _ ho1, r1, r2, r3, r4⟩
        · rw [hmin]
          right; exact ⟨o, hlast, rfl, rfl, rfl, rfl⟩
      · rw [if_neg h]
        rcases i3 a b c with r | ⟨o1, ho1, r1, r2, r3, r4⟩
        · left; exact r
        · right; exact ⟨o1, List.mem_append_left _ ho1, r1, r2, r3, r4⟩
    · intro a b c hno
      rw [hval]
      have h : ¬ (a = o.ta ∧ b = o.tb ∧ c = o.tc) :=
        fun hh => hno o hlast ⟨hh.1.symm, hh.2.1.symm, hh.2.2.symm⟩
      rw [if_neg h]
      exact i4 a b c (fun o1 h1 => hno o1 (List.mem_append_left _ h1))

/-! ## The recurrence satisfied by the filled matrix -/

theorem opsL_source_row {e : Env} {W i k : Int} {o : Relax} (h : o ∈ opsL e W i k) :
    o.tb = W - i + k - 1 ∧ ∃ p, k < p ∧ p ≤ i ∧ o.sb = W - i + p - 1 := by
  obtain ⟨l, p, q, j, _, _, _, h4, h5, _, _, _, _, _, _, _, _, rfl⟩ := mem_opsL.mp h
  exact ⟨rfl, p, h4, h5, rfl⟩

/-- One iteration of the `k` loop of the fill step. -/
theorem fillL_props (e : Env) (W i k : Int) (m : Matrix) :
    (∀ a b c, fillL e W i k m a b c ≤ m a b c) ∧
    (∀ o ∈ opsL e W i k, fillL e W i k m o.ta o.tb o.tc ≤ m o.sa o.sb o.sc + o.add) ∧
    (∀ a b c, fillL e W i k m a b c = m a b c ∨
      ∃ o ∈ opsL e W i k, o.ta = a ∧ o.tb = b ∧ o.tc = c ∧
        fillL e W i k m a b c = m o.sa o.sb o.sc + o.add) ∧
    (∀ a b c, b ≠ W - i + k - 1 → fillL e W i k m a b c = m a b c) := by
  rw [fillL_eq]
  have hsrc : ∀ o ∈ opsL e W i k, ∀ o2 ∈ opsL e W i k,
      ¬ (o.sa = o2.ta ∧ o.sb = o2.tb ∧ o.sc = o2.tc) := by
    intro o ho o2 ho2 hh
    obtain ⟨_, p, hp, _, hsb⟩ := opsL_source_row ho
    obtain ⟨htb, _⟩ := opsL_source_row ho2
    have := hh.2.1
    omega
  obtain ⟨r1, r2, r3, r4⟩ := relax_foldl (opsL e W i k) m hsrc
  refine ⟨r1, r2, r3, ?_⟩
  intro a b c hb
  apply r4
  intro o ho hh
  obtain ⟨htb, _⟩ := opsL_source_row ho
  have := hh.2.1
  omega

/-- The `k` loop of the fill step over a decreasing list of values of `k`. -/
theorem fill_rows (e : Env) (W i : Int) :
    ∀ (ks : List Int) (m : Matrix), ks.Pairwise (fun a b => b < a) →
      (∀ a b c, (∀ k ∈ ks, b ≠ W - i + k - 1) →
        ks.foldl (fun c3 k => fillL e W i k c3) m a b c = m a b c) ∧
      (∀ a b c, ks.foldl (fun c3 k => fillL e W i k c3) m a b c ≤ m a b c) ∧
      (∀ k ∈ ks, ∀ o ∈ opsL e W i k,
        ks.foldl (fun c3 k => fillL e W i k c3) m o.ta o.tb o.tc ≤
          ks.foldl (fun c3 k => fillL e W i k c3) m o.sa o.sb o.sc + o.add) ∧
      (∀ k ∈ ks, ∀ a c,
        ks.foldl (fun c3 k => fillL e W i k c3) m a (W - i + k - 1) c =
          m a (W - i + k - 1) c ∨
        ∃ o ∈ opsL e W i k, o.ta = a ∧ o.tb = W - i + k - 1 ∧ o.tc = c ∧
          ks.foldl (fun c3 k => fillL e W i k c3) m a (W - i + k - 1) c =
            ks.foldl (fun c3 k => fillL e W i k c3) m o.sa o.sb o.sc + o.add) := by
  intro ks
  induction ks with
  | nil => intro m _; simp
  | cons k ks ih =>
    intro m hdec
    rw [List.pairwise_cons] at hdec
    obtain ⟨i1, i2, i3, i4⟩ := ih (fillL e W i k m) hdec.2
    obtain ⟨f1, f2, f3, f4⟩ := fillL_props e W i k m
    simp only [List.foldl_cons]
    -- values in row `k` and in the source rows of iteration `k` are final after it
    have hrow : ∀ a c, ks.foldl (fun c3 k => fillL e W i k c3) (fillL e W i k m) a
        (W - i + k - 1) c = fillL e W i k m a (W - i + k - 1) c := by
      intro a c
      apply i1
      intro k2 hk2
      have := hdec.1 k2 hk2
      omega
    have hsrcv : ∀ o ∈ opsL e W i k,
        ks.foldl (fun c3 k => fillL e W i k c3) (fillL e W i k m) o.sa o.sb o.sc =
          m o.sa o.sb o.sc := by
      intro o ho
      obtain ⟨_, p, hp, _, hsb⟩ := opsL_source_row ho
      rw [i1 _ _ _ (fun k2 hk2 => by have := hdec.1 k2 hk2; omega)]
      exact f4 _ _ _ (by omega)
    refine ⟨?_, ?_, ?_, ?_⟩
    · intro a b c hb
      rw [i1 a b c (fun k2 hk2 => hb k2 (List.mem_cons_of_mem _ hk2))]
      exact f4 a b c (hb k (List.mem_cons_self _ _))
    · intro a b c
      exact le_trans (i2 a b c) (f1 a b c)
    · intro k2 hk2 o ho
      rcases List.mem_cons.mp hk2 with r | r
      · subst r
        obtain ⟨htb, _⟩ := opsL_source_row ho
        rw [hsrcv o ho, htb, hrow, ← htb]
        exact f2 o ho
      · exact i3 k2 r o ho
    · intro k2 hk2 a c
      rcases List.mem_cons.mp hk2 with r | r
      · subst r
        rw [hrow]
        rcases f3 a (W - i + k2 - 1) c with h | ⟨o, ho, h1, h2, h3, h4⟩
        · left; exact h
        · right
          refine ⟨o, ho, h1, h2, h3, ?_⟩
          rw [hsrcv o ho]
          exact h4
      · rcases i4 k2 r a c with h | h
        · left
          rw [h]
          apply f4
          have := hdec.1 k2 r
          omega
        · right; exact h

theorem baseCase_step (e : Env) (W i j : Int) (m : Matrix) (a b c : Int) :
    (if e.pt i j ≠ 0 then
        Matrix.set m (j - 11) (W - 1) 0
          (e.vrna_E_ext_stem (e.rtype (e.pt i j)) (e.SS1 (j - 1)) (e.SS1 (i + 1)))
      else m) a b c =
      if a + 11 = j ∧ e.pt i (a + 11) ≠ 0 ∧ b = W - 1 ∧ c = 0 then stemEnergy e (i, a + 11)
      else m a b c := by
  by_cases h2 : a + 11 = j ∧ e.pt i (a + 11) ≠ 0 ∧ b = W - 1 ∧ c = 0
  · rw [if_pos h2]
    obtain ⟨rfl, hp, rfl, rfl⟩ := h2
    rw [if_pos hp]
    unfold Matrix.set
    rw [if_pos ⟨by omega, rfl, rfl⟩]
    rfl
  · rw [if_neg h2]
    by_cases hp : e.pt i j = 0
    · rw [if_neg (fun hh => hh hp)]
    · rw [if_pos hp]
      unfold Matrix.set
      rw [if_neg]
      intro hh
      apply h2
      have h3 : a + 11 = j := by omega
      refine ⟨h3, ?_, hh.2.1, hh.2.2⟩
      rw [h3]; exact hp

theorem baseCase_foldl (e : Env) (W i : Int) :
    ∀ (js : List Int) (m : Matrix) (a b c : Int),
      js.foldl (fun c3 j =>
        let type := e.pt i j
        if type ≠ 0 then
          Matrix.set c3 (j - 11) (W - 1) 0
            (e.vrna_E_ext_stem (e.rtype type) (e.SS1 (j - 1)) (e.SS1 (i + 1)))
        else c3) m a b c =
      if a + 11 ∈ js ∧ e.pt i (a + 11) ≠ 0 ∧ b = W - 1 ∧ c = 0 then stemEnergy e (i, a + 11)
      else m a b c := by
  intro js
  induction js with
  | nil => intro m a b c; simp
  | cons j js ih =>
    intro m a b c
    rw [List.foldl_cons, ih]
    have hstep := baseCase_step e W i j m a b c
    simp only at hstep ⊢
    rw [hstep]
    by_cases h1 : a + 11 ∈ js ∧ e.pt i (a + 11) ≠ 0 ∧ b = W - 1 ∧ c = 0
    · rw [if_pos h1, if_pos ⟨List.mem_cons_of_mem _ h1.1, h1.2⟩]
    · rw [if_neg h1]
      by_cases h2 : a + 11 = j ∧ e.pt i (a + 11) ≠ 0 ∧ b = W - 1 ∧ c = 0
      · rw [if_pos h2, if_pos ⟨by rw [h2.1]; exact List.mem_cons_self _ _, h2.2⟩]
      · have h3 : ¬ (a + 11 ∈ j :: js ∧ e.pt i (a + 11) ≠ 0 ∧ b = W - 1 ∧ c = 0) := by
          intro hh
          rcases List.mem_cons.mp hh.1 with r | r
          · exact h2 ⟨r, hh.2⟩
          · exact h1 ⟨r, hh.2⟩
        rw [if_neg h2, if_neg h3]

/-- The matrix after initialisation and base case. -/
theorem baseCase_apply (e : Env) (length W i : Int) (c3 : Matrix) (a b c : Int) :
    baseCase e W i (initMatrix e length W c3) a b c =
      if (i + 4 ≤ a + 11 ∧ a + 11 ≤ e.n1 - 11) ∧ e.pt i (a + 11) ≠ 0 ∧ b = W - 1 ∧ c = 0 then
        stemEnergy e (i, a + 11)
      else if 0 ≤ a ∧ a < length ∧ 0 ≤ b ∧ b < W ∧ 0 ≤ c ∧ c < W then e.INF
      else c3 a b c := by
  unfold baseCase
  rw [baseCase_foldl, initMatrix_eq]
  simp only [mem_rangeUp, initBox]
  by_cases h : (i + 4 ≤ a + 11 ∧ a + 11 ≤ e.n1 - 11) ∧ e.pt i (a + 11) ≠ 0 ∧ b = W - 1 ∧ c = 0
  · rw [if_pos h, if_pos ⟨⟨h.1.1, by omega⟩, h.2⟩]
  · rw [if_neg h, if_neg (fun hh => h ⟨⟨hh.1.1, by omega⟩, hh.2⟩)]

/-! ## The filled matrix and chains of interior loops -/

/-- Entries of the innermost row `k = i`: the base case at `q = j`, `INF` elsewhere. -/
theorem filled_inner (e : Env) (length W i : Int) (c3 : Matrix) (hi : 11 ≤ i)
    (hn : e.n1 = length) (j q : Int) (hj1 : i + 4 ≤ j) (hj2 : j ≤ e.n1 - 11)
    (hp : e.pt i j ≠ 0) (hq1 : j ≤ q) (hq2 : q < j + W) :
    entry (filled e length W i c3) W i j (i, q) =
      if q = j then stemEnergy e (i, j) else e.INF := by
  unfold entry filled fill
  simp only
  obtain ⟨r1, _⟩ := fill_rows e W i (rangeDown (i - 1) (max 9 (i - W)))
    (baseCase e W i (initMatrix e length W c3)) (pairwise_rangeDown _ _)
  rw [r1 _ _ _ (fun k hk => by rw [mem_rangeDown] at hk; omega), baseCase_apply]
  have hj : j - 11 + 11 = j := by ring
  rw [hj]
  by_cases hq : q = j
  · rw [if_pos hq, if_pos ⟨⟨hj1, hj2⟩, hp, by omega, by omega⟩]
  · rw [if_neg hq, if_neg (fun hh => hq (by omega)), if_pos (by omega)]

/-- Every relaxation of the fill step holds as an inequality between final entries. -/
theorem filled_le (e : Env) (length W i : Int) (c3 : Matrix) (k l p q j : Int)
    (hk : max 9 (i - W) < k) (h1 : i + 5 ≤ l) (h2 : l ≤ e.n1 - 10) (h3 : e.pt k l ≠ 0)
    (h4 : k < p) (h5 : p ≤ i) (h6 : i + 4 ≤ q) (h7 : q < l)
    (h8 : p - k + l - q - 2 ≤ MAXLOOP) (h9 : e.pt p q ≠ 0) (h10 : i + 4 ≤ j)
    (h11 : l - W + 1 ≤ j) (h12 : j ≤ q) (h13 : e.pt i j ≠ 0) :
    entry (filled e length W i c3) W i j (k, l) ≤
      entry (filled e length W i c3) W i j (p, q) + stepEnergy e (k, l) (p, q) := by
  unfold entry filled fill
  simp only
  obtain ⟨_, _, r3, _⟩ := fill_rows e W i (rangeDown (i - 1) (max 9 (i - W)))
    (baseCase e W i (initMatrix e length W c3)) (pairwise_rangeDown _ _)
  exact r3 k (mem_rangeDown.mpr ⟨hk, by omega⟩) (relaxOf e W i k l p q j)
    (mem_opsL.mpr ⟨l, p, q, j, h1, h2, h3, h4, h5, h6, h7, h8, h9, h10, h11, h12, h13, rfl⟩)

/-- Every entry of a row `k < i` is `INF` or is obtained from an inner entry by one
interior loop. -/
theorem filled_ge (e : Env) (length W i : Int) (c3 : Matrix) (hi : 11 ≤ i)
    (hn : e.n1 = length) (j k l : Int) (hj1 : i + 4 ≤ j) (hj2 : j ≤ e.n1 - 11)
    (hk1 : max 9 (i - W) < k) (hk2 : k < i) (hl1 : j ≤ l) (hl2 : l < j + W) :
    entry (filled e length W i c3) W i j (k, l) = e.INF ∨
    ∃ p q, k < p ∧ p ≤ i ∧ j ≤ q ∧ q < l ∧ p - k + l - q - 2 ≤ MAXLOOP ∧ e.pt p q ≠ 0 ∧
      e.pt k l ≠ 0 ∧
      entry (filled e length W i c3) W i j (k, l) =
        entry (filled e length W i c3) W i j (p, q) + stepEnergy e (k, l) (p, q) := by
  unfold entry filled fill
  simp only
  obtain ⟨_, _, _, r4⟩ := fill_rows e W i (rangeDown (i - 1) (max 9 (i - W)))
    (baseCase e W i (initMatrix e length W c3)) (pairwise_rangeDown _ _)
  rcases r4 k (mem_rangeDown.mpr ⟨hk1, by omega⟩) (j - 11) (l - j) with h | ⟨o, ho, t1, _, t3, t4⟩
  · left
    rw [h, baseCase_apply, if_neg (fun hh => by omega), if_pos (by omega)]
  · right
    obtain ⟨l2, p, q, j2, _, _, g3, g4, g5, _, g7, g8, g9, _, _, g12, _, rfl⟩ := mem_opsL.mp ho
    simp only [relaxOf] at t1 t3 t4
    have ej : j2 = j := by omega
    have el : l2 = l := by omega
    subst ej
    subst el
    exact ⟨p, q, g4, g5, g12, g7, g8, g9, g3, t4⟩

theorem chain_bounds :
    ∀ (ps : List (Int × Int)) (k l i j : Int), List.Chain' link ps → ps.head? = some (k, l) →
      ps.getLast? = some (i, j) → k ≤ i ∧ j ≤ l ∧ (ps.length : Int) ≤ i - k + 1 := by
  intro ps
  induction ps with
  | nil => intro k l i j _ h; simp at h
  | cons a rest ih =>
    intro k l i j hc hh hl
    simp only [List.head?_cons, Option.some.injEq] at hh
    subst hh
    cases rest with
    | nil =>
      simp only [List.getLast?_singleton, Option.some.injEq, Prod.mk.injEq] at hl
      simp only [List.length_singleton, Nat.cast_one]
      omega
    | cons b rest2 =>
      rw [List.getLast?_cons_cons] at hl
      rw [List.chain'_cons] at hc
      obtain ⟨c1, c2, _⟩ := hc.1
      have := ih b.1 b.2 i j hc.2 rfl hl
      simp only [List.length_cons, Nat.cast_add, Nat.cast_one] at this ⊢
      omega

theorem loopSum_bound (e : Env) (B : Int)
    (hB : ∀ n1 n2 t t2 a b c d, |e.E_IntLoop n1 n2 t t2 a b c d| ≤ B) :
    ∀ ps : List (Int × Int), |loopSum e ps| ≤ ((ps.length : Int) - 1) * B ∨ ps = [] := by
  intro ps
  induction ps with
  | nil => right; rfl
  | cons a rest ih =>
    left
    cases rest with
    | nil => simp [loopSum]
    | cons b rest2 =>
      rcases ih with h | h
      · simp only [loopSum, List.length_cons, Nat.cast_add, Nat.cast_one] at h ⊢
        have h1 : |stepEnergy e a b| ≤ B := hB _ _ _ _ _ _ _ _
        have h2 := abs_add (stepEnergy e a b) (loopSum e (b :: rest2))
        linarith
      · simp at h

theorem chainEnergy_bound (e : Env) (W B : Int) (hs : smallEnergies e W B)
    (ps : List (Int × Int)) (k l i j : Int) (hc : isChain e k l i j ps)
    (hk : i - W < k) : |chainEnergy e i j ps| ≤ W * B := by
  obtain ⟨hB1, hB2, _⟩ := hs
  obtain ⟨c1, c2, c3, _⟩ := hc
  obtain ⟨b1, b2, b3⟩ := chain_bounds ps k l i j c3 c1 c2
  have hB0 : 0 ≤ B := le_trans (abs_nonneg _) (hB2 0 0 0)
  unfold chainEnergy
  have h1 : |stemEnergy e (i, j)| ≤ B := hB2 _ _ _
  rcases loopSum_bound e B hB1 ps with h | h
  · have h2 := abs_add (stemEnergy e (i, j)) (loopSum e ps)
    have h3 : ((ps.length : Int) - 1) * B ≤ (W - 1) * B :=
      mul_le_mul_of_nonneg_right (by omega) hB0
    linarith
  · rw [h] at c1; simp at c1

/-- Upper bound: the entry of a boundary pair is at most the energy of every valid chain
from it to the inner pair. -/
theorem filled_upper (e : Env) (length W i : Int) (c3 : Matrix) (hi : 11 ≤ i)
    (hn : e.n1 = length) (j : Int) (hj1 : i + 4 ≤ j) (hj2 : j ≤ e.n1 - 11) :
    ∀ (ps : List (Int × Int)) (k l : Int), isChain e k l i j ps → max 9 (i - W) < k →
      l ≤ e.n1 - 10 → l < j + W →
      entry (filled e length W i c3) W i j (k, l) ≤ chainEnergy e i j ps := by
  intro ps
  induction ps with
  | nil => intro k l h; simp [isChain] at h
  | cons a rest ih =>
    intro k l hc hk hl1 hl2
    obtain ⟨c1, c2, c3', c4⟩ := hc
    simp only [List.head?_cons, Option.some.injEq] at c1
    subst c1
    cases rest with
    | nil =>
      simp only [List.getLast?_singleton, Option.some.injEq, Prod.mk.injEq] at c2
      obtain ⟨rfl, rfl⟩ := c2
      have hp : e.pt k l ≠ 0 := c4 (k, l) (List.mem_singleton_self _)
      rw [filled_inner e length W k c3 hi hn l l hj1 hj2 hp (le_refl _) (by omega), if_pos rfl]
      simp [chainEnergy, loopSum]
    | cons b rest2 =>
      rw [List.getLast?_cons_cons] at c2
      rw [List.chain'_cons] at c3'
      obtain ⟨l1, l2, l3⟩ := c3'.1
      simp only at l1 l2 l3
      have hcb : isChain e b.1 b.2 i j (b :: rest2) :=
        ⟨rfl, c2, c3'.2, fun x hx => c4 x (List.mem_cons_of_mem _ hx)⟩
      obtain ⟨b1, b2, _⟩ := chain_bounds (b :: rest2) b.1 b.2 i j c3'.2 rfl c2
      have hpi : e.pt i j ≠ 0 := by
        have hm : (i, j) ∈ (k, l) :: b :: rest2 :=
          List.mem_cons_of_mem _ (List.mem_of_getLast?_eq_some c2)
        exact c4 (i, j) hm
      have h1 := ih b.1 b.2 hcb (by omega) (by omega) (by omega)
      have h2 := filled_le e length W i c3 k l b.1 b.2 j hk (by omega) hl1
        (c4 (k, l) (List.mem_cons_self _ _)) l1 b1 (by omega) l2 (by omega)
        (c4 b (List.mem_cons_of_mem _ (List.mem_cons_self _ _))) hj1 (by omega) b2 hpi
      simp only [chainEnergy, loopSum] at h1 ⊢
      linarith

/-- Lower bound: every entry is either close to `INF` or the energy of a valid chain. -/
theorem filled_class (e : Env) (length W i B : Int) (c3 : Matrix) (hi : 11 ≤ i)
    (hn : e.n1 = length) (hB : 0 ≤ B)
    (hB1 : ∀ n1 n2 t t2 a b c d, |e.E_IntLoop n1 n2 t t2 a b c d| ≤ B)
    (j : Int) (hj1 : i + 4 ≤ j) (hj2 : j ≤ e.n1 - 11) (hp : e.pt i j ≠ 0) :
    ∀ (n : Nat) (k l : Int), i - k = (n : Int) → max 9 (i - W) < k → j ≤ l → l < j + W →
      e.INF - (i - k) * B ≤ entry (filled e length W i c3) W i j (k, l) ∨
      ∃ ps, isChain e k l i j ps ∧
        entry (filled e length W i c3) W i j (k, l) = chainEnergy e i j ps := by
  intro n
  induction n using Nat.strong_induction_on with
  | _ n ih =>
    intro k l hnk hk hl1 hl2
    by_cases hki : k = i
    · subst hki
      rw [filled_inner e length W k c3 hi hn j l hj1 hj2 hp hl1 hl2]
      by_cases hlj : l = j
      · subst hlj
        right
        refine ⟨[(k, l)], ⟨rfl, rfl, List.chain'_singleton _, ?_⟩, ?_⟩
        · intro a ha
          simp only [List.mem_singleton] at ha
          subst ha; exact hp
        · simp [chainEnergy, loopSum]
      · left
        rw [if_neg hlj]
        simp
    · have hk2 : k < i := by omega
      rcases filled_ge e length W i c3 hi hn j k l hj1 hj2 hk hk2 hl1 hl2 with
        h | ⟨p, q, g1, g2, g3, g4, g5, g6, g7, g8⟩
      · left
        rw [h]
        have : 0 ≤ (i - k) * B := mul_nonneg (by omega) hB
        linarith
      · obtain ⟨m, hm⟩ : ∃ m : Nat, i - p = (m : Int) := ⟨(i - p).toNat, by omega⟩
        rcases ih m (by omega) p q hm (by omega) g3 (by omega) with h | ⟨ps, hps, hval⟩
        · left
          rw [g8]
          have h1 : |stepEnergy e (k, l) (p, q)| ≤ B := hB1 _ _ _ _ _ _ _ _
          have h2 := neg_abs_le (stepEnergy e (k, l) (p, q))
          have h3 : 0 ≤ (p - k - 1) * B := mul_nonneg (by omega) hB
          nlinarith
        · right
          obtain ⟨c1, c2, c3', c4⟩ := hps
          obtain ⟨rest, rfl⟩ : ∃ rest, ps = (p, q) :: rest := by
            cases ps with
            | nil => simp at c1
            | cons x rest =>
              simp only [List.head?_cons, Option.some.injEq] at c1
              exact ⟨rest, by rw [c1]⟩
          refine ⟨(k, l) :: (p, q) :: rest, ⟨rfl, ?_, ?_, ?_⟩, ?_⟩
          · rw [List.getLast?_cons_cons]; exact c2
          · rw [List.chain'_cons]
            exact ⟨⟨g1, g4, by simp only; omega⟩, c3'⟩
          · intro a ha
            rcases List.mem_cons.mp ha with r | r
            · subst r; exact g7
            · exact c4 a r
          · rw [g8, hval]
            simp only [chainEnergy, loopSum]
            ring

/-- C1: at a scan position `i`, for an energy model small relative to `INF`, the entry
`c3[j-11][W-i+k-1][l-j]` of the filled matrix for an inner pair `(i, j)` and a boundary
pair `(k, l)` of the readout range that are connected by a valid chain is the minimum of
the chain energies (external stem of `(i, j)` plus the interior loops of the steps) over
all valid chains from `(k, l)` to `(i, j)`: it is attained by a chain and is at most the
energy of every chain. The global `n1` is the length of the sequence, as set by the
caller. -/
theorem fill_minimum (e : Env) (length W i B : Int) (c3 : Matrix) (j k l : Int)
    (hi : 11 ≤ i) (hn : e.n1 = length) (hs : smallEnergies e W B)
    (hr : inReadout e W i j k l) (hc : ∃ ps, isChain e k l i j ps) :
    (∃ ps, isChain e k l i j ps ∧
      entry (filled e length W i c3) W i j (k, l) = chainEnergy e i j ps) ∧
    (∀ ps, isChain e k l i j ps →
      entry (filled e length W i c3) W i j (k, l) ≤ chainEnergy e i j ps) := by
  obtain ⟨r1, r2, r3, r4, r5, r6, r7, r8⟩ := hr
  have hB0 : 0 ≤ B := le_trans (abs_nonneg _) (hs.2.1 0 0 0)
  have hup := filled_upper e length W i c3 hi hn j r1 r2
  refine ⟨?_, fun ps hps => hup ps k l hps r3 (by omega) (by omega)⟩
  obtain ⟨ps0, hps0⟩ := hc
  obtain ⟨m, hm⟩ : ∃ m : Nat, i - k = (m : Int) := ⟨(i - k).toNat, by omega⟩
  rcases filled_class e length W i B c3 hi hn hB0 hs.1 j r1 r2 r7 m k l hm r3 (by omega)
      (by omega) with h | h
  · exfalso
    have h1 := hup ps0 k l hps0 r3 (by omega) (by omega)
    have h2 := chainEnergy_bound e W B hs ps0 k l i j hps0 (by omega)
    have h3 := le_abs_self (chainEnergy e i j ps0)
    have h4 : (i - k) * B ≤ (W - 1) * B := mul_le_mul_of_nonneg_right (by omega) hB0
    have h5 := hs.2.2
    nlinarith
  · exact h

theorem smallEnergies_near : smallEnergies envNear 3 5 := by
  refine ⟨?_, ?_, ?_⟩
  · intro n1 n2 t t2 a b c d
    show |(-3 : Int)| ≤ 5
    decide
  · intro t a b
    show |(5 : Int)| ≤ 5
    decide
  · decide

theorem isChain_near : isChain envNear 10 17 11 15 [(10, 17), (11, 15)] := by
  refine ⟨rfl, rfl, ?_, ?_⟩
  · exact List.chain'_cons.mpr ⟨by decide, List.chain'_singleton _⟩
  · decide

theorem fill_minimum_witness :
    (11 : Int) ≤ 11 ∧ envNear.n1 = 27 ∧ smallEnergies envNear 3 5 ∧
    inReadout envNear 3 11 15 10 17 ∧ (∃ ps, isChain envNear 10 17 11 15 ps) ∧
    ((∃ ps, isChain envNear 10 17 11 15 ps ∧
      entry (filled envNear 27 3 11 scanStart.c3) 3 11 15 (10, 17) =
        chainEnergy envNear 11 15 ps) ∧
    (∀ ps, isChain envNear 10 17 11 15 ps →
      entry (filled envNear 27 3 11 scanStart.c3) 3 11 15 (10, 17) ≤
        chainEnergy envNear 11 15 ps)) :=
  ⟨by decide, by decide, smallEnergies_near, by decide, ⟨[(10, 17), (11, 15)], isChain_near⟩,
    fill_minimum envNear 27 3 11 5 scanStart.c3 15 10 17 (by decide) (by decide)
      smallEnergies_near (by decide) ⟨[(10, 17), (11, 15)], isChain_near⟩⟩

/-! ## Backtracking from a selected combination -/

/-- When the readout ends with `Emin < INF`, the stored combination is in the readout
range. -/
theorem readout_selected (e : Env) (access_s1 : Int → Int → Int) (W i : Int) (c3 : Matrix)
    (h : (readout e access_s1 W i c3).Emin < e.INF) :
    inReadout e W i (readout e access_s1 W i c3).j_min (readout e access_s1 W i c3).k_min
      (readout e access_s1 W i c3).l_min := by
  rw [readout_eq_foldl] at h ⊢
  rcases pickBest_foldl e access_s1 W i c3 (readoutCands e W i) with
    ⟨hb, _⟩ | ⟨pre, c, post, hcs, hb, _, _, _⟩
  · rw [hb] at h; exact absurd h (lt_irrefl _)
  · rw [hb]
    exact mem_readoutCands.mp (by rw [hcs]; simp)

theorem findP_nil (e : Env) (c3 : Matrix) (W i j k l E type : Int) :
    findP e c3 W i j k l E type [] = none := rfl

/-- From a pair whose entry is the energy of a valid chain, the loop of `backtrack_XS`
reaches the inner pair `(i, j)` and stops there without failure. -/
theorem walk_reaches (e : Env) (length W i B : Int) (c3 : Matrix) (hi : 11 ≤ i)
    (hn : e.n1 = length) (hs : smallEnergies e W B)
    (j : Int) (hj1 : i + 4 ≤ j) (hj2 : j ≤ e.n1 - 11) (hp : e.pt i j ≠ 0) :
    ∀ (n : Nat) (k l : Int) (st1 st2 : CharArr) (i0 : Int) (fuel : Nat),
      i - k = (n : Int) → n < fuel → max 9 (i - W) < k → j ≤ l → l < j + W → e.pt k l ≠ 0 →
      (∃ ps, isChain e k l i j ps ∧
        entry (filled e length W i c3) W i j (k, l) = chainEnergy e i j ps) →
      ∃ w, backtrackLoop e (filled e length W i c3) W i j i0 fuel (Walk.mk k l st1 st2) =
        Outcome.ok w ∧ w.k = i ∧ w.l = j := by
  have hB0 : 0 ≤ B := le_trans (abs_nonneg _) (hs.2.1 0 0 0)
  intro n
  induction n using Nat.strong_induction_on with
  | _ n ih =>
    intro k l st1 st2 i0 fuel hnk hfuel hk hl1 hl2 hkl hgood
    obtain ⟨f, rfl⟩ : ∃ f, fuel = f + 1 := ⟨fuel - 1, by omega⟩
    obtain ⟨ps, hps, hval⟩ := hgood
    have hce := chainEnergy_bound e W B hs ps k l i j hps (by omega)
    have hce1 := le_abs_self (chainEnergy e i j ps)
    have hce2 := abs_nonneg (chainEnergy e i j ps)
    have hce3 := neg_abs_le (chainEnergy e i j ps)
    have hINF := hs.2.2
    rw [backtrackLoop_succ e _ W i j i0 f _ ⟨by simp only; omega, by simp only; omega⟩
      (by unfold inBox; simp only; omega)]
    simp only
    rw [if_neg hkl]
    by_cases hki : k = i
    · subst hki
      have hin := filled_inner e length W k c3 hi hn j l hj1 hj2 hp hl1 hl2
      have hlj : l = j := by
        by_contra hne
        rw [if_neg hne] at hin
        rw [hin] at hval
        linarith
      subst hlj
      rw [if_pos rfl] at hin
      rw [rangeUp_nil (le_refl _), findP_nil]
      simp only
      rw [if_neg (by rw [hin]; simp)]
      exact ⟨_, rfl, rfl, rfl⟩
    · have hk2 : k < i := by omega
      rcases filled_ge e length W i c3 hi hn j k l hj1 hj2 hk hk2 hl1 hl2 with
        h | ⟨p, q, g1, g2, g3, g4, g5, g6, g7, g8⟩
      · exfalso
        rw [h] at hval
        linarith
      · cases hf : findP e (filled e length W i c3) W i j k l
            (entry (filled e length W i c3) W i j (k, l)) (e.pt k l)
            (rangeUp (k + 1) (i + 1)) with
        | none =>
          exact absurd (show isStep e (filled e length W i c3) W i j (k, l) (p, q) from
            ⟨g1, g2, g3, g4, g5, g6, g8⟩) (findP_noStep hf (p, q))
        | some b =>
          obtain ⟨p2, q2⟩ := b
          simp only
          obtain ⟨s1, s2, s3, s4, s5, s6, s7⟩ := (findP_firstStep hf).1
          simp only at s1 s2 s3 s4 s5 s6 s7
          obtain ⟨m, hm⟩ : ∃ m : Nat, i - p2 = (m : Int) := ⟨(i - p2).toNat, by omega⟩
          apply ih m (by omega) p2 q2 _ _ i0 f hm (by omega) (by omega) s3 (by omega) s6
          rcases filled_class e length W i B c3 hi hn hB0 hs.1 j hj1 hj2 hp m p2 q2 hm
              (by omega) s3 (by omega) with h | h
          · exfalso
            have h1 : |stepEnergy e (k, l) (p2, q2)| ≤ B := hs.1 _ _ _ _ _ _ _ _
            have h2 := neg_abs_le (stepEnergy e (k, l) (p2, q2))
            have h4 : (i - p2) * B ≤ (W - 2) * B := mul_le_mul_of_nonneg_right (by omega) hB0
            rw [hval] at s7
            linarith
          · exact h

theorem dotBracket_getLast (ch : Char) (n : Int) (idxs : List Int) (hn : 0 ≤ n)
    (h : n ∈ idxs) : (dotBracket ch (n + 1) idxs).getLast? = some ch := by
  unfold dotBracket
  rw [rangeUp_snoc hn, List.map_append]
  simp [h]

theorem dotBracket_head (ch : Char) (n : Int) (idxs : List Int) (hn : 0 < n)
    (h : (0 : Int) ∈ idxs) : (dotBracket ch n idxs).head? = some ch := by
  unfold dotBracket
  rw [rangeUp_cons hn]
  simp [h]

/-- C6: at a scan position `i`, for an energy model small relative to `INF`, when the
readout has selected a combination (`Emin < INF`) whose matrix entry is below `INF / 2`,
`backtrack_XS(k_min, l_min, i, j_min)` returns without failure; its walk ends at the inner
pair `(i, j_min)`, so the last character of the first half and the first character of
the second half are brackets, and the returned string fills the allocated buffer
exactly. The global `n1` is the length of the sequence, as set by the caller. -/
theorem backtrack_succeeds (e : Env) (length W i B : Int) (access_s1 : Int → Int → Int)
    (c3 : Matrix) (hi : 11 ≤ i) (hn : e.n1 = length) (hs : smallEnergies e W B)
    (hsel : (bestAt e length access_s1 W i c3).Emin < e.INF)
    (hent : 2 * entry (filled e length W i c3) W i (bestAt e length access_s1 W i c3).j_min
      ((bestAt e length access_s1 W i c3).k_min, (bestAt e length access_s1 W i c3).l_min)
        < e.INF) :
    ∃ t, backtrack_XS e (filled e length W i c3) (bestAt e length access_s1 W i c3).k_min
        (bestAt e length access_s1 W i c3).l_min i (bestAt e length access_s1 W i c3).j_min W =
        Outcome.ok t ∧
      (decode t.struc (bestAt e length access_s1 W i c3).k_min
        (bestAt e length access_s1 W i c3).j_min).getLast? =
        some (i, (bestAt e length access_s1 W i c3).j_min) ∧
      (firstHalf t.struc).getLast? = some '(' ∧
      (secondHalf t.struc).head? = some ')' ∧
      t.alloc = (t.struc.length : Int) + 1 := by
  have hr := readout_selected e access_s1 W i (filled e length W i c3) hsel
  unfold bestAt at hsel hent ⊢
  generalize (readout e access_s1 W i (filled e length W i c3)).j_min = j at *
  generalize (readout e access_s1 W i (filled e length W i c3)).k_min = k at *
  generalize (readout e access_s1 W i (filled e length W i c3)).l_min = l at *
  obtain ⟨r1, r2, r3, r4, r5, r6, r7, r8⟩ := hr
  have hB0 : 0 ≤ B := le_trans (abs_nonneg _) (hs.2.1 0 0 0)
  have hINF := hs.2.2
  obtain ⟨m, hm⟩ : ∃ m : Nat, i - k = (m : Int) := ⟨(i - k).toNat, by omega⟩
  have hgood : ∃ ps, isChain e k l i j ps ∧
      entry (filled e length W i c3) W i j (k, l) = chainEnergy e i j ps := by
    rcases filled_class e length W i B c3 hi hn hB0 hs.1 j r1 r2 r7 m k l hm r3 (by omega)
        (by omega) with h | h
    · exfalso
      have h4 : (i - k) * B ≤ (W - 1) * B := mul_le_mul_of_nonneg_right (by omega) hB0
      nlinarith
    · exact h
  obtain ⟨w, hw, hwk, hwl⟩ := walk_reaches e length W i B c3 hi hn hs j r1 r2 r7 m k l
    (CharArr.set (fun _ => NUL) (i - k + 1) NUL) (CharArr.set (fun _ => NUL) (l - j + 1) NUL)
    k ((i - k).toNat + (l - j).toNat + 1) hm (by omega) r3 (by omega) (by omega) r8 hgood
  have hbt0 : backtrack_XS e (filled e length W i c3) k l i j W =
      Outcome.ok (Traced.mk
        (cstring (padDots w.st1 (i - k)) (i - k + 2) ++
          '&' :: cstring (padDots w.st2 (l - j)) (l - j + 2))
        (w.k - k + 1 + l - w.l + 1 + 2)) := by
    unfold backtrack_XS
    simp only [hw]
  obtain ⟨t, hbt, halloc⟩ : ∃ t : Traced,
      backtrack_XS e (filled e length W i c3) k l i j W = Outcome.ok t ∧
        t.alloc = w.k - k + 1 + l - w.l + 1 + 2 := ⟨_, hbt0, rfl⟩
  refine ⟨t, hbt, ?_⟩
  obtain ⟨q0, q1, q2⟩ := backtrack_halves e (filled e length W i c3) k l i j W _ hbt
  have hdec := decode_backtrack e (filled e length W i c3) k l i j W _ hbt
  obtain ⟨_, _, p3, _, _, _⟩ := backtrackLoop_ok e (filled e length W i c3) W i j k _ _ _ hw
  simp only at p3
  rw [hwk, hwl] at p3
  have hhead := walkPairs_head e (filled e length W i c3) W i j k l
    ((i - k).toNat + (l - j).toNat) (by omega) (by omega)
  have hlast : (walkPairs e (filled e length W i c3) W i j
      ((i - k).toNat + (l - j).toNat + 1) k l).getLast? = some (i, j) := by
    cases hwp : walkPairs e (filled e length W i c3) W i j
        ((i - k).toNat + (l - j).toNat + 1) k l with
    | nil => rw [hwp] at hhead; simp at hhead
    | cons x xs =>
      rw [hwp, List.getLastD_eq_getLast?] at p3
      cases hgl : (x :: xs).getLast? with
      | none => simp at hgl
      | some y =>
        rw [hgl] at p3
        simp only [Option.getD_some] at p3
        rw [p3]
  have hmem := List.mem_of_getLast?_eq_some hlast
  refine ⟨by rw [hdec]; exact hlast, ?_, ?_, ?_⟩
  · rw [q1]
    apply dotBracket_getLast _ _ _ (by omega)
    rw [List.mem_map]
    exact ⟨(i, j), hmem, rfl⟩
  · rw [q2]
    apply dotBracket_head _ _ _ (by omega)
    rw [List.mem_map]
    exact ⟨(i, j), hmem, by simp⟩
  · have hlen := congrArg List.length q0
    have hl1 := dotBracket_length '(' (i - k + 1) ((walkPairs e (filled e length W i c3) W i j
      ((i - k).toNat + (l - j).toNat + 1) k l).map (fun a => a.1 - k))
    have hl2 := dotBracket_length ')' (l - j + 1) ((walkPairs e (filled e length W i c3) W i j
      ((i - k).toNat + (l - j).toNat + 1) k l).map (fun a => a.2 - j))
    rw [← q1] at hl1
    rw [← q2] at hl2
    rw [List.length_append, List.length_cons] at hlen
    rw [halloc, hwk, hwl]
    omega

theorem bestAt_near :
    bestAt envNear 27 (fun _ _ => 0) 3 11 scanStart.c3 = Best.mk 12 10 16 15 := by
  unfold bestAt
  rw [c3Near_eq]
  decide

theorem entry_near :
    entry (filled envNear 27 3 11 scanStart.c3) 3 11 15 (10, 16) = 2 := by
  rw [c3Near_eq]
  decide

theorem backtrack_succeeds_witness :
    (11 : Int) ≤ 11 ∧ envNear.n1 = 27 ∧ smallEnergies envNear 3 5 ∧
    (bestAt envNear 27 (fun _ _ => 0) 3 11 scanStart.c3).Emin < envNear.INF ∧
    2 * entry (filled envNear 27 3 11 scanStart.c3) 3 11
      (bestAt envNear 27 (fun _ _ => 0) 3 11 scanStart.c3).j_min
      ((bestAt envNear 27 (fun _ _ => 0) 3 11 scanStart.c3).k_min,
        (bestAt envNear 27 (fun _ _ => 0) 3 11 scanStart.c3).l_min) < envNear.INF ∧
    ∃ t, backtrack_XS envNear (filled envNear 27 3 11 scanStart.c3)
        (bestAt envNear 27 (fun _ _ => 0) 3 11 scanStart.c3).k_min
        (bestAt envNear 27 (fun _ _ => 0) 3 11 scanStart.c3).l_min 11
        (bestAt envNear 27 (fun _ _ => 0) 3 11 scanStart.c3).j_min 3 = Outcome.ok t ∧
      (decode t.struc (bestAt envNear 27 (fun _ _ => 0) 3 11 scanStart.c3).k_min
        (bestAt envNear 27 (fun _ _ => 0) 3 11 scanStart.c3).j_min).getLast? =
        some (11, (bestAt envNear 27 (fun _ _ => 0) 3 11 scanStart.c3).j_min) ∧
      (firstHalf t.struc).getLast? = some '(' ∧
      (secondHalf t.struc).head? = some ')' ∧
      t.alloc = (t.struc.length : Int) + 1 :=
  ⟨by decide, by decide, smallEnergies_near, by rw [bestAt_near]; decide,
    by rw [bestAt_near]; simp only; rw [entry_near]; decide,
    backtrack_succeeds envNear 27 3 11 5 (fun _ _ => 0) scanStart.c3 (by decide) (by decide)
      smallEnergies_near (by rw [bestAt_near]; decide)
      (by rw [bestAt_near]; simp only; rw [entry_near]; decide)⟩

/-! ### The matrix of a scan position does not depend on the previous one -/

theorem applyRelax_agree {length W : Int} {m m' : Matrix} (o : Relax)
    (h : ∀ a b c, inBox length W a b c → m a b c = m' a b c)
    (hs : inBox length W o.sa o.sb o.sc) (a b c : Int) (hb : inBox length W a b c) :
    applyRelax m o a b c = applyRelax m' o a b c := by
  unfold applyRelax Matrix.set
  by_cases ht : a = o.ta ∧ b = o.tb ∧ c = o.tc
  · obtain ⟨rfl, rfl, rfl⟩ := ht
    simp only [and_self, if_true]
    rw [h _ _ _ hb, h _ _ _ hs]
  · simp only [ht, if_false]
    exact h a b c hb

theorem relax_foldl_agree {length W : Int} :
    ∀ (ops : List Relax) (m m' : Matrix),
      (∀ o ∈ ops, inBox length W o.sa o.sb o.sc) →
      (∀ a b c, inBox length W a b c → m a b c = m' a b c) →
      ∀ a b c, inBox length W a b c →
        ops.foldl applyRelax m a b c = ops.foldl applyRelax m' a b c := by
  intro ops
  induction ops with
  | nil => intro m m' _ h; exact h
  | cons o ops ih =>
    intro m m' hs h
    simp only [List.foldl_cons]
    exact ih _ _ (fun o2 ho2 => hs o2 (List.mem_cons_of_mem _ ho2))
      (applyRelax_agree o h (hs o (List.mem_cons_self _ _)))

theorem opsL_source_box {e : Env} {length W i k : Int} {o : Relax} (hi : 11 ≤ i)
    (hn : e.n1 = length) (hk : max 9 (i - W) < k) (ho : o ∈ opsL e W i k) :
    inBox length W o.sa o.sb o.sc := by
  obtain ⟨l, p, q, j, h1, h2, h3, h4, h5, h6, h7, h8, h9, h10, h11, h12, h13, rfl⟩ :=
    mem_opsL.mp ho
  unfold relaxOf inBox
  simp only
  refine ⟨by omega, by omega, by omega, by omega, by omega, by omega⟩

theorem fill_agree (e : Env) (length W i : Int) (hi : 11 ≤ i) (hn : e.n1 = length)
    (m m' : Matrix) (h : ∀ a b c, inBox length W a b c → m a b c = m' a b c) :
    ∀ a b c, inBox length W a b c → fill e W i m a b c = fill e W i m' a b c := by
  unfold fill
  have hks : ∀ k ∈ rangeDown (i - 1) (max 9 (i - W)), max 9 (i - W) < k := by
    intro k hk
    have := mem_rangeDown.mp hk
    omega
  revert hks m m'
  generalize rangeDown (i - 1) (max 9 (i - W)) = ks
  induction ks with
  | nil => intro m m' h _; exact h
  | cons k ks ih =>
    intro m m' h hks
    simp only [List.foldl_cons]
    apply ih _ _ _ (fun k2 hk2 => hks k2 (List.mem_cons_of_mem _ hk2))
    rw [fillL_eq, fillL_eq]
    exact relax_foldl_agree _ _ _
      (fun o ho => opsL_source_box hi hn (hks k (List.mem_cons_self _ _)) ho) h

/-- Inside the allocated box the matrix of scan position `i` is the same whatever the
previous scan position left there. -/
theorem filled_agree (e : Env) (length W i : Int) (hi : 11 ≤ i) (hn : e.n1 = length)
    (c3 c3' : Matrix) (a b c : Int) (hb : inBox length W a b c) :
    filled e length W i c3 a b c = filled e length W i c3' a b c := by
  unfold filled
  apply fill_agree e length W i hi hn _ _ _ a b c hb
  intro a b c hb
  rw [baseCase_apply, baseCase_apply]
  unfold inBox at hb
  by_cases h : (i + 4 ≤ a + 11 ∧ a + 11 ≤ e.n1 - 11) ∧ e.pt i (a + 11) ≠ 0 ∧ b = W - 1 ∧ c = 0
  · rw [if_pos h, if_pos h]
  · rw [if_neg h, if_neg h, if_pos hb, if_pos hb]

theorem readout_agree (e : Env) (access_s1 : Int → Int → Int) (length W i : Int)
    (hi : 11 ≤ i) (hn : e.n1 = length) (m m' : Matrix)
    (h : ∀ a b c, inBox length W a b c → m a b c = m' a b c) :
    readout e access_s1 W i m = readout e access_s1 W i m' := by
  rw [readout_eq_foldl, readout_eq_foldl]
  apply List.foldl_ext
  intro b c hc
  obtain ⟨r1, r2, r3, r4, r5, r6, r7, r8⟩ := mem_readoutCands.mp hc
  have hent : m (c.1 - 11) (W - i + c.2.1 - 1) (c.2.2 - c.1) =
      m' (c.1 - 11) (W - i + c.2.1 - 1) (c.2.2 - c.1) := by
    apply h
    unfold inBox
    refine ⟨by omega, by omega, by omega, by omega, by omega, by omega⟩
  unfold pickBest total
  simp only [hent]

/-- The readout result of a scan position does not depend on the matrix left by the
previous one. -/
theorem bestAt_eq_bestOf (e : Env) (access_s1 : Int → Int → Int) (length W i : Int)
    (hi : 11 ≤ i) (hn : e.n1 = length) (c3 : Matrix) :
    bestAt e length access_s1 W i c3 = bestOf e length access_s1 W i := by
  unfold bestOf bestAt
  exact readout_agree e access_s1 length W i hi hn _ _
    (fun a b c hb => filled_agree e length W i hi hn _ _ a b c hb)

theorem mem_scanPositions {length i : Int} :
    i ∈ scanPositions length ↔ 11 ≤ i ∧ i ≤ length - 10 := by
  unfold scanPositions
  rw [mem_rangeDown]
  omega

/-! ### The scan loop -/

theorem backtrack_no_fuel (e : Env) (c3 : Matrix) (k l i j W : Int) :
    backtrack_XS e c3 k l i j W ≠ Outcome.fuel := by
  have h0 := backtrackLoop_fuel e c3 W i j k ((i - k).toNat + (l - j).toNat + 1)
    (Walk.mk k l (CharArr.set (fun _ => NUL) (i - k + 1) NUL)
      (CharArr.set (fun _ => NUL) (l - j + 1) NUL)) (by simp only; omega)
  unfold backtrack_XS
  simp only
  intro hh
  split at hh
  · rename_i heq; exact h0.1 heq
  · simp at hh
  · simp at hh
  · simp at hh

/-- A call of `backtrack_XS` on a pair `(k, l)` of pair type 0 whose entry is inside the
array fails at once. -/
theorem backtrack_unpaired (e : Env) (c3 : Matrix) (k l i j W : Int) (hk : k ≤ i)
    (hl : j ≤ l) (hb : inBox e.n1 W (j - 11) (W - i + k - 1) (l - j)) (hp : e.pt k l = 0) :
    backtrack_XS e c3 k l i j W = Outcome.fail "backtrack failed in fold duplex bli" := by
  unfold backtrack_XS
  simp only
  rw [backtrackLoop_succ e c3 W i j k _ _ ⟨hk, hl⟩ hb]
  simp only [hp, if_true]

/-- A call of `backtrack_XS` whose first read of `c3` is outside the array is undefined. -/
theorem backtrack_outside (e : Env) (c3 : Matrix) (k l i j W : Int) (hk : k ≤ i)
    (hl : j ≤ l) (hb : ¬ inBox e.n1 W (j - 11) (W - i + k - 1) (l - j)) :
    backtrack_XS e c3 k l i j W = Outcome.undef := by
  unfold backtrack_XS
  simp only
  rw [backtrackLoop_undef e c3 W i j k _ _ ⟨hk, hl⟩ hb]

/-- The call `backtrack_XS(0, 0, i, 0)`, made when the readout selected nothing, reads
`c3[-11]`. -/
theorem backtrack_origin (e : Env) (c3 : Matrix) (i W : Int) (hi : 0 ≤ i) :
    backtrack_XS e c3 0 0 i 0 W = Outcome.undef :=
  backtrack_outside e c3 0 0 i 0 W hi le_rfl (by unfold inBox; omega)

/-- When `backtrack_XS` returns, its first read of `c3` was inside the array. -/
theorem backtrack_inside (e : Env) (c3 : Matrix) (k l i j W : Int) (t : Traced) (hk : k ≤ i)
    (hl : j ≤ l) (h : backtrack_XS e c3 k l i j W = Outcome.ok t) :
    inBox e.n1 W (j - 11) (W - i + k - 1) (l - j) := by
  by_contra hb
  rw [backtrack_outside e c3 k l i j W hk hl hb] at h
  simp at h

theorem scanPosition_skip (e : Env) (length : Int) (access_s1 : Int → Int → Int)
    (penalty W i : Int) (s : Scan)
    (h : ¬ (bestAt e length access_s1 W i s.c3).Emin < penalty) :
    scanPosition e length access_s1 penalty W i s =
      Outcome.ok (Scan.mk (filled e length W i s.c3) s.store) := by
  unfold bestAt at h
  unfold scanPosition accept
  simp only [h, if_false]

theorem scanPosition_fail (e : Env) (length : Int) (access_s1 : Int → Int → Int)
    (penalty W i : Int) (s : Scan) (msg : String)
    (h : (bestAt e length access_s1 W i s.c3).Emin < penalty)
    (hbt : backtrack_XS e (filled e length W i s.c3) (bestAt e length access_s1 W i s.c3).k_min
      (bestAt e length access_s1 W i s.c3).l_min i (bestAt e length access_s1 W i s.c3).j_min W =
      Outcome.fail msg) :
    scanPosition e length access_s1 penalty W i s = Outcome.fail msg := by
  unfold bestAt at h hbt
  unfold scanPosition accept
  simp only [h, if_true, hbt]

theorem scanPosition_undef (e : Env) (length : Int) (access_s1 : Int → Int → Int)
    (penalty W i : Int) (s : Scan)
    (h : (bestAt e length access_s1 W i s.c3).Emin < penalty)
    (hbt : backtrack_XS e (filled e length W i s.c3) (bestAt e length access_s1 W i s.c3).k_min
      (bestAt e length access_s1 W i s.c3).l_min i (bestAt e length access_s1 W i s.c3).j_min W =
      Outcome.undef) :
    scanPosition e length access_s1 penalty W i s = Outcome.undef := by
  unfold bestAt at h hbt
  unfold scanPosition accept
  simp only [h, if_true, hbt]

theorem scanPosition_back (e : Env) (length : Int) (access_s1 : Int → Int → Int)
    (penalty W i : Int) (s : Scan) (t : Traced)
    (h : (bestAt e length access_s1 W i s.c3).Emin < penalty)
    (hbt : backtrack_XS e (filled e length W i s.c3) (bestAt e length access_s1 W i s.c3).k_min
      (bestAt e length access_s1 W i s.c3).l_min i (bestAt e length access_s1 W i s.c3).j_min W =
      Outcome.ok t) :
    scanPosition e length access_s1 penalty W i s =
      Outcome.ok (Scan.mk (filled e length W i s.c3)
        (if (bestAt e length access_s1 W i s.c3).net access_s1 i < penalty then
          append s.store (hitOf access_s1 i (bestAt e length access_s1 W i s.c3) t.struc)
        else s.store)) := by
  unfold bestAt at h hbt ⊢
  unfold scanPosition accept hitOf Best.net Best.dGx Best.dGy
  dsimp only
  generalize readout e access_s1 W i (filled e length W i s.c3) = b at *
  simp only [h, if_true, hbt]
  by_cases h2 : wrapInt (wrapInt (b.Emin - access_s1 (i - b.k_min + 1) i) -
      access_s1 (b.l_min - b.j_min + 1) b.l_min) < penalty
  · simp only [h2, if_true]
  · simp only [h2, if_false]

theorem scanAll_nil (e : Env) (length : Int) (access_s1 : Int → Int → Int) (penalty W : Int)
    (s : Scan) : scanAll e length access_s1 penalty W [] s = Outcome.ok s := rfl

theorem scanAll_cons_ok (e : Env) (length : Int) (access_s1 : Int → Int → Int)
    (penalty W i : Int) (is : List Int) (s s1 : Scan)
    (h : scanPosition e length access_s1 penalty W i s = Outcome.ok s1) :
    scanAll e length access_s1 penalty W (i :: is) s =
      scanAll e length access_s1 penalty W is s1 := by
  rw [scanAll]
  simp only [h]

theorem scanAll_cons_fail (e : Env) (length : Int) (access_s1 : Int → Int → Int)
    (penalty W i : Int) (is : List Int) (s : Scan) (msg : String)
    (h : scanPosition e length access_s1 penalty W i s = Outcome.fail msg) :
    scanAll e length access_s1 penalty W (i :: is) s = Outcome.fail msg := by
  rw [scanAll]
  simp only [h]

theorem scanAll_cons_undef (e : Env) (length : Int) (access_s1 : Int → Int → Int)
    (penalty W i : Int) (is : List Int) (s : Scan)
    (h : scanPosition e length access_s1 penalty W i s = Outcome.undef) :
    scanAll e length access_s1 penalty W (i :: is) s = Outcome.undef := by
  rw [scanAll]
  simp only [h]

/-- Every entry of the result list was written at one scan position, whose best total is
below the threshold, whose net energy is below the threshold and whose backtracking
succeeded; the entries keep the order of the scan positions. -/
theorem scanAll_trace (e : Env) (length : Int) (access_s1 : Int → Int → Int)
    (penalty W : Int) :
    ∀ (is : List Int) (s s2 : Scan),
      scanAll e length access_s1 penalty W is s = Outcome.ok s2 →
      ∃ L, s2.store.storage = s.store.storage ++ L ∧
        (L.map (fun h => h.te)).Sublist (is.map (fun i => i - 10)) ∧
        ∀ h ∈ L, ∃ i ∈ is, ∃ c3 t,
          (bestAt e length access_s1 W i c3).Emin < penalty ∧
          (bestAt e length access_s1 W i c3).net access_s1 i < penalty ∧
          backtrack_XS e (filled e length W i c3) (bestAt e length access_s1 W i c3).k_min
            (bestAt e length access_s1 W i c3).l_min i
            (bestAt e length access_s1 W i c3).j_min W = Outcome.ok t ∧
          h = hitOf access_s1 i (bestAt e length access_s1 W i c3) t.struc := by
  intro is
  induction is with
  | nil =>
    intro s s2 h
    rw [scanAll_nil] at h
    simp only [Outcome.ok.injEq] at h
    subst h
    exact ⟨[], by simp, by simp, by simp⟩
  | cons i is ih =>
    intro s s2 h
    by_cases h1 : (bestAt e length access_s1 W i s.c3).Emin < penalty
    · cases hbt : backtrack_XS e (filled e length W i s.c3)
          (bestAt e length access_s1 W i s.c3).k_min (bestAt e length access_s1 W i s.c3).l_min i
          (bestAt e length access_s1 W i s.c3).j_min W with
      | fuel => exact absurd hbt (backtrack_no_fuel _ _ _ _ _ _ _)
      | undef =>
        rw [scanAll_cons_undef _ _ _ _ _ _ _ _
          (scanPosition_undef e length access_s1 penalty W i s h1 hbt)] at h
        simp at h
      | fail msg =>
        rw [scanAll_cons_fail _ _ _ _ _ _ _ _ _
          (scanPosition_fail e length access_s1 penalty W i s msg h1 hbt)] at h
        simp at h
      | ok t =>
        rw [scanAll_cons_ok _ _ _ _ _ _ _ _ _
          (scanPosition_back e length access_s1 penalty W i s t h1 hbt)] at h
        obtain ⟨L, hL, hsub, hall⟩ := ih _ _ h
        simp only at hL
        by_cases h2 : (bestAt e length access_s1 W i s.c3).net access_s1 i < penalty
        · rw [if_pos h2, append_storage] at hL
          refine ⟨hitOf access_s1 i (bestAt e length access_s1 W i s.c3) t.struc :: L,
            by rw [hL]; simp, ?_, ?_⟩
          · simp only [List.map_cons]
            exact List.Sublist.cons₂ _ hsub
          · intro h hh
            rcases List.mem_cons.mp hh with rfl | hh
            · exact ⟨i, List.mem_cons_self _ _, s.c3, t, h1, h2, hbt, rfl⟩
            · obtain ⟨i2, hi2, r⟩ := hall h hh
              exact ⟨i2, List.mem_cons_of_mem _ hi2, r⟩
        · rw [if_neg h2] at hL
          refine ⟨L, hL, ?_, ?_⟩
          · simp only [List.map_cons]
            exact List.Sublist.cons _ hsub
          · intro h hh
            obtain ⟨i2, hi2, r⟩ := hall h hh
            exact ⟨i2, List.mem_cons_of_mem _ hi2, r⟩
    · rw [scanAll_cons_ok _ _ _ _ _ _ _ _ _
        (scanPosition_skip e length access_s1 penalty W i s h1)] at h
      obtain ⟨L, hL, hsub, hall⟩ := ih _ _ h
      refine ⟨L, hL, ?_, ?_⟩
      · simp only [List.map_cons]
        exact List.Sublist.cons _ hsub
      · intro h hh
        obtain ⟨i2, hi2, r⟩ := hall h hh
        exact ⟨i2, List.mem_cons_of_mem _ hi2, r⟩

theorem duplexfold_ok (e : Env) (length : Int) (access_s1 : Int → Int → Int)
    (penalty W : Int) (hits : List vrna_pkplex_t)
    (h : duplexfold_XS e length access_s1 penalty W = Outcome.ok hits) :
    ∃ s, scanAll e length access_s1 penalty W (scanPositions length) scanStart = Outcome.ok s ∧
      s.store.storage = hits := by
  unfold duplexfold_XS at h
  cases hs : scanAll e length access_s1 penalty W (scanPositions length) scanStart with
  | fuel => rw [hs] at h; simp at h
  | undef => rw [hs] at h; simp at h
  | fail msg => rw [hs] at h; simp at h
  | ok s =>
    rw [hs] at h
    simp only [Outcome.ok.injEq] at h
    exact ⟨s, rfl, h⟩

/-- The entries returned by `duplexfold_XS` when the global `n1` is the length of the
sequence: each belongs to a scan position `i` in `[11, length - 10]`, and its fields are
those of the readout result of that position. -/
theorem duplexfold_trace (e : Env) (length : Int) (access_s1 : Int → Int → Int)
    (penalty W : Int) (hits : List vrna_pkplex_t) (hn : e.n1 = length)
    (h : duplexfold_XS e length access_s1 penalty W = Outcome.ok hits) :
    (hits.map (fun h => h.te)).Sublist ((scanPositions length).map (fun i => i - 10)) ∧
    ∀ h ∈ hits, ∃ i ∈ scanPositions length, ∃ c3 t,
      (bestOf e length access_s1 W i).Emin < penalty ∧
      (bestOf e length access_s1 W i).net access_s1 i < penalty ∧
      backtrack_XS e (filled e length W i c3) (bestOf e length access_s1 W i).k_min
        (bestOf e length access_s1 W i).l_min i (bestOf e length access_s1 W i).j_min W =
        Outcome.ok t ∧
      h = hitOf access_s1 i (bestOf e length access_s1 W i) t.struc := by
  obtain ⟨s, hs, rfl⟩ := duplexfold_ok e length access_s1 penalty W hits h
  obtain ⟨L, hL, hsub, hall⟩ := scanAll_trace e length access_s1 penalty W _ _ _ hs
  have hL2 : s.store.storage = L := by rw [hL]; rfl
  rw [hL2]
  refine ⟨hsub, ?_⟩
  intro h hh
  obtain ⟨i, hi, c3, t, r⟩ := hall h hh
  have hi11 := (mem_scanPositions.mp hi).1
  rw [bestAt_eq_bestOf e access_s1 length W i hi11 hn c3] at r
  exact ⟨i, hi, c3, t, r⟩

/-- The readout result is either a visited combination with total below `INF`, or the
initial values `Emin = INF`, `k_min = l_min = j_min = 0`. -/
theorem readout_cases (e : Env) (access_s1 : Int → Int → Int) (W i : Int) (c3 : Matrix) :
    readout e access_s1 W i c3 = Best.mk e.INF 0 0 0 ∨
      ((readout e access_s1 W i c3).Emin < e.INF ∧
        inReadout e W i (readout e access_s1 W i c3).j_min (readout e access_s1 W i c3).k_min
          (readout e access_s1 W i c3).l_min) := by
  by_cases h : (readout e access_s1 W i c3).Emin < e.INF
  · exact Or.inr ⟨h, readout_selected e access_s1 W i c3 h⟩
  · left
    rw [readout_eq_foldl] at h ⊢
    rcases pickBest_foldl e access_s1 W i c3 (readoutCands e W i) with
      ⟨hb, _⟩ | ⟨pre, c, post, _, hb, hlt, _, _⟩
    · exact hb
    · rw [hb] at h
      exact absurd hlt h

/-! ### Backtracking reads the matrix only inside the allocated box -/

theorem findQ_agree (e : Env) (m m' : Matrix) (W i j k l E type p : Int) :
    ∀ qs : List Int,
      (∀ q ∈ qs, m (j - 11) (W - i + p - 1) (q - j) = m' (j - 11) (W - i + p - 1) (q - j)) →
      findQ e m W i j k l E type p qs = findQ e m' W i j k l E type p qs := by
  intro qs
  induction qs with
  | nil => intro _; rfl
  | cons q qs ih =>
    intro h
    unfold findQ
    rw [h q (List.mem_cons_self _ _), ih (fun q2 hq2 => h q2 (List.mem_cons_of_mem _ hq2))]

theorem findP_agree (e : Env) (m m' : Matrix) (W i j k l E type : Int) :
    ∀ ps : List Int,
      (∀ p ∈ ps, ∀ q ∈ rangeDown (l - 1) (j - 1),
        m (j - 11) (W - i + p - 1) (q - j) = m' (j - 11) (W - i + p - 1) (q - j)) →
      findP e m W i j k l E type ps = findP e m' W i j k l E type ps := by
  intro ps
  induction ps with
  | nil => intro _; rfl
  | cons p ps ih =>
    intro h
    unfold findP
    rw [findQ_agree e m m' W i j k l E type p _ (h p (List.mem_cons_self _ _)),
      ih (fun p2 hp2 => h p2 (List.mem_cons_of_mem _ hp2))]

theorem backtrackLoop_agree (e : Env) (m m' : Matrix) (W i j i0 : Int) :
    ∀ (fuel : Nat) (w : Walk),
      (∀ p q, w.k ≤ p → p ≤ i → j ≤ q → q ≤ w.l →
        m (j - 11) (W - i + p - 1) (q - j) = m' (j - 11) (W - i + p - 1) (q - j)) →
      backtrackLoop e m W i j i0 fuel w = backtrackLoop e m' W i j i0 fuel w := by
  intro fuel
  induction fuel with
  | zero =>
    intro w _
    by_cases hc : w.k ≤ i ∧ w.l ≥ j
    · rw [backtrackLoop_zero _ _ _ _ _ _ _ hc, backtrackLoop_zero _ _ _ _ _ _ _ hc]
    · rw [backtrackLoop_stop _ _ _ _ _ _ _ _ hc, backtrackLoop_stop _ _ _ _ _ _ _ _ hc]
  | succ fuel ih =>
    intro w h
    by_cases hc : w.k ≤ i ∧ w.l ≥ j
    · by_cases hbx : inBox e.n1 W (j - 11) (W - i + w.k - 1) (w.l - j)
      swap
      · rw [backtrackLoop_undef _ _ _ _ _ _ _ _ hc hbx, backtrackLoop_undef _ _ _ _ _ _ _ _ hc hbx]
      rw [backtrackLoop_succ _ _ _ _ _ _ _ _ hc hbx, backtrackLoop_succ _ _ _ _ _ _ _ _ hc hbx]
      have hE : entry m W i j (w.k, w.l) = entry m' W i j (w.k, w.l) := by
        unfold entry
        exact h w.k w.l le_rfl hc.1 hc.2 le_rfl
      have hP : findP e m W i j w.k w.l (entry m W i j (w.k, w.l)) (e.pt w.k w.l)
          (rangeUp (w.k + 1) (i + 1)) =
          findP e m' W i j w.k w.l (entry m' W i j (w.k, w.l)) (e.pt w.k w.l)
            (rangeUp (w.k + 1) (i + 1)) := by
        rw [hE]
        apply findP_agree
        intro p hp q hq
        rw [mem_rangeUp] at hp
        rw [mem_rangeDown] at hq
        exact h p q (by omega) (by omega) (by omega) (by omega)
      rw [hP, hE]
      by_cases hp : e.pt w.k w.l = 0
      · rw [if_pos hp, if_pos hp]
      · rw [if_neg hp, if_neg hp]
        cases hf : findP e m' W i j w.k w.l (entry m' W i j (w.k, w.l)) (e.pt w.k w.l)
            (rangeUp (w.k + 1) (i + 1)) with
        | none => rfl
        | some pq =>
          obtain ⟨p, q⟩ := pq
          obtain ⟨⟨s1, s2, s3, s4, _⟩, _⟩ := findP_firstStep hf
          simp only at s1 s2 s3 s4 ⊢
          apply ih
          intro p2 q2 h1 h2 h3 h4
          simp only at h1 h4
          exact h p2 q2 (by omega) h2 h3 (by omega)
    · rw [backtrackLoop_stop _ _ _ _ _ _ _ _ hc, backtrackLoop_stop _ _ _ _ _ _ _ _ hc]

theorem backtrack_agree (e : Env) (m m' : Matrix) (k l i j W : Int)
    (h : ∀ p q, k ≤ p → p ≤ i → j ≤ q → q ≤ l →
      m (j - 11) (W - i + p - 1) (q - j) = m' (j - 11) (W - i + p - 1) (q - j)) :
    backtrack_XS e m k l i j W = backtrack_XS e m' k l i j W := by
  unfold backtrack_XS
  simp only
  rw [backtrackLoop_agree e m m' W i j k _ _ h]

/-- For a combination visited by the readout, the result of `backtrack_XS` on the matrix
of scan position `i` does not depend on the matrix left by the previous position. -/
theorem backtrack_filled_agree (e : Env) (length W i j k l : Int) (hi : 11 ≤ i)
    (hn : e.n1 = length) (hr : inReadout e W i j k l) (c3 c3' : Matrix) :
    backtrack_XS e (filled e length W i c3) k l i j W =
      backtrack_XS e (filled e length W i c3') k l i j W := by
  obtain ⟨r1, r2, r3, r4, r5, r6, _, _⟩ := hr
  apply backtrack_agree
  intro p q h1 h2 h3 h4
  apply filled_agree e length W i hi hn
  unfold inBox
  refine ⟨by omega, by omega, by omega, by omega, by omega, by omega⟩

theorem filled_zero (e : Env) (length W i : Int) :
    filled e length W i (fun _ _ _ => 0) = filledBox e length W i := by
  unfold filled filledBox
  rw [initMatrix_eq]

theorem bestOf_eq (e : Env) (length : Int) (access_s1 : Int → Int → Int) (W i : Int) :
    bestOf e length access_s1 W i = readout e access_s1 W i (filledBox e length W i) := by
  unfold bestOf bestAt
  rw [filled_zero]

/-- The acceptance test of scan position `i` gives the same outcome on the matrix
`filledBox` as on the matrix the scan has at that point: a readout that selected nothing is
not backtracked (`penalty <= INF`) or its backtracking reads `c3[-11]`. -/
theorem accept_box (e : Env) (length : Int) (access_s1 : Int → Int → Int)
    (penalty W i : Int) (hi : 11 ≤ i) (hn : e.n1 = length) (c3 : Matrix) (s : Storage) :
    accept e access_s1 penalty W i (filled e length W i c3)
      (readout e access_s1 W i (filled e length W i c3)) s =
      scanPositionBox e length access_s1 penalty W i s := by
  unfold scanPositionBox
  rw [← filled_zero]
  have hb : readout e access_s1 W i (filled e length W i c3) =
      readout e access_s1 W i (filled e length W i (fun _ _ _ => 0)) :=
    readout_agree e access_s1 length W i hi hn _ _
      (fun a b c hb => filled_agree e length W i hi hn _ _ a b c hb)
  rw [hb]
  rcases readout_cases e access_s1 W i (filled e length W i (fun _ _ _ => 0)) with hr | hr
  · rw [hr]
    unfold accept
    by_cases hp : e.INF < penalty
    · simp only [hp, if_true]
      rw [backtrack_origin e _ i W (by omega), backtrack_origin e _ i W (by omega)]
    · simp only [hp, if_false]
  · unfold accept
    rw [backtrack_filled_agree e length W i _ _ _ hi hn hr.2 c3 (fun _ _ _ => 0)]

/-! ### The assignments of `make_ptypes` -/

theorem diagWrites_zero (S1 : Int → Int) (pair : Int → Int → Int) (nlp n j t nt ot : Int) :
    diagWrites S1 pair nlp n 0 j t nt ot = [] := rfl

theorem diagWrites_succ (S1 : Int → Int) (pair : Int → Int → Int) (nlp n : Int) (m : Nat)
    (j t nt ot : Int) :
    diagWrites S1 pair nlp n (m + 1) j t nt ot =
      if j ≤ n then
        ((m : Int) + 1, j,
          if nlp ≠ 0 ∧ ot = 0 ∧
              (if (m : Int) + 1 > 1 ∧ j < n then pair (S1 ((m : Int) + 1 - 1)) (S1 (j + 1))
                else nt) = 0 then 0
          else t) ::
          diagWrites S1 pair nlp n m (j + 1)
            (if (m : Int) + 1 > 1 ∧ j < n then pair (S1 ((m : Int) + 1 - 1)) (S1 (j + 1))
              else nt)
            (if (m : Int) + 1 > 1 ∧ j < n then pair (S1 ((m : Int) + 1 - 1)) (S1 (j + 1))
              else nt)
            (if nlp ≠ 0 ∧ ot = 0 ∧
                (if (m : Int) + 1 > 1 ∧ j < n then pair (S1 ((m : Int) + 1 - 1)) (S1 (j + 1))
                  else nt) = 0 then 0
              else t)
      else [] := rfl

/-- The cells assigned by one run of the inner loop lie on one anti-diagonal, inside
`1..n`. -/
theorem diagWrites_cells (S1 : Int → Int) (pair : Int → Int → Int) (nlp n : Int) :
    ∀ (m : Nat) (j t nt ot : Int) (w : Int × Int × Int),
      w ∈ diagWrites S1 pair nlp n m j t nt ot →
      1 ≤ w.1 ∧ w.1 ≤ (m : Int) ∧ w.2.1 ≤ n ∧ w.1 + w.2.1 = (m : Int) + j := by
  intro m
  induction m with
  | zero => intro j t nt ot w hw; rw [diagWrites_zero] at hw; simp at hw
  | succ m ih =>
    intro j t nt ot w hw
    rw [diagWrites_succ] at hw
    by_cases hj : j ≤ n
    · rw [if_pos hj] at hw
      rcases List.mem_cons.mp hw with rfl | hw
      · dsimp only
        push_cast
        omega
      · have := ih _ _ _ _ w hw
        push_cast
        omega
    · rw [if_neg hj] at hw
      simp at hw

/-- Every cell of the anti-diagonal between the start and the border is assigned. -/
theorem diagWrites_mem (S1 : Int → Int) (pair : Int → Int → Int) (nlp n : Int) :
    ∀ (m : Nat) (j t nt ot : Int) (i2 j2 : Int),
      1 ≤ i2 → i2 ≤ (m : Int) → j2 ≤ n → i2 + j2 = (m : Int) + j →
      ∃ v, (i2, j2, v) ∈ diagWrites S1 pair nlp n m j t nt ot := by
  intro m
  induction m with
  | zero => intro j t nt ot i2 j2 h1 h2; simp only [Nat.cast_zero] at h2; omega
  | succ m ih =>
    intro j t nt ot i2 j2 h1 h2 h3 h4
    simp only [Nat.cast_add, Nat.cast_one] at h2 h4
    rw [diagWrites_succ, if_pos (by omega)]
    by_cases hi : i2 = (m : Int) + 1
    · have hj2 : j2 = j := by omega
      subst hi hj2
      exact ⟨_, List.mem_cons_self _ _⟩
    · obtain ⟨v, hv⟩ := ih (j + 1) _ _ _ i2 j2 h1 (by omega) h3 (by omega)
      exact ⟨v, List.mem_cons_of_mem _ hv⟩

/-- The inner loop assigns its cells in the order of decreasing `i`. -/
theorem diagWrites_sorted (S1 : Int → Int) (pair : Int → Int → Int) (nlp n : Int) :
    ∀ (m : Nat) (j t nt ot : Int),
      (diagWrites S1 pair nlp n m j t nt ot).Pairwise (fun a b => b.1 < a.1) := by
  intro m
  induction m with
  | zero => intro j t nt ot; rw [diagWrites_zero]; exact List.Pairwise.nil
  | succ m ih =>
    intro j t nt ot
    rw [diagWrites_succ]
    by_cases hj : j ≤ n
    · rw [if_pos hj, List.pairwise_cons]
      refine ⟨?_, ih _ _ _ _⟩
      intro w hw
      have := diagWrites_cells S1 pair nlp n m _ _ _ _ w hw
      simp only
      omega
    · rw [if_neg hj]
      exact List.Pairwise.nil

/-- Without `noLonelyPairs` the inner loop stores the raw pair type of each cell. -/
theorem diagWrites_raw (S1 : Int → Int) (pair : Int → Int → Int) (n : Int) :
    ∀ (m : Nat) (j t nt ot : Int),
      (1 ≤ (m : Int) → j ≤ n → t = pair (S1 (m : Int)) (S1 j)) →
      ∀ w ∈ diagWrites S1 pair 0 n m j t nt ot, w.2.2 = pair (S1 w.1) (S1 w.2.1) := by
  intro m
  induction m with
  | zero => intro j t nt ot _ w hw; rw [diagWrites_zero] at hw; simp at hw
  | succ m ih =>
    intro j t nt ot ht w hw
    rw [diagWrites_succ] at hw
    by_cases hj : j ≤ n
    · rw [if_pos hj] at hw
      rcases List.mem_cons.mp hw with rfl | hw
      · simp only [ne_eq, not_true_eq_false, false_and, if_false]
        have := ht (by simp only [Nat.cast_add, Nat.cast_one]; omega) hj
        simp only [Nat.cast_add, Nat.cast_one] at this
        exact this
      · apply ih _ _ _ _ _ w hw
        intro hm hj1
        rw [if_pos ⟨by omega, by omega⟩]
        simp only [add_sub_cancel_right]
    · rw [if_neg hj] at hw
      simp at hw

theorem mem_ptypeWrites {S1 : Int → Int} {pair : Int → Int → Int} {TURN nlp : Int}
    {w : Int × Int × Int} :
    w ∈ ptypeWrites S1 pair TURN nlp ↔
      ∃ k l, 1 ≤ k ∧ k < S1 0 - TURN ∧ (l = 1 ∨ l = 2) ∧ k + TURN + l ≤ S1 0 ∧
        w ∈ diagWrites S1 pair nlp (S1 0) k.toNat (k + TURN + l)
          (pair (S1 k) (S1 (k + TURN + l))) 0 0 := by
  unfold ptypeWrites
  simp only [List.mem_flatMap, mem_rangeUp]
  constructor
  · rintro ⟨k, hk, l, hl, hw⟩
    by_cases hj : k + TURN + l > S1 0
    · rw [if_pos hj] at hw; simp at hw
    · rw [if_neg hj] at hw
      exact ⟨k, l, hk.1, hk.2, by omega, by omega, hw⟩
  · rintro ⟨k, l, h1, h2, h3, h4, hw⟩
    refine ⟨k, ⟨h1, h2⟩, l, by omega, ?_⟩
    rw [if_neg (by omega)]
    exact hw

/-- Every assignment of `make_ptypes` goes to a cell `(i, j)` with `1 <= i`, `j <= n` and
`j - i > TURN`. -/
theorem ptypeWrites_cells {S1 : Int → Int} {pair : Int → Int → Int} {TURN nlp : Int}
    {w : Int × Int × Int} (hw : w ∈ ptypeWrites S1 pair TURN nlp) :
    1 ≤ w.1 ∧ w.2.1 ≤ S1 0 ∧ w.2.1 - w.1 > TURN := by
  obtain ⟨k, l, h1, h2, h3, h4, hd⟩ := mem_ptypeWrites.mp hw
  have := diagWrites_cells S1 pair nlp (S1 0) _ _ _ _ _ w hd
  have hk : ((k.toNat : Nat) : Int) = k := Int.toNat_of_nonneg (by omega)
  omega

theorem foldl_write_untouched (indx : Int → Int) (x : Int) :
    ∀ (ws : List (Int × Int × Int)) (pt : Int → Int),
      (∀ w ∈ ws, x ≠ indx w.2.1 + w.1) →
      ws.foldl (fun pt w => fun x => if x = indx w.2.1 + w.1 then w.2.2 else pt x) pt x =
        pt x := by
  intro ws
  induction ws with
  | nil => intro pt _; rfl
  | cons w ws ih =>
    intro pt h
    simp only [List.foldl_cons]
    rw [ih _ (fun w2 hw2 => h w2 (List.mem_cons_of_mem _ hw2))]
    simp only [h w (List.mem_cons_self _ _), if_false]

theorem foldl_write_value (indx : Int → Int) (x v : Int) :
    ∀ (ws : List (Int × Int × Int)) (pt : Int → Int),
      (∀ w ∈ ws, x = indx w.2.1 + w.1 → w.2.2 = v) →
      (∃ w ∈ ws, x = indx w.2.1 + w.1) →
      ws.foldl (fun pt w => fun x => if x = indx w.2.1 + w.1 then w.2.2 else pt x) pt x =
        v := by
  intro ws
  induction ws with
  | nil => intro pt _ h; obtain ⟨w, hw, _⟩ := h; simp at hw
  | cons w ws ih =>
    intro pt h hex
    simp only [List.foldl_cons]
    by_cases hlater : ∃ w2 ∈ ws, x = indx w2.2.1 + w2.1
    · exact ih _ (fun w2 hw2 => h w2 (List.mem_cons_of_mem _ hw2)) hlater
    · rw [foldl_write_untouched indx x ws _
        (fun w2 hw2 hx => hlater ⟨w2, hw2, hx⟩)]
      obtain ⟨w3, hw3, hx3⟩ := hex
      rcases List.mem_cons.mp hw3 with rfl | hw3
      · simp only [hx3, if_true]
        exact h w3 (List.mem_cons_self _ _) hx3
      · exact absurd ⟨w3, hw3, hx3⟩ hlater

/-- An array slot that is the image of no cell `(i, j)` with `1 <= i` keeps its value. -/
theorem make_ptypes_untouched (S1 : Int → Int) (pair : Int → Int → Int) (TURN nlp : Int)
    (indx ptype : Int → Int) (x : Int) (h : ∀ i j, 1 ≤ i → indx j + i ≠ x) :
    make_ptypes S1 pair TURN nlp indx ptype x = ptype x := by
  unfold make_ptypes
  apply foldl_write_untouched
  intro w hw hx
  exact h w.1 w.2.1 (ptypeWrites_cells hw).1 hx.symm

/-! ### The layout `colWise` -/

theorem colWise_succ (j : Int) : colWise (j + 1) = colWise j + j := by
  unfold colWise
  have h : (j + 1) * (j + 1 - 1) = j * (j - 1) + j * 2 := by ring
  rw [h, Int.add_mul_ediv_right _ _ (by decide : (2 : Int) ≠ 0)]

theorem colWise_nonneg (j : Int) : 0 ≤ colWise j := by
  unfold colWise
  apply Int.ediv_nonneg _ (by decide)
  rcases le_or_lt j 0 with h | h
  · nlinarith
  · nlinarith

theorem colWise_mono : ∀ (d : Nat) (j : Int), 0 ≤ j → colWise j ≤ colWise (j + d) := by
  intro d
  induction d with
  | zero => intro j _; simp
  | succ d ih =>
    intro j hj
    have h1 := ih j hj
    have h2 := colWise_succ (j + d)
    simp only [Nat.cast_add, Nat.cast_one]
    rw [← add_assoc, h2]
    omega

/-- The layout `colWise` maps the cells `(i, j)` with `1 <= i <= j` to distinct slots. -/
theorem colWise_inj (i j i2 j2 : Int) (h1 : 1 ≤ i) (h2 : i ≤ j) (h3 : 1 ≤ i2) (h4 : i2 ≤ j2)
    (h : colWise j + i = colWise j2 + i2) : i = i2 ∧ j = j2 := by
  have key : ∀ a b x y : Int, 1 ≤ x → x ≤ a → 1 ≤ y → a < b →
      colWise a + x < colWise b + y := by
    intro a b x y hx hxa hy hab
    have hm := colWise_mono (b - (a + 1)).toNat (a + 1) (by omega)
    have hc : a + 1 + ((b - (a + 1)).toNat : Int) = b := by omega
    rw [hc, colWise_succ] at hm
    omega
  rcases lt_trichotomy j j2 with hlt | heq | hgt
  · have := key j j2 i i2 h1 h2 h3 hlt
    omega
  · subst heq
    exact ⟨by omega, rfl⟩
  · have := key j2 j i2 i h3 h4 h1 hgt
    omega

/-! ### The scan on the matrices `filledBox` -/

theorem scanPosition_box (e : Env) (length : Int) (access_s1 : Int → Int → Int)
    (penalty W i : Int) (hi : 11 ≤ i) (hn : e.n1 = length) (s : Scan) :
    scanPosition e length access_s1 penalty W i s =
      (scanPositionBox e length access_s1 penalty W i s.store).map
        (Scan.mk (filled e length W i s.c3)) := by
  unfold scanPosition
  dsimp only
  rw [accept_box e length access_s1 penalty W i hi hn s.c3 s.store]
  cases scanPositionBox e length access_s1 penalty W i s.store <;> rfl

theorem scanAll_box (e : Env) (length : Int) (access_s1 : Int → Int → Int)
    (penalty W : Int) (hn : e.n1 = length) :
    ∀ (is : List Int) (s : Scan), (∀ i ∈ is, 11 ≤ i) →
      (scanAll e length access_s1 penalty W is s).map (fun s => s.store) =
        scanAllBox e length access_s1 penalty W is s.store := by
  intro is
  induction is with
  | nil => intro s _; rfl
  | cons i is ih =>
    intro s his
    have hsp := scanPosition_box e length access_s1 penalty W i
      (his i (List.mem_cons_self _ _)) hn s
    rw [scanAll, scanAllBox, hsp]
    cases scanPositionBox e length access_s1 penalty W i s.store with
    | fuel => rfl
    | undef => rfl
    | fail msg => rfl
    | ok st =>
      exact ih (Scan.mk (filled e length W i s.c3) st)
        (fun i2 hi2 => his i2 (List.mem_cons_of_mem _ hi2))

/-- The search computed on the matrices `filledBox` is the search, when the global `n1` is
the length of the sequence. -/
theorem duplexfold_eq_box (e : Env) (length : Int) (access_s1 : Int → Int → Int)
    (penalty W : Int) (hn : e.n1 = length) :
    duplexfold_XS e length access_s1 penalty W =
      duplexfoldBox e length access_s1 penalty W := by
  have h : (scanAll e length access_s1 penalty W (scanPositions length) scanStart).map
      (fun s => s.store) =
      scanAllBox e length access_s1 penalty W (scanPositions length) (Storage.mk [] 64 0) :=
    scanAll_box e length access_s1 penalty W hn (scanPositions length) scanStart
      (fun i hi => (mem_scanPositions.mp hi).1)
  unfold duplexfold_XS duplexfoldBox
  rw [← h]
  cases scanAll e length access_s1 penalty W (scanPositions length) scanStart <;> rfl

/-- Every returned entry belongs to a scan position `i` and a combination `(j, k, l)`
visited by the readout of that position. -/
theorem hits_selected (e : Env) (length : Int) (access_s1 : Int → Int → Int)
    (penalty W : Int) (hits : List vrna_pkplex_t) (hn : e.n1 = length)
    (h : duplexfold_XS e length access_s1 penalty W = Outcome.ok hits) :
    ∀ hit ∈ hits, ∃ i j k l, 11 ≤ i ∧ i ≤ length - 10 ∧ inReadout e W i j k l ∧
      hit.tb = k - 10 ∧ hit.te = i - 10 ∧ hit.qb = j - 10 ∧ hit.qe = l - 10 := by
  intro hit hh
  obtain ⟨i, hi, c3, t, h1, _, hbt, rfl⟩ :=
    (duplexfold_trace e length access_s1 penalty W hits hn h).2 hit hh
  obtain ⟨hi1, hi2⟩ := mem_scanPositions.mp hi
  have hc := readout_cases e access_s1 W i (filled e length W i (fun _ _ _ => 0))
  have hbo : bestOf e length access_s1 W i =
      readout e access_s1 W i (filled e length W i (fun _ _ _ => 0)) := rfl
  rw [← hbo] at hc
  rcases hc with hc | hc
  · exfalso
    rw [hc] at hbt
    simp only at hbt
    rw [backtrack_origin e _ i W (by omega)] at hbt
    simp at hbt
  · exact ⟨i, _, _, _, hi1, hi2, hc.2, rfl, rfl, rfl, rfl⟩

/-- In the environment set up by `PKLduplexfold_XS` the slot `ptype[indx[0]]` is 0 when the
layout `indx` maps no cell `(i, j)` with `1 <= i` to it. -/
theorem envOf_pt_zero (P : Env) (pair : Int → Int → Int) (TURN noLonelyPairs strlen : Int)
    (S1 SS1 indx : Int → Int) (hindx : ∀ i j, 1 ≤ i → indx j + i ≠ indx 0) :
    (envOf P pair TURN noLonelyPairs strlen S1 SS1 indx).pt 0 0 = 0 := by
  unfold Env.pt envOf
  simp only [add_zero]
  exact make_ptypes_untouched S1 pair TURN noLonelyPairs indx (fun _ => 0) (indx 0) hindx

theorem colWise_slot_zero : ∀ i j : Int, 1 ≤ i → colWise j + i ≠ colWise 0 := by
  intro i j hi
  have := colWise_nonneg j
  have h0 : colWise 0 = 0 := by decide
  omega

set_option maxRecDepth 1000000 in
set_option maxHeartbeats 4000000 in
theorem duplexfoldBox_seqNear :
    duplexfoldBox (envOf envNear pairStd 3 0 27 seqNear (fun x => x) colWise) 27
      (fun _ _ => 0) 100 3 = Outcome.ok [hitNear] := by
  rfl

/-- The search on the sequence `seqNear` with window 3 and threshold 100 returns the one
entry `hitNear`. -/
theorem PKLduplexfold_seqNear :
    PKLduplexfold_XS envNear pairStd 3 0 27 seqNear (fun x => x) colWise (fun _ _ => 0)
      100 3 0 = Outcome.ok [hitNear] := by
  have h := duplexfold_eq_box (envOf envNear pairStd 3 0 27 seqNear (fun x => x) colWise) 27
    (fun _ _ => 0) 100 3 rfl
  rw [duplexfoldBox_seqNear] at h
  exact h

set_option maxRecDepth 1000000 in
set_option maxHeartbeats 4000000 in
theorem duplexfoldBox_seqBig :
    duplexfoldBox (envOf envNear pairStd 3 0 27 seqNear (fun x => x) colWise) 27
      accessBig 100 3 = Outcome.ok [hitBig] := by
  rfl

/-- The search on the sequence `seqNear` with window 3, threshold 100 and every
accessibility penalty equal to `2^30` returns the one entry `hitBig`. -/
theorem PKLduplexfold_seqBig :
    PKLduplexfold_XS envNear pairStd 3 0 27 seqNear (fun x => x) colWise accessBig
      100 3 0 = Outcome.ok [hitBig] := by
  have h := duplexfold_eq_box (envOf envNear pairStd 3 0 27 seqNear (fun x => x) colWise) 27
    accessBig 100 3 rfl
  rw [duplexfoldBox_seqBig] at h
  exact h

/-- C11 (amended): every entry returned by `PKLduplexfold_XS` belongs to a scan position
`i` with `te = i - 10`; in hundredths of kcal/mol its `ddG` is the best total `Emin` of that
position, `dG1 = access[te-tb+1][te+10]`, `dG2 = access[qe-qb+1][qe+10]`, and `energy` is
the `int` value of `ddG - dG1 - dG2`: the value of `[-2^31, 2^31)` congruent to the
difference modulo `2^32`, which is `ddG - dG1 - dG2` exactly whenever that difference lies in
the range. -/
theorem candidate_energy (P : Env) (pair : Int → Int → Int) (TURN noLonelyPairs strlen : Int)
    (S1 SS1 indx : Int → Int) (access_s1 : Int → Int → Int) (penalty W delta : Int)
    (hits : List vrna_pkplex_t)
    (h : PKLduplexfold_XS P pair TURN noLonelyPairs strlen S1 SS1 indx access_s1 penalty W
      delta = Outcome.ok hits) :
    ∀ hit ∈ hits,
      (∃ i ∈ scanPositions strlen, hit.te = i - 10 ∧
        hit.ddG = (bestOf (envOf P pair TURN noLonelyPairs strlen S1 SS1 indx) strlen
          access_s1 W i).Emin) ∧
      hit.dG1 = access_s1 (hit.te - hit.tb + 1) (hit.te + 10) ∧
      hit.dG2 = access_s1 (hit.qe - hit.qb + 1) (hit.qe + 10) ∧
      hit.energy = wrapInt (hit.ddG - hit.dG1 - hit.dG2) ∧
      -2147483648 ≤ hit.energy ∧ hit.energy < 2147483648 ∧
      (hit.energy - (hit.ddG - hit.dG1 - hit.dG2)) % 4294967296 = 0 ∧
      (-2147483648 ≤ hit.ddG - hit.dG1 - hit.dG2 → hit.ddG - hit.dG1 - hit.dG2 < 2147483648 →
        hit.energy = hit.ddG - hit.dG1 - hit.dG2) := by
  intro hit hh
  obtain ⟨i, hi, c3, t, _, _, _, rfl⟩ :=
    (duplexfold_trace (envOf P pair TURN noLonelyPairs strlen S1 SS1 indx) strlen access_s1
      penalty W hits rfl h).2 hit hh
  have hen : (hitOf access_s1 i (bestOf (envOf P pair TURN noLonelyPairs strlen S1 SS1 indx)
      strlen access_s1 W i) t.struc).energy =
      wrapInt ((hitOf access_s1 i (bestOf (envOf P pair TURN noLonelyPairs strlen S1 SS1 indx)
        strlen access_s1 W i) t.struc).ddG
        - (hitOf access_s1 i (bestOf (envOf P pair TURN noLonelyPairs strlen S1 SS1 indx)
          strlen access_s1 W i) t.struc).dG1
        - (hitOf access_s1 i (bestOf (envOf P pair TURN noLonelyPairs strlen S1 SS1 indx)
          strlen access_s1 W i) t.struc).dG2) :=
    wrapInt_sub_left _ _
  refine ⟨⟨i, hi, rfl, rfl⟩, ?_, ?_, hen, ?_, ?_, ?_, ?_⟩
  · unfold hitOf Best.dGx
    simp only
    congr 1 <;> omega
  · unfold hitOf Best.dGy
    simp only
    congr 1 <;> omega
  · rw [hen]
    exact (wrapInt_char _).1
  · rw [hen]
    exact (wrapInt_char _).2.1
  · rw [hen]
    exact (wrapInt_char _).2.2.1
  · intro h1 h2
    rw [hen]
    exact wrapInt_of_range _ h1 h2

theorem candidate_energy_witness :
    PKLduplexfold_XS envNear pairStd 3 0 27 seqNear (fun x => x) colWise (fun _ _ => 0)
      100 3 0 = Outcome.ok [hitNear] ∧
    ∀ hit ∈ [hitNear],
      (∃ i ∈ scanPositions 27, hit.te = i - 10 ∧
        hit.ddG = (bestOf (envOf envNear pairStd 3 0 27 seqNear (fun x => x) colWise) 27
          (fun _ _ => 0) 3 i).Emin) ∧
      hit.dG1 = (fun _ _ => (0 : Int)) (hit.te - hit.tb + 1) (hit.te + 10) ∧
      hit.dG2 = (fun _ _ => (0 : Int)) (hit.qe - hit.qb + 1) (hit.qe + 10) ∧
      hit.energy = wrapInt (hit.ddG - hit.dG1 - hit.dG2) ∧
      -2147483648 ≤ hit.energy ∧ hit.energy < 2147483648 ∧
      (hit.energy - (hit.ddG - hit.dG1 - hit.dG2)) % 4294967296 = 0 ∧
      (-2147483648 ≤ hit.ddG - hit.dG1 - hit.dG2 → hit.ddG - hit.dG1 - hit.dG2 < 2147483648 →
        hit.energy = hit.ddG - hit.dG1 - hit.dG2) :=
  ⟨PKLduplexfold_seqNear,
    candidate_energy envNear pairStd 3 0 27 seqNear (fun x => x) colWise (fun _ _ => 0)
      100 3 0 [hitNear] PKLduplexfold_seqNear⟩

/-- C11 (counterexample): on the sequence `seqNear` with window 3, threshold 100 and every
accessibility penalty equal to `2^30`, the search returns one entry with
`ddG = 12 - 2^31`, `dG1 = dG2 = 2^30` and `energy = 12`, while
`ddG - dG1 - dG2 = 12 - 2^32`. -/
theorem candidate_energy_counterexample :
    PKLduplexfold_XS envNear pairStd 3 0 27 seqNear (fun x => x) colWise accessBig
      100 3 0 = Outcome.ok [hitBig] ∧
    hitBig.ddG = -2147483636 ∧ hitBig.dG1 = 1073741824 ∧ hitBig.dG2 = 1073741824 ∧
    hitBig.energy = 12 ∧
    hitBig.ddG - hitBig.dG1 - hitBig.dG2 = -4294967284 ∧
    hitBig.energy ≠ hitBig.ddG - hitBig.dG1 - hitBig.dG2 :=
  ⟨PKLduplexfold_seqBig, rfl, rfl, rfl, rfl, by decide, by decide⟩

/-- C12: for every sequence length `n1`, accessibility table, threshold and window, every
entry returned by `PKLduplexfold_XS` has `0 <= tb < te`, `te + 4 <= qb`, `qb < qe` and
`qe <= n1 - 20`; in particular `te < qb`. The layout `indx` maps no cell `(i, j)` with
`1 <= i` to the slot `indx[0]`, as the triangular layout of `vrna_idx_col_wise` does. -/
theorem candidate_regions (P : Env) (pair : Int → Int → Int)
    (TURN noLonelyPairs strlen : Int) (S1 SS1 indx : Int → Int)
    (access_s1 : Int → Int → Int) (penalty W delta : Int) (hits : List vrna_pkplex_t)
    (hindx : ∀ i j, 1 ≤ i → indx j + i ≠ indx 0)
    (h : PKLduplexfold_XS P pair TURN noLonelyPairs strlen S1 SS1 indx access_s1 penalty W
      delta = Outcome.ok hits) :
    ∀ hit ∈ hits, 0 ≤ hit.tb ∧ hit.tb < hit.te ∧ hit.te + 4 ≤ hit.qb ∧ hit.qb < hit.qe ∧
      hit.qe ≤ strlen - 20 ∧ hit.te < hit.qb := by
  intro hit hh
  obtain ⟨i, j, k, l, _, _, hr, h1, h2, h3, h4⟩ :=
    hits_selected (envOf P pair TURN noLonelyPairs strlen S1 SS1 indx) strlen access_s1
      penalty W hits rfl h hit hh
  obtain ⟨r1, r2, r3, r4, r5, r6, _, _⟩ := hr
  have hn : (envOf P pair TURN noLonelyPairs strlen S1 SS1 indx).n1 = strlen := rfl
  rw [hn] at r2 r6
  omega

theorem candidate_regions_witness :
    (∀ i j : Int, 1 ≤ i → colWise j + i ≠ colWise 0) ∧
    PKLduplexfold_XS envNear pairStd 3 0 27 seqNear (fun x => x) colWise (fun _ _ => 0)
      100 3 0 = Outcome.ok [hitNear] ∧
    ∀ hit ∈ [hitNear], 0 ≤ hit.tb ∧ hit.tb < hit.te ∧ hit.te + 4 ≤ hit.qb ∧
      hit.qb < hit.qe ∧ hit.qe ≤ 27 - 20 ∧ hit.te < hit.qb :=
  ⟨colWise_slot_zero, PKLduplexfold_seqNear,
    candidate_regions envNear pairStd 3 0 27 seqNear (fun x => x) colWise (fun _ _ => 0)
      100 3 0 [hitNear] colWise_slot_zero PKLduplexfold_seqNear⟩

/-- C13: every entry returned by `PKLduplexfold_XS` with window `W` has
`te - tb <= W - 1` and `qe - qb <= W - 1`. The layout `indx` maps no cell `(i, j)` with
`1 <= i` to the slot `indx[0]`, as the triangular layout of `vrna_idx_col_wise` does. -/
theorem candidate_spans (P : Env) (pair : Int → Int → Int)
    (TURN noLonelyPairs strlen : Int) (S1 SS1 indx : Int → Int)
    (access_s1 : Int → Int → Int) (penalty W delta : Int) (hits : List vrna_pkplex_t)
    (hindx : ∀ i j, 1 ≤ i → indx j + i ≠ indx 0)
    (h : PKLduplexfold_XS P pair TURN noLonelyPairs strlen S1 SS1 indx access_s1 penalty W
      delta = Outcome.ok hits) :
    ∀ hit ∈ hits, hit.te - hit.tb ≤ W - 1 ∧ hit.qe - hit.qb ≤ W - 1 := by
  intro hit hh
  obtain ⟨i, j, k, l, _, _, hr, h1, h2, h3, h4⟩ :=
    hits_selected (envOf P pair TURN noLonelyPairs strlen S1 SS1 indx) strlen access_s1
      penalty W hits rfl h hit hh
  obtain ⟨r1, r2, r3, r4, r5, r6, _, _⟩ := hr
  omega

theorem candidate_spans_witness :
    (∀ i j : Int, 1 ≤ i → colWise j + i ≠ colWise 0) ∧
    PKLduplexfold_XS envNear pairStd 3 0 27 seqNear (fun x => x) colWise (fun _ _ => 0)
      100 3 0 = Outcome.ok [hitNear] ∧
    ∀ hit ∈ [hitNear], hit.te - hit.tb ≤ 3 - 1 ∧ hit.qe - hit.qb ≤ 3 - 1 :=
  ⟨colWise_slot_zero, PKLduplexfold_seqNear,
    candidate_spans envNear pairStd 3 0 27 seqNear (fun x => x) colWise (fun _ _ => 0)
      100 3 0 [hitNear] colWise_slot_zero PKLduplexfold_seqNear⟩

/-! ### The threshold and the result list -/

theorem storage_ite (c : Prop) [Decidable c] (s : Storage) (hit : vrna_pkplex_t) :
    (if c then append s hit else s).storage = if c then s.storage ++ [hit] else s.storage := by
  by_cases h : c
  · rw [if_pos h, if_pos h, append_storage]
  · rw [if_neg h, if_neg h]

/-- Two searches that differ only in the threshold, `p <= p2`, run in step: when the one
with `p2` completes, so does the one with `p`, on the same matrices and with a result list
that is a sublist of the other. -/
theorem scanAll_mono (e : Env) (length : Int) (access_s1 : Int → Int → Int) (W p p2 : Int)
    (hp : p ≤ p2) :
    ∀ (is : List Int) (s s2 t2 : Scan), s.c3 = s2.c3 →
      s.store.storage.Sublist s2.store.storage →
      scanAll e length access_s1 p2 W is s2 = Outcome.ok t2 →
      ∃ t, scanAll e length access_s1 p W is s = Outcome.ok t ∧ t.c3 = t2.c3 ∧
        t.store.storage.Sublist t2.store.storage := by
  intro is
  induction is with
  | nil =>
    intro s s2 t2 hc hsub h
    rw [scanAll_nil] at h
    simp only [Outcome.ok.injEq] at h
    subst h
    exact ⟨s, scanAll_nil _ _ _ _ _ _, hc, hsub⟩
  | cons i is ih =>
    intro s s2 t2 hc hsub h
    obtain ⟨c, st⟩ := s
    obtain ⟨c2, st2⟩ := s2
    simp only at hc hsub
    subst hc
    by_cases h2 : (bestAt e length access_s1 W i c).Emin < p2
    · cases hbt : backtrack_XS e (filled e length W i c)
          (bestAt e length access_s1 W i c).k_min (bestAt e length access_s1 W i c).l_min i
          (bestAt e length access_s1 W i c).j_min W with
      | fuel => exact absurd hbt (backtrack_no_fuel _ _ _ _ _ _ _)
      | undef =>
        rw [scanAll_cons_undef _ _ _ _ _ _ _ _
          (scanPosition_undef e length access_s1 p2 W i (Scan.mk c st2) h2 hbt)] at h
        simp at h
      | fail msg =>
        rw [scanAll_cons_fail _ _ _ _ _ _ _ _ _
          (scanPosition_fail e length access_s1 p2 W i (Scan.mk c st2) msg h2 hbt)] at h
        simp at h
      | ok t =>
        rw [scanAll_cons_ok _ _ _ _ _ _ _ _ _
          (scanPosition_back e length access_s1 p2 W i (Scan.mk c st2) t h2 hbt)] at h
        by_cases h1 : (bestAt e length access_s1 W i c).Emin < p
        · rw [scanAll_cons_ok _ _ _ _ _ _ _ _ _
            (scanPosition_back e length access_s1 p W i (Scan.mk c st) t h1 hbt)]
          refine ih _ _ t2 (by rfl) ?_ h
          simp only [storage_ite]
          by_cases hn1 : (bestAt e length access_s1 W i c).net access_s1 i < p
          · rw [if_pos hn1, if_pos (by omega)]
            exact List.Sublist.append hsub (List.Sublist.refl _)
          · rw [if_neg hn1]
            split
            · exact hsub.trans (List.sublist_append_left _ _)
            · exact hsub
        · rw [scanAll_cons_ok _ _ _ _ _ _ _ _ _
            (scanPosition_skip e length access_s1 p W i (Scan.mk c st) h1)]
          refine ih _ _ t2 (by rfl) ?_ h
          simp only [storage_ite]
          split
          · exact hsub.trans (List.sublist_append_left _ _)
          · exact hsub
    · rw [scanAll_cons_ok _ _ _ _ _ _ _ _ _
        (scanPosition_skip e length access_s1 p2 W i (Scan.mk c st2) h2)] at h
      have h1 : ¬ (bestAt e length access_s1 W i c).Emin < p := by omega
      rw [scanAll_cons_ok _ _ _ _ _ _ _ _ _
        (scanPosition_skip e length access_s1 p W i (Scan.mk c st) h1)]
      exact ih _ _ t2 (by rfl) hsub h

theorem duplexfold_of_scanAll (e : Env) (length : Int) (access_s1 : Int → Int → Int)
    (penalty W : Int) (s : Scan)
    (h : scanAll e length access_s1 penalty W (scanPositions length) scanStart =
      Outcome.ok s) :
    duplexfold_XS e length access_s1 penalty W = Outcome.ok s.store.storage := by
  unfold duplexfold_XS
  rw [h]

set_option maxRecDepth 1000000 in
set_option maxHeartbeats 4000000 in
theorem duplexfoldBox_near :
    duplexfoldBox envNear 27 (fun _ _ => 0) 100 3 = Outcome.ok [hitNear] := by
  rfl

/-- The search on `envNear` with window 3 and threshold 100 returns the one entry
`hitNear`. -/
theorem duplexfold_near :
    duplexfold_XS envNear 27 (fun _ _ => 0) 100 3 = Outcome.ok [hitNear] := by
  rw [duplexfold_eq_box envNear 27 (fun _ _ => 0) 100 3 rfl]
  exact duplexfoldBox_near

/-- C14: for a fixed sequence, accessibility table and window and two thresholds
`p <= p2`, when the search with `p2` completes without a failure of the backtracking, the
search with `p` completes too, and its result list is a sublist of the result list for
`p2`: every entry it returns is returned for `p2`, unchanged and in the same relative
order. -/
theorem penalty_monotone (e : Env) (length : Int) (access_s1 : Int → Int → Int)
    (W p p2 : Int) (hits2 : List vrna_pkplex_t) (hp : p ≤ p2)
    (h : duplexfold_XS e length access_s1 p2 W = Outcome.ok hits2) :
    ∃ hits, duplexfold_XS e length access_s1 p W = Outcome.ok hits ∧
      hits.Sublist hits2 := by
  obtain ⟨s2, hs2, rfl⟩ := duplexfold_ok e length access_s1 p2 W hits2 h
  obtain ⟨t, ht, _, hsub⟩ := scanAll_mono e length access_s1 W p p2 hp (scanPositions length)
    scanStart scanStart s2 rfl (List.Sublist.refl _) hs2
  exact ⟨t.store.storage, duplexfold_of_scanAll e length access_s1 p W t ht, hsub⟩

theorem penalty_monotone_witness :
    (50 : Int) ≤ 100 ∧
    duplexfold_XS envNear 27 (fun _ _ => 0) 100 3 = Outcome.ok [hitNear] ∧
    ∃ hits, duplexfold_XS envNear 27 (fun _ _ => 0) 50 3 = Outcome.ok hits ∧
      hits.Sublist [hitNear] :=
  ⟨by decide, duplexfold_near,
    penalty_monotone envNear 27 (fun _ _ => 0) 3 50 100 [hitNear] (by decide)
      duplexfold_near⟩

/-! ### Searches in which no scan position is accepted -/

theorem scanAll_skip_all (e : Env) (length : Int) (access_s1 : Int → Int → Int)
    (penalty W : Int) :
    ∀ (is : List Int) (s : Scan),
      (∀ i ∈ is, ∀ c3, ¬ (bestAt e length access_s1 W i c3).Emin < penalty) →
      ∃ c3, scanAll e length access_s1 penalty W is s = Outcome.ok (Scan.mk c3 s.store) := by
  intro is
  induction is with
  | nil => intro s _; exact ⟨s.c3, rfl⟩
  | cons i is ih =>
    intro s h
    rw [scanAll_cons_ok _ _ _ _ _ _ _ _ _
      (scanPosition_skip e length access_s1 penalty W i s (h i (List.mem_cons_self _ _) s.c3))]
    exact ih _ (fun i2 hi2 => h i2 (List.mem_cons_of_mem _ hi2))

/-- A readout that visits no combination returns the initial values. -/
theorem readout_none (e : Env) (access_s1 : Int → Int → Int) (W i : Int) (c3 : Matrix)
    (h : ∀ j k l, ¬ inReadout e W i j k l) :
    readout e access_s1 W i c3 = Best.mk e.INF 0 0 0 := by
  rw [readout_eq_foldl]
  have hnil : readoutCands e W i = [] := by
    apply List.eq_nil_iff_forall_not_mem.mpr
    intro c hc
    exact h _ _ _ (mem_readoutCands.mp hc)
  rw [hnil]
  rfl

/-- C16: when the pair type of every position pair is 0, for every accessibility table,
window and threshold `penalty <= INF`, `duplexfold_XS` returns the empty list, and at every
scan position the test `Emin < penalty` that guards the call of `backtrack_XS` fails. -/
theorem no_pairs_empty (e : Env) (length : Int) (access_s1 : Int → Int → Int)
    (penalty W : Int) (hp : ∀ i j, e.pt i j = 0) (hpen : penalty ≤ e.INF) :
    duplexfold_XS e length access_s1 penalty W = Outcome.ok [] ∧
    ∀ i c3, ¬ (bestAt e length access_s1 W i c3).Emin < penalty := by
  have hskip : ∀ i c3, ¬ (bestAt e length access_s1 W i c3).Emin < penalty := by
    intro i c3
    unfold bestAt
    rw [readout_none e access_s1 W i _ (fun j k l hr => hr.2.2.2.2.2.2.1 (hp i j))]
    simp only
    omega
  refine ⟨?_, hskip⟩
  obtain ⟨c3, hc⟩ := scanAll_skip_all e length access_s1 penalty W (scanPositions length)
    scanStart (fun i _ c3 => hskip i c3)
  rw [duplexfold_of_scanAll e length access_s1 penalty W _ hc]
  rfl

theorem no_pairs_empty_witness :
    (∀ i j, envNone.pt i j = 0) ∧ (100 : Int) ≤ envNone.INF ∧
    duplexfold_XS envNone 38 (fun _ _ => 0) 100 13 = Outcome.ok [] ∧
    ∀ i c3, ¬ (bestAt envNone 38 (fun _ _ => 0) 13 i c3).Emin < 100 :=
  ⟨fun _ _ => rfl, by decide,
    no_pairs_empty envNone 38 (fun _ _ => 0) 100 13 (fun _ _ => rfl) (by decide)⟩

/-- C17: for a sequence of length `n1 <= 25`, every pair-type table, accessibility table
and window and every threshold `penalty <= INF`, `duplexfold_XS` returns the empty list
without failure, no scan position passing the test `Emin < penalty`; for `n1 <= 20` there
is no scan position at all. -/
theorem short_sequence_empty (e : Env) (length : Int) (access_s1 : Int → Int → Int)
    (penalty W : Int) (hn : e.n1 = length) (hlen : length ≤ 25) (hpen : penalty ≤ e.INF) :
    duplexfold_XS e length access_s1 penalty W = Outcome.ok [] ∧
    (∀ i ∈ scanPositions length, ∀ c3,
      ¬ (bestAt e length access_s1 W i c3).Emin < penalty) ∧
    (length ≤ 20 → scanPositions length = []) := by
  have hskip : ∀ i ∈ scanPositions length, ∀ c3,
      ¬ (bestAt e length access_s1 W i c3).Emin < penalty := by
    intro i hi c3
    have hi11 := (mem_scanPositions.mp hi).1
    unfold bestAt
    rw [readout_none e access_s1 W i _ (fun j k l hr => by
      obtain ⟨r1, r2, _⟩ := hr
      omega)]
    simp only
    omega
  refine ⟨?_, hskip, ?_⟩
  · obtain ⟨c3, hc⟩ := scanAll_skip_all e length access_s1 penalty W (scanPositions length)
      scanStart hskip
    rw [duplexfold_of_scanAll e length access_s1 penalty W _ hc]
    rfl
  · intro h20
    apply List.eq_nil_iff_forall_not_mem.mpr
    intro i hi
    have := mem_scanPositions.mp hi
    omega

theorem short_sequence_empty_witness :
    envShort.n1 = 25 ∧ (25 : Int) ≤ 25 ∧ (100 : Int) ≤ envShort.INF ∧
    duplexfold_XS envShort 25 (fun _ _ => 0) 100 3 = Outcome.ok [] ∧
    (∀ i ∈ scanPositions 25, ∀ c3,
      ¬ (bestAt envShort 25 (fun _ _ => 0) 3 i c3).Emin < 100) ∧
    ((25 : Int) ≤ 20 → scanPositions 25 = []) :=
  ⟨rfl, by decide, by decide,
    short_sequence_empty envShort 25 (fun _ _ => 0) 100 3 rfl (by decide) (by decide)⟩

/-! ### Entries of the filled matrix that no chain reaches -/

/-- Entries of a row `k < i` never exceed `INF`. -/
theorem filled_row_le_INF (e : Env) (length W i : Int) (c3 : Matrix) (hi : 11 ≤ i)
    (hn : e.n1 = length) (j k l : Int) (hj1 : i + 4 ≤ j) (hj2 : j ≤ e.n1 - 11)
    (hk1 : max 9 (i - W) < k) (hk2 : k < i) (hl1 : j ≤ l) (hl2 : l < j + W) :
    entry (filled e length W i c3) W i j (k, l) ≤ e.INF := by
  unfold entry filled fill
  simp only
  obtain ⟨_, r2, _, _⟩ := fill_rows e W i (rangeDown (i - 1) (max 9 (i - W)))
    (baseCase e W i (initMatrix e length W c3)) (pairwise_rangeDown _ _)
  have h := r2 (j - 11) (W - i + k - 1) (l - j)
  rw [baseCase_apply, if_neg (fun hh => by omega), if_pos (by omega)] at h
  exact h

/-- An entry inside the allocated box that the base case and the fill step never assign
holds `INF`: the inner pair `(i, j)` is out of range or has pair type 0, or the row `k` is
outside the window. -/
theorem filled_never (e : Env) (length W i : Int) (c3 : Matrix) (hi : 11 ≤ i)
    (hn : e.n1 = length) (j k l : Int)
    (hbox : inBox length W (j - 11) (W - i + k - 1) (l - j))
    (hnot : ¬ (i + 4 ≤ j ∧ j ≤ e.n1 - 11 ∧ e.pt i j ≠ 0 ∧ max 9 (i - W) < k)) :
    entry (filled e length W i c3) W i j (k, l) = e.INF := by
  obtain ⟨b1, b2, b3, b4, b5, b6⟩ := hbox
  unfold entry filled fill
  simp only
  obtain ⟨r1, _, _, r4⟩ := fill_rows e W i (rangeDown (i - 1) (max 9 (i - W)))
    (baseCase e W i (initMatrix e length W c3)) (pairwise_rangeDown _ _)
  have hj : j - 11 + 11 = j := by ring
  have hbase : baseCase e W i (initMatrix e length W c3) (j - 11) (W - i + k - 1) (l - j) =
      e.INF := by
    rw [baseCase_apply, hj, if_neg, if_pos ⟨b1, b2, b3, b4, b5, b6⟩]
    rintro ⟨⟨h1, h2⟩, h3, h4, _⟩
    exact hnot ⟨h1, h2, h3, by omega⟩
  by_cases hk : k ∈ rangeDown (i - 1) (max 9 (i - W))
  · rcases r4 k hk (j - 11) (l - j) with h | ⟨o, ho, t1, _, _, _⟩
    · rw [h, hbase]
    · exfalso
      obtain ⟨l2, p, q, j2, _, g2, _, _, _, _, g7, _, _, g10, _, g12, g13, rfl⟩ :=
        mem_opsL.mp ho
      simp only [relaxOf] at t1
      have ej : j2 = j := by omega
      subst ej
      rw [mem_rangeDown] at hk
      exact hnot ⟨g10, by omega, g13, hk.1⟩
  · rw [r1 _ _ _ (fun k2 hk2 hb => hk (by
      have : k2 = k := by omega
      rw [← this]; exact hk2)), hbase]

/-- Entries of the readable part of the matrix: the energy of a chain, or a value between
`INF - (i - k) B` and `INF`, where `-B` bounds the interior-loop energies from below. -/
theorem filled_span (e : Env) (length W i B : Int) (c3 : Matrix) (hi : 11 ≤ i)
    (hn : e.n1 = length) (hB : 0 ≤ B)
    (hlow : ∀ n1 n2 t t2 a b c d, -B ≤ e.E_IntLoop n1 n2 t t2 a b c d)
    (j : Int) (hj1 : i + 4 ≤ j) (hj2 : j ≤ e.n1 - 11) (hp : e.pt i j ≠ 0) :
    ∀ (n : Nat) (k l : Int), i - k = (n : Int) → max 9 (i - W) < k → j ≤ l → l < j + W →
      (∃ ps, isChain e k l i j ps ∧
        entry (filled e length W i c3) W i j (k, l) = chainEnergy e i j ps) ∨
      (e.INF - (i - k) * B ≤ entry (filled e length W i c3) W i j (k, l) ∧
        entry (filled e length W i c3) W i j (k, l) ≤ e.INF) := by
  intro n
  induction n using Nat.strong_induction_on with
  | _ n ih =>
    intro k l hnk hk hl1 hl2
    by_cases hki : k = i
    · subst hki
      rw [filled_inner e length W k c3 hi hn j l hj1 hj2 hp hl1 hl2]
      by_cases hlj : l = j
      · subst hlj
        left
        refine ⟨[(k, l)], ⟨rfl, rfl, List.chain'_singleton _, ?_⟩, ?_⟩
        · intro a ha
          simp only [List.mem_singleton] at ha
          subst ha; exact hp
        · simp [chainEnergy, loopSum]
      · right
        rw [if_neg hlj]
        simp
    · have hk2 : k < i := by omega
      have hle := filled_row_le_INF e length W i c3 hi hn j k l hj1 hj2 hk hk2 hl1 hl2
      rcases filled_ge e length W i c3 hi hn j k l hj1 hj2 hk hk2 hl1 hl2 with
        h | ⟨p, q, g1, g2, g3, g4, g5, g6, g7, g8⟩
      · right
        refine ⟨?_, hle⟩
        rw [h]
        have : 0 ≤ (i - k) * B := mul_nonneg (by omega) hB
        linarith
      · obtain ⟨m, hm⟩ : ∃ m : Nat, i - p = (m : Int) := ⟨(i - p).toNat, by omega⟩
        rcases ih m (by omega) p q hm (by omega) g3 (by omega) with ⟨ps, hps, hval⟩ | ⟨h, _⟩
        · left
          obtain ⟨c1, c2, c3', c4⟩ := hps
          obtain ⟨rest, rfl⟩ : ∃ rest, ps = (p, q) :: rest := by
            cases ps with
            | nil => simp at c1
            | cons x rest =>
              simp only [List.head?_cons, Option.some.injEq] at c1
              exact ⟨rest, by rw [c1]⟩
          refine ⟨(k, l) :: (p, q) :: rest, ⟨rfl, ?_, ?_, ?_⟩, ?_⟩
          · rw [List.getLast?_cons_cons]; exact c2
          · rw [List.chain'_cons]
            exact ⟨⟨g1, g4, by simp only; omega⟩, c3'⟩
          · intro a ha
            rcases List.mem_cons.mp ha with r | r
            · subst r; exact g7
            · exact c4 a r
          · rw [g8, hval]
            simp only [chainEnergy, loopSum]
            ring
        · right
          refine ⟨?_, hle⟩
          rw [g8]
          have h1 : -B ≤ stepEnergy e (k, l) (p, q) := hlow _ _ _ _ _ _ _ _
          have h3 : 0 ≤ (p - k - 1) * B := mul_nonneg (by omega) hB
          nlinarith

theorem no_chain_side : ¬ ∃ ps, isChain envSide 10 27 11 15 ps := by
  rintro ⟨ps, h1, h2, h3, _⟩
  cases ps with
  | nil => simp at h1
  | cons a rest =>
    simp only [List.head?_cons, Option.some.injEq] at h1
    subst h1
    cases rest with
    | nil => simp at h2
    | cons b rest2 =>
      rw [List.getLast?_cons_cons] at h2
      rw [List.chain'_cons] at h3
      obtain ⟨⟨l1, l2, l3⟩, hc⟩ := h3
      simp only [MAXLOOP] at l1 l2 l3
      cases rest2 with
      | nil =>
        simp only [List.getLast?_singleton, Option.some.injEq] at h2
        subst h2
        simp only at l3
        omega
      | cons c rest3 =>
        rw [List.getLast?_cons_cons] at h2
        rw [List.chain'_cons] at hc
        obtain ⟨⟨m1, _, _⟩, hc2⟩ := hc
        have hb := chain_bounds (b :: c :: rest3) b.1 b.2 11 15
          (List.chain'_cons.mpr ⟨⟨m1, by assumption, by assumption⟩, hc2⟩) rfl
          (by rw [List.getLast?_cons_cons]; exact h2)
        have hcb := chain_bounds (c :: rest3) c.1 c.2 11 15 hc2 rfl h2
        omega

/-- C20 (counterexample): in `envSide` with window 13 at scan position 11 no chain connects
the boundary pair `(10, 27)` to the inner pair `(11, 15)`, yet the entry
`c3[4][11][12]` of that pair holds `INF - 3` after the fill step: the relaxation through
`(11, 16)` adds the interior-loop energy -3 to an entry that holds `INF`. -/
theorem fill_unconnected_counterexample :
    (¬ ∃ ps, isChain envSide 10 27 11 15 ps) ∧
    envSide.INF = 10000000 ∧
    filled envSide 38 13 11 (fun _ _ _ => 0) 4 11 12 = 9999997 ∧
    entry (filled envSide 38 13 11 (fun _ _ _ => 0)) 13 11 15 (10, 27) = 9999997 := by
  refine ⟨no_chain_side, rfl, ?_, ?_⟩
  · rw [filled_zero]; decide
  · rw [filled_zero]; decide

/-- C20 (amended): at a scan position `i >= 11`, when no interior-loop energy is below
`-B` (`B >= 0`), every entry `c3[j-11][W-i+k-1][l-j]` inside the allocated box whose
boundary pair `(k, l)` is not connected to the inner pair `(i, j)` by a valid chain holds,
after the fill step, a value between `INF - (i - k) B` and `INF` (exactly `INF` when no
interior-loop energy is negative, `B = 0`); and every entry below `INF - (i - k) B` is the
total energy of some valid chain. The global `n1` is the length of the sequence. -/
theorem fill_unconnected (e : Env) (length W i B : Int) (c3 : Matrix) (hi : 11 ≤ i)
    (hn : e.n1 = length) (hB : 0 ≤ B)
    (hlow : ∀ n1 n2 t t2 a b c d, -B ≤ e.E_IntLoop n1 n2 t t2 a b c d)
    (j k l : Int) (hbox : inBox length W (j - 11) (W - i + k - 1) (l - j)) :
    ((¬ ∃ ps, isChain e k l i j ps) →
      e.INF - (i - k) * B ≤ entry (filled e length W i c3) W i j (k, l) ∧
      entry (filled e length W i c3) W i j (k, l) ≤ e.INF ∧
      (B = 0 → entry (filled e length W i c3) W i j (k, l) = e.INF)) ∧
    (entry (filled e length W i c3) W i j (k, l) < e.INF - (i - k) * B →
      ∃ ps, isChain e k l i j ps ∧
        entry (filled e length W i c3) W i j (k, l) = chainEnergy e i j ps) := by
  have hkey : (∃ ps, isChain e k l i j ps ∧
        entry (filled e length W i c3) W i j (k, l) = chainEnergy e i j ps) ∨
      (e.INF - (i - k) * B ≤ entry (filled e length W i c3) W i j (k, l) ∧
        entry (filled e length W i c3) W i j (k, l) ≤ e.INF) := by
    by_cases hc : i + 4 ≤ j ∧ j ≤ e.n1 - 11 ∧ e.pt i j ≠ 0 ∧ max 9 (i - W) < k
    · obtain ⟨c1, c2, c3', c4⟩ := hc
      obtain ⟨_, _, b3, b4, b5, b6⟩ := hbox
      exact filled_span e length W i B c3 hi hn hB hlow j c1 c2 c3' (i - k).toNat k l
        (by omega) c4 (by omega) (by omega)
    · right
      rw [filled_never e length W i c3 hi hn j k l hbox hc]
      obtain ⟨_, _, b3, b4, _, _⟩ := hbox
      have : 0 ≤ (i - k) * B := mul_nonneg (by omega) hB
      exact ⟨by linarith, le_refl _⟩
  constructor
  · intro hno
    rcases hkey with ⟨ps, hps, _⟩ | ⟨h1, h2⟩
    · exact absurd ⟨ps, hps⟩ hno
    · refine ⟨h1, h2, ?_⟩
      intro hB0
      rw [hB0] at h1
      simp only [mul_zero, sub_zero] at h1
      omega
  · intro hlt
    rcases hkey with h | ⟨h1, _⟩
    · exact h
    · omega

theorem fill_unconnected_witness :
    (11 : Int) ≤ 11 ∧ envSide.n1 = 38 ∧ (0 : Int) ≤ 3 ∧
    (∀ n1 n2 t t2 a b c d, -3 ≤ envSide.E_IntLoop n1 n2 t t2 a b c d) ∧
    inBox 38 13 (15 - 11) (13 - 11 + 10 - 1) (27 - 15) ∧
    (((¬ ∃ ps, isChain envSide 10 27 11 15 ps) →
      envSide.INF - (11 - 10) * 3 ≤
        entry (filled envSide 38 13 11 (fun _ _ _ => 0)) 13 11 15 (10, 27) ∧
      entry (filled envSide 38 13 11 (fun _ _ _ => 0)) 13 11 15 (10, 27) ≤ envSide.INF ∧
      ((3 : Int) = 0 →
        entry (filled envSide 38 13 11 (fun _ _ _ => 0)) 13 11 15 (10, 27) = envSide.INF)) ∧
    (entry (filled envSide 38 13 11 (fun _ _ _ => 0)) 13 11 15 (10, 27) <
        envSide.INF - (11 - 10) * 3 →
      ∃ ps, isChain envSide 10 27 11 15 ps ∧
        entry (filled envSide 38 13 11 (fun _ _ _ => 0)) 13 11 15 (10, 27) =
          chainEnergy envSide 11 15 ps)) :=
  ⟨by decide, rfl, by decide, fun _ _ _ _ _ _ _ _ => le_refl (-3 : Int),
    by unfold inBox; decide,
    fill_unconnected envSide 38 13 11 3 (fun _ _ _ => 0) (by decide) rfl (by decide)
      (fun _ _ _ _ _ _ _ _ => le_refl (-3 : Int)) 15 10 27 (by unfold inBox; decide)⟩

/-! ### Thresholds above the connected candidates -/

/-- For a small energy model, the entry of a boundary pair that some chain connects to the
inner pair is the energy of a chain. -/
theorem filled_attained (e : Env) (length W i B : Int) (c3 : Matrix) (j k l : Int)
    (hi : 11 ≤ i) (hn : e.n1 = length) (hs : smallEnergies e W B)
    (hr : inReadout e W i j k l) (hc : ∃ ps, isChain e k l i j ps) :
    ∃ ps, isChain e k l i j ps ∧
      entry (filled e length W i c3) W i j (k, l) = chainEnergy e i j ps := by
  obtain ⟨r1, r2, r3, r4, r5, r6, r7, r8⟩ := hr
  have hB0 : 0 ≤ B := le_trans (abs_nonneg _) (hs.2.1 0 0 0)
  obtain ⟨ps0, hps0⟩ := hc
  obtain ⟨m, hm⟩ : ∃ m : Nat, i - k = (m : Int) := ⟨(i - k).toNat, by omega⟩
  rcases filled_class e length W i B c3 hi hn hB0 hs.1 j r1 r2 r7 m k l hm r3 (by omega)
      (by omega) with h | h
  · exfalso
    have h1 := filled_upper e length W i c3 hi hn j r1 r2 ps0 k l hps0 r3 (by omega) (by omega)
    have h2 := chainEnergy_bound e W B hs ps0 k l i j hps0 (by omega)
    have h3 := le_abs_self (chainEnergy e i j ps0)
    have h4 : (i - k) * B ≤ (W - 1) * B := mul_le_mul_of_nonneg_right (by omega) hB0
    have h5 := hs.2.2
    nlinarith
  · exact h

/-- For a small energy model, `backtrack_XS` succeeds on a combination of the readout range
whose boundary pair is connected to the inner pair by a chain. -/
theorem backtrack_connected (e : Env) (length W i B : Int) (c3 : Matrix) (j k l : Int)
    (hi : 11 ≤ i) (hn : e.n1 = length) (hs : smallEnergies e W B)
    (hr : inReadout e W i j k l) (hc : ∃ ps, isChain e k l i j ps) :
    ∃ t, backtrack_XS e (filled e length W i c3) k l i j W = Outcome.ok t := by
  have hgood := filled_attained e length W i B c3 j k l hi hn hs hr hc
  obtain ⟨r1, r2, r3, r4, r5, r6, r7, r8⟩ := hr
  obtain ⟨m, hm⟩ : ∃ m : Nat, i - k = (m : Int) := ⟨(i - k).toNat, by omega⟩
  obtain ⟨w, hw, _, _⟩ := walk_reaches e length W i B c3 hi hn hs j r1 r2 r7 m k l
    (CharArr.set (fun _ => NUL) (i - k + 1) NUL) (CharArr.set (fun _ => NUL) (l - j + 1) NUL)
    k ((i - k).toNat + (l - j).toNat + 1) hm (by omega) r3 (by omega) (by omega) r8 hgood
  exact ⟨Traced.mk
      (cstring (padDots w.st1 (i - k)) (i - k + 2) ++
        '&' :: cstring (padDots w.st2 (l - j)) (l - j + 2))
      (w.k - k + 1 + l - w.l + 1 + 2), by
    unfold backtrack_XS
    simp only [hw]⟩

/-- Two searches whose thresholds decide the two tests alike at every scan position give
the same outcome. -/
theorem scanAll_congr (e : Env) (length : Int) (access_s1 : Int → Int → Int) (W p p2 : Int) :
    ∀ (is : List Int) (s : Scan),
      (∀ i ∈ is, ∀ c3,
        ((bestAt e length access_s1 W i c3).Emin < p ↔
          (bestAt e length access_s1 W i c3).Emin < p2) ∧
        ((bestAt e length access_s1 W i c3).Emin < p →
          ((bestAt e length access_s1 W i c3).net access_s1 i < p ↔
            (bestAt e length access_s1 W i c3).net access_s1 i < p2))) →
      scanAll e length access_s1 p W is s = scanAll e length access_s1 p2 W is s := by
  intro is
  induction is with
  | nil => intro s _; rfl
  | cons i is ih =>
    intro s h
    obtain ⟨d1, d2⟩ := h i (List.mem_cons_self _ _) s.c3
    have ih2 := fun s2 => ih s2 (fun i2 hi2 => h i2 (List.mem_cons_of_mem _ hi2))
    by_cases h1 : (bestAt e length access_s1 W i s.c3).Emin < p
    · cases hbt : backtrack_XS e (filled e length W i s.c3)
          (bestAt e length access_s1 W i s.c3).k_min (bestAt e length access_s1 W i s.c3).l_min i
          (bestAt e length access_s1 W i s.c3).j_min W with
      | fuel => exact absurd hbt (backtrack_no_fuel _ _ _ _ _ _ _)
      | undef =>
        rw [scanAll_cons_undef _ _ _ _ _ _ _ _
            (scanPosition_undef e length access_s1 p W i s h1 hbt),
          scanAll_cons_undef _ _ _ _ _ _ _ _
            (scanPosition_undef e length access_s1 p2 W i s (d1.mp h1) hbt)]
      | fail msg =>
        rw [scanAll_cons_fail _ _ _ _ _ _ _ _ _
            (scanPosition_fail e length access_s1 p W i s msg h1 hbt),
          scanAll_cons_fail _ _ _ _ _ _ _ _ _
            (scanPosition_fail e length access_s1 p2 W i s msg (d1.mp h1) hbt)]
      | ok t =>
        rw [scanAll_cons_ok _ _ _ _ _ _ _ _ _
            (scanPosition_back e length access_s1 p W i s t h1 hbt),
          scanAll_cons_ok _ _ _ _ _ _ _ _ _
            (scanPosition_back e length access_s1 p2 W i s t (d1.mp h1) hbt)]
        simp only [d2 h1]
        exact ih2 _
    · rw [scanAll_cons_ok _ _ _ _ _ _ _ _ _
          (scanPosition_skip e length access_s1 p W i s h1),
        scanAll_cons_ok _ _ _ _ _ _ _ _ _
          (scanPosition_skip e length access_s1 p2 W i s (fun hh => h1 (d1.mpr hh)))]
      exact ih2 _

/-- A search whose threshold lies above the energies of the connected scan positions and
not above the best total of the others completes, and stores an entry at every connected
position. -/
theorem scanAll_stable (e : Env) (length : Int) (access_s1 : Int → Int → Int)
    (W B p : Int) (hn : e.n1 = length) (hs : smallEnergies e W B) :
    ∀ (is : List Int) (s : Scan),
      (∀ i ∈ is, 11 ≤ i ∧
        (connectedAt e length access_s1 W i →
          (bestOf e length access_s1 W i).Emin < p ∧
          (bestOf e length access_s1 W i).net access_s1 i < p) ∧
        (¬ connectedAt e length access_s1 W i → p ≤ (bestOf e length access_s1 W i).Emin)) →
      ∃ t, scanAll e length access_s1 p W is s = Outcome.ok t ∧
        (∀ x ∈ s.store.storage, x ∈ t.store.storage) ∧
        ∀ i ∈ is, connectedAt e length access_s1 W i →
          ∃ hit ∈ t.store.storage, ∃ struc,
            hit = hitOf access_s1 i (bestOf e length access_s1 W i) struc := by
  intro is
  induction is with
  | nil =>
    intro s _
    exact ⟨s, rfl, fun x hx => hx, fun i hi => by simp at hi⟩
  | cons i is ih =>
    intro s h
    obtain ⟨hi, hc1, hc2⟩ := h i (List.mem_cons_self _ _)
    have hb := bestAt_eq_bestOf e access_s1 length W i hi hn s.c3
    have ih2 := fun s2 => ih s2 (fun i2 hi2 => h i2 (List.mem_cons_of_mem _ hi2))
    by_cases hcon : connectedAt e length access_s1 W i
    · obtain ⟨e1, e2⟩ := hc1 hcon
      have hr := readout_selected e access_s1 W i (filled e length W i (fun _ _ _ => 0))
        hcon.1
      obtain ⟨t, ht⟩ := backtrack_connected e length W i B s.c3 _ _ _ hi hn hs hr hcon.2
      have hsp := scanPosition_back e length access_s1 p W i s t (by rw [hb]; exact e1)
        (by rw [hb]; exact ht)
      rw [hb, if_pos e2] at hsp
      rw [scanAll_cons_ok _ _ _ _ _ _ _ _ _ hsp]
      obtain ⟨t2, g1, g2, g3⟩ := ih2 (Scan.mk (filled e length W i s.c3)
        (append s.store (hitOf access_s1 i (bestOf e length access_s1 W i) t.struc)))
      simp only [append_storage] at g2
      refine ⟨t2, g1, fun x hx => g2 x (List.mem_append_left _ hx), ?_⟩
      intro i2 hi2 hcon2
      rcases List.mem_cons.mp hi2 with rfl | hi2
      · exact ⟨_, g2 _ (List.mem_append_right _ (List.mem_singleton_self _)), t.struc, rfl⟩
      · exact g3 i2 hi2 hcon2
    · have hskip : ¬ (bestAt e length access_s1 W i s.c3).Emin < p := by
        rw [hb]
        have := hc2 hcon
        omega
      rw [scanAll_cons_ok _ _ _ _ _ _ _ _ _
        (scanPosition_skip e length access_s1 p W i s hskip)]
      obtain ⟨t2, g1, g2, g3⟩ := ih2 (Scan.mk (filled e length W i s.c3) s.store)
      refine ⟨t2, g1, g2, ?_⟩
      intro i2 hi2 hcon2
      rcases List.mem_cons.mp hi2 with rfl | hi2
      · exact absurd hcon2 hcon
      · exact g3 i2 hi2 hcon2

/-- No chain connects a boundary pair `(k, l)` to the inner pair `(k + 1, j)` when the
single interior loop between them would have more than `MAXLOOP` unpaired bases. -/
theorem no_chain_adjacent (e : Env) (k l i j : Int) (hi : i = k + 1)
    (hs : MAXLOOP < l - j - 1) : ¬ ∃ ps, isChain e k l i j ps := by
  rintro ⟨ps, h1, h2, h3, _⟩
  cases ps with
  | nil => simp at h1
  | cons a rest =>
    simp only [List.head?_cons, Option.some.injEq] at h1
    subst h1
    cases rest with
    | nil =>
      simp only [List.getLast?_singleton, Option.some.injEq, Prod.mk.injEq] at h2
      omega
    | cons b rest2 =>
      rw [List.getLast?_cons_cons] at h2
      rw [List.chain'_cons] at h3
      obtain ⟨⟨l1, l2, l3⟩, hc⟩ := h3
      simp only at l1 l2 l3
      cases rest2 with
      | nil =>
        simp only [List.getLast?_singleton, Option.some.injEq] at h2
        subst h2
        simp only at l3
        omega
      | cons c rest3 =>
        rw [List.getLast?_cons_cons] at h2
        rw [List.chain'_cons] at hc
        obtain ⟨⟨m1, _, _⟩, hc2⟩ := hc
        have hcb := chain_bounds (c :: rest3) c.1 c.2 i j hc2 rfl h2
        omega

set_option maxRecDepth 1000000 in
set_option maxHeartbeats 4000000 in
theorem bestOf_near_values :
    bestOf envNear 27 (fun _ _ => 0) 3 11 = Best.mk 12 10 16 15 ∧
    ∀ i ∈ scanPositions 27, i ≠ 11 →
      (bestOf envNear 27 (fun _ _ => 0) 3 i).Emin = 10000000 := by
  simp only [bestOf_eq]
  decide

set_option maxRecDepth 1000000 in
set_option maxHeartbeats 4000000 in
theorem bestOf_far_values :
    bestOf envFar 38 (fun _ _ => -1) 13 12 = Best.mk 9999998 11 28 16 ∧
    ∀ i ∈ scanPositions 38, i ≠ 12 →
      (bestOf envFar 38 (fun _ _ => -1) 13 i).Emin = 10000000 := by
  simp only [bestOf_eq]
  decide

theorem connectedAt_near : connectedAt envNear 27 (fun _ _ => 0) 3 11 := by
  unfold connectedAt
  rw [bestOf_near_values.1]
  refine ⟨by decide, [(10, 16), (11, 15)], rfl, rfl, ?_, by decide⟩
  exact List.chain'_cons.mpr ⟨by decide, List.chain'_singleton _⟩

/-- In `envNear` with window 3 every threshold above 12 and not above `INF` lies above the
energies of the one connected scan position, 11, and not above the best total `INF` of the
others. -/
theorem stablePenalty_near (p : Int) (h1 : 12 < p) (h2 : p ≤ 10000000) :
    stablePenalty envNear 27 (fun _ _ => 0) 3 p := by
  intro i hi
  by_cases h11 : i = 11
  · subst h11
    refine ⟨fun _ => ?_, fun hno => absurd connectedAt_near hno⟩
    rw [bestOf_near_values.1]
    unfold Best.net Best.dGx Best.dGy wrapInt
    simp only
    omega
  · have hE := bestOf_near_values.2 i hi h11
    have hno : ¬ connectedAt envNear 27 (fun _ _ => 0) 3 i := by
      intro hc
      have := hc.1
      rw [hE] at this
      exact absurd this (by decide)
    refine ⟨fun hc => absurd hc hno, fun _ => ?_⟩
    rw [hE]
    exact h2

set_option maxRecDepth 1000000 in
set_option maxHeartbeats 4000000 in
theorem duplexfoldBox_values :
    duplexfoldBox envNear 27 (fun _ _ => 0) 20000000 3 = Outcome.undef ∧
    duplexfoldBox envFar 38 (fun _ _ => -1) 0 13 = Outcome.ok [] ∧
    duplexfoldBox envFar 38 (fun _ _ => -1) 9999999 13 =
      Outcome.fail "backtrack failed in fold duplex bal" :=
  ⟨rfl, rfl, rfl⟩

/-- In `envNear` (window 3) the threshold 100 lies above the best total and the net energy,
both 12, of the one connected scan position and the search returns its entry, but with the
larger threshold 20000000, above `INF = 10000000`, the search reads `c3` outside the array
at a scan position whose readout selected nothing. In `envFar` (window 13, accessibility
penalties -1) no scan position has a connected best candidate and the search returns the
empty list for the threshold 0, but with the larger threshold 9999999, below `INF`, it ends
in a failure of the backtracking at scan position 12, whose best candidate is not
connected. -/
theorem penalty_threshold_runs :
    stablePenalty envNear 27 (fun _ _ => 0) 3 100 ∧
    duplexfold_XS envNear 27 (fun _ _ => 0) 100 3 = Outcome.ok [hitNear] ∧
    duplexfold_XS envNear 27 (fun _ _ => 0) 20000000 3 = Outcome.undef ∧
    envNear.INF = 10000000 ∧
    (∀ i ∈ scanPositions 38, ¬ connectedAt envFar 38 (fun _ _ => -1) 13 i) ∧
    duplexfold_XS envFar 38 (fun _ _ => -1) 0 13 = Outcome.ok [] ∧
    duplexfold_XS envFar 38 (fun _ _ => -1) 9999999 13 =
      Outcome.fail "backtrack failed in fold duplex bal" ∧
    envFar.INF = 10000000 := by
  refine ⟨stablePenalty_near 100 (by decide) (by decide), duplexfold_near, ?_, rfl, ?_, ?_,
    ?_, rfl⟩
  · rw [duplexfold_eq_box envNear 27 (fun _ _ => 0) 20000000 3 rfl]
    exact duplexfoldBox_values.1
  · intro i hi hc
    by_cases h12 : i = 12
    · subst h12
      unfold connectedAt at hc
      rw [bestOf_far_values.1] at hc
      exact no_chain_adjacent envFar 11 28 12 16 (by decide) (by decide) hc.2
    · have := hc.1
      rw [bestOf_far_values.2 i hi h12] at this
      exact absurd this (by decide)
  · rw [duplexfold_eq_box envFar 38 (fun _ _ => -1) 0 13 rfl]
    exact duplexfoldBox_values.2.1
  · rw [duplexfold_eq_box envFar 38 (fun _ _ => -1) 9999999 13 rfl]
    exact duplexfoldBox_values.2.2

/-- For a fixed sequence, accessibility table and window and a small energy
model, every threshold that lies above the best total and the net energy of each scan
position whose best candidate is connected by a valid chain, and not above the best total of
any other scan position (`INF` where the readout selected nothing), gives the same result
list: the search completes, it returns exactly one entry for each connected scan position
and no other entry. The global `n1` is the length of the sequence. -/
theorem penalty_stable (e : Env) (length : Int) (access_s1 : Int → Int → Int)
    (W B p p2 : Int) (hn : e.n1 = length) (hs : smallEnergies e W B)
    (h1 : stablePenalty e length access_s1 W p)
    (h2 : stablePenalty e length access_s1 W p2) :
    ∃ hits, duplexfold_XS e length access_s1 p W = Outcome.ok hits ∧
      duplexfold_XS e length access_s1 p2 W = Outcome.ok hits ∧
      (hits.map (fun h => h.te)).Sublist ((scanPositions length).map (fun i => i - 10)) ∧
      (∀ i ∈ scanPositions length,
        connectedAt e length access_s1 W i ↔ ∃ hit ∈ hits, hit.te = i - 10) ∧
      ∀ hit ∈ hits, ∃ i ∈ scanPositions length, connectedAt e length access_s1 W i ∧
        ∃ struc, hit = hitOf access_s1 i (bestOf e length access_s1 W i) struc := by
  obtain ⟨t, ht, _, hhit⟩ := scanAll_stable e length access_s1 W B p hn hs
    (scanPositions length) scanStart
    (fun i hi => ⟨(mem_scanPositions.mp hi).1, (h1 i hi).1, (h1 i hi).2⟩)
  have hrun := duplexfold_of_scanAll e length access_s1 p W t ht
  have hcongr := scanAll_congr e length access_s1 W p p2 (scanPositions length) scanStart
    (fun i hi c3 => by
      rw [bestAt_eq_bestOf e access_s1 length W i (mem_scanPositions.mp hi).1 hn c3]
      by_cases hc : connectedAt e length access_s1 W i
      · have a1 := (h1 i hi).1 hc
        have a2 := (h2 i hi).1 hc
        exact ⟨⟨fun _ => a2.1, fun _ => a1.1⟩, fun _ => ⟨fun _ => a2.2, fun _ => a1.2⟩⟩
      · have a1 := (h1 i hi).2 hc
        have a2 := (h2 i hi).2 hc
        exact ⟨⟨fun hh => by omega, fun hh => by omega⟩, fun hh => by omega⟩)
  rw [ht] at hcongr
  have hrun2 := duplexfold_of_scanAll e length access_s1 p2 W t hcongr.symm
  obtain ⟨hsub, hall⟩ := duplexfold_trace e length access_s1 p W _ hn hrun
  have horigin : ∀ hit ∈ t.store.storage, ∃ i ∈ scanPositions length,
      connectedAt e length access_s1 W i ∧
        ∃ struc, hit = hitOf access_s1 i (bestOf e length access_s1 W i) struc := by
    intro hit hh
    obtain ⟨i, hi, _, tr, e1, _, _, rfl⟩ := hall hit hh
    refine ⟨i, hi, ?_, tr.struc, rfl⟩
    by_contra hc
    have := (h1 i hi).2 hc
    omega
  refine ⟨t.store.storage, hrun, hrun2, hsub, ?_, horigin⟩
  intro i hi
  constructor
  · intro hc
    obtain ⟨hit, hh, struc, rfl⟩ := hhit i hi hc
    exact ⟨_, hh, rfl⟩
  · rintro ⟨hit, hh, hte⟩
    obtain ⟨i2, _, hc2, struc, rfl⟩ := horigin hit hh
    have : i2 = i := by
      unfold hitOf at hte
      simp only at hte
      omega
    rw [← this]
    exact hc2

theorem penalty_stable_near :
    envNear.n1 = 27 ∧ smallEnergies envNear 3 5 ∧
    stablePenalty envNear 27 (fun _ _ => 0) 3 100 ∧
    stablePenalty envNear 27 (fun _ _ => 0) 3 10000000 ∧
    ∃ hits, duplexfold_XS envNear 27 (fun _ _ => 0) 100 3 = Outcome.ok hits ∧
      duplexfold_XS envNear 27 (fun _ _ => 0) 10000000 3 = Outcome.ok hits ∧
      (hits.map (fun h => h.te)).Sublist ((scanPositions 27).map (fun i => i - 10)) ∧
      (∀ i ∈ scanPositions 27,
        connectedAt envNear 27 (fun _ _ => 0) 3 i ↔ ∃ hit ∈ hits, hit.te = i - 10) ∧
      ∀ hit ∈ hits, ∃ i ∈ scanPositions 27, connectedAt envNear 27 (fun _ _ => 0) 3 i ∧
        ∃ struc, hit = hitOf (fun _ _ => 0) i (bestOf envNear 27 (fun _ _ => 0) 3 i) struc :=
  ⟨rfl, smallEnergies_near, stablePenalty_near 100 (by decide) (by decide),
    stablePenalty_near 10000000 (by decide) (by decide),
    penalty_stable envNear 27 (fun _ _ => 0) 3 5 100 10000000 rfl smallEnergies_near
      (stablePenalty_near 100 (by decide) (by decide))
      (stablePenalty_near 10000000 (by decide) (by decide))⟩

/-- C15 (code bug): at a scan position `i >= 0` whose readout selected nothing
(`Emin = INF` and `(k_min, l_min, j_min) = (0, 0, 0)`), a threshold above `INF` passes the
test `Emin < penalty`; the call `backtrack_XS(0, 0, i, 0)` then starts with the read
`c3[-11][W-i-1][0]`, outside the array, so the body of the scan loop for `i`, and every scan
that reaches it, is undefined. -/
theorem penalty_above_INF (e : Env) (length : Int) (access_s1 : Int → Int → Int)
    (penalty W i : Int) (s : Scan) (hi : 0 ≤ i) (hp : e.INF < penalty)
    (hsel : bestAt e length access_s1 W i s.c3 = Best.mk e.INF 0 0 0) :
    ¬ inBox e.n1 W (0 - 11) (W - i + 0 - 1) (0 - 0) ∧
    backtrack_XS e (filled e length W i s.c3) 0 0 i 0 W = Outcome.undef ∧
    scanPosition e length access_s1 penalty W i s = Outcome.undef ∧
    ∀ is : List Int, scanAll e length access_s1 penalty W (i :: is) s = Outcome.undef := by
  have hbt := backtrack_origin e (filled e length W i s.c3) i W hi
  have hsp : scanPosition e length access_s1 penalty W i s = Outcome.undef := by
    apply scanPosition_undef
    · rw [hsel]
      exact hp
    · rw [hsel]
      exact hbt
  refine ⟨?_, hbt, hsp, fun is => scanAll_cons_undef _ _ _ _ _ _ _ _ hsp⟩
  unfold inBox
  omega

theorem penalty_above_INF_witness :
    envNear.INF < 20000000 ∧
    bestAt envNear 27 (fun _ _ => 0) 3 17 scanStart.c3 = Best.mk envNear.INF 0 0 0 ∧
    scanPositions 27 = 17 :: rangeDown 16 10 ∧
    scanPosition envNear 27 (fun _ _ => 0) 20000000 3 17 scanStart = Outcome.undef ∧
    duplexfold_XS envNear 27 (fun _ _ => 0) 100 3 = Outcome.ok [hitNear] ∧
    duplexfold_XS envNear 27 (fun _ _ => 0) 20000000 3 = Outcome.undef := by
  have hsel : bestAt envNear 27 (fun _ _ => 0) 3 17 scanStart.c3 =
      Best.mk envNear.INF 0 0 0 := by
    rw [bestAt_eq_bestOf envNear (fun _ _ => 0) 27 3 17 (by decide) rfl]
    have h := bestOf_near_values.2 17 (by decide) (by decide)
    rcases readout_cases envNear (fun _ _ => 0) 3 17
      (filled envNear 27 3 17 (fun _ _ _ => 0)) with hc | hc
    · exact hc
    · exact absurd hc.1 (by
        show ¬ (bestOf envNear 27 (fun _ _ => 0) 3 17).Emin < envNear.INF
        rw [h]
        decide)
  refine ⟨by decide, hsel, by decide,
    (penalty_above_INF envNear 27 (fun _ _ => 0) 20000000 3 17 scanStart (by decide)
      (by decide) hsel).2.2.1, duplexfold_near, ?_⟩
  rw [duplexfold_eq_box envNear 27 (fun _ _ => 0) 20000000 3 rfl]
  exact duplexfoldBox_values.1

/-! ### The pair-type table without `noLonelyPairs` -/

theorem inner_cell_sum (S1 : Int → Int) (pair : Int → Int → Int) (TURN nlp k : Int)
    (hk : 1 ≤ k) {x : Int × Int × Int}
    (hx : x ∈ (rangeUp 1 3).flatMap (fun l =>
      if k + TURN + l > S1 0 then []
      else diagWrites S1 pair nlp (S1 0) k.toNat (k + TURN + l)
        (pair (S1 k) (S1 (k + TURN + l))) 0 0)) :
    ∃ l, (l = 1 ∨ l = 2) ∧ x.1 + x.2.1 = 2 * k + TURN + l := by
  obtain ⟨l, hl, hx⟩ := List.mem_flatMap.mp hx
  rw [mem_rangeUp] at hl
  by_cases hj : k + TURN + l > S1 0
  · rw [if_pos hj] at hx; simp at hx
  · rw [if_neg hj] at hx
    have := diagWrites_cells S1 pair nlp (S1 0) _ _ _ _ _ x hx
    have hkk : ((k.toNat : Nat) : Int) = k := Int.toNat_of_nonneg (by omega)
    exact ⟨l, by omega, by omega⟩

/-- No cell is assigned twice by `make_ptypes`. -/
theorem ptypeWrites_nodup (S1 : Int → Int) (pair : Int → Int → Int) (TURN nlp : Int) :
    ((ptypeWrites S1 pair TURN nlp).map (fun w => (w.1, w.2.1))).Nodup := by
  show List.Pairwise (fun a b => a ≠ b) _
  rw [List.pairwise_map]
  unfold ptypeWrites
  simp only
  rw [List.pairwise_flatMap]
  constructor
  · intro k hk
    rw [mem_rangeUp] at hk
    rw [List.pairwise_flatMap]
    constructor
    · intro l _
      by_cases hj : k + TURN + l > S1 0
      · rw [if_pos hj]; exact List.Pairwise.nil
      · rw [if_neg hj]
        apply (diagWrites_sorted S1 pair nlp (S1 0) _ _ _ _ _).imp
        intro a b hab heq
        have := congrArg Prod.fst heq
        simp only at this
        omega
    · apply (pairwise_rangeUp 1 3).imp
      intro l1 l2 hlt x hx y hy heq
      by_cases hj1 : k + TURN + l1 > S1 0
      · rw [if_pos hj1] at hx; simp at hx
      · by_cases hj2 : k + TURN + l2 > S1 0
        · rw [if_pos hj2] at hy; simp at hy
        · rw [if_neg hj1] at hx
          rw [if_neg hj2] at hy
          have c1 := diagWrites_cells S1 pair nlp (S1 0) _ _ _ _ _ x hx
          have c2 := diagWrites_cells S1 pair nlp (S1 0) _ _ _ _ _ y hy
          have e1 := congrArg Prod.fst heq
          have e2 := congrArg Prod.snd heq
          simp only at e1 e2
          omega
  · apply (pairwise_rangeUp 1 (S1 0 - TURN)).imp_of_mem
    intro k1 k2 hk1 hk2 hlt x hx y hy heq
    rw [mem_rangeUp] at hk1 hk2
    obtain ⟨l1, hl1, s1⟩ := inner_cell_sum S1 pair TURN nlp k1 hk1.1 hx
    obtain ⟨l2, hl2, s2⟩ := inner_cell_sum S1 pair TURN nlp k2 hk2.1 hy
    have e1 := congrArg Prod.fst heq
    have e2 := congrArg Prod.snd heq
    simp only at e1 e2
    omega

/-- Every cell `(i, j)` with `1 <= i`, `j <= n` and `j - i > TURN` is assigned by
`make_ptypes`. -/
theorem ptypeWrites_mem (S1 : Int → Int) (pair : Int → Int → Int) (TURN nlp : Int)
    (i j : Int) (h1 : 1 ≤ i) (h2 : j ≤ S1 0) (h3 : j - i > TURN) :
    ∃ v, (i, j, v) ∈ ptypeWrites S1 pair TURN nlp := by
  have hk : ((((i + j - TURN - 1) / 2).toNat : Nat) : Int) = (i + j - TURN - 1) / 2 :=
    Int.toNat_of_nonneg (by omega)
  obtain ⟨v, hv⟩ := diagWrites_mem S1 pair nlp (S1 0) ((i + j - TURN - 1) / 2).toNat
    ((i + j - TURN - 1) / 2 + TURN + (i + j - TURN - 2 * ((i + j - TURN - 1) / 2)))
    (pair (S1 ((i + j - TURN - 1) / 2))
      (S1 ((i + j - TURN - 1) / 2 + TURN + (i + j - TURN - 2 * ((i + j - TURN - 1) / 2)))))
    0 0 i j h1 (by omega) h2 (by omega)
  exact ⟨v, mem_ptypeWrites.mpr ⟨(i + j - TURN - 1) / 2,
    i + j - TURN - 2 * ((i + j - TURN - 1) / 2), by omega, by omega, by omega, by omega, hv⟩⟩

/-- Without `noLonelyPairs` every assignment of `make_ptypes` stores the raw pair type. -/
theorem ptypeWrites_raw (S1 : Int → Int) (pair : Int → Int → Int) (TURN : Int)
    {w : Int × Int × Int} (hw : w ∈ ptypeWrites S1 pair TURN 0) :
    w.2.2 = pair (S1 w.1) (S1 w.2.1) := by
  obtain ⟨k, l, h1, _, _, _, hd⟩ := mem_ptypeWrites.mp hw
  have hk : ((k.toNat : Nat) : Int) = k := Int.toNat_of_nonneg (by omega)
  exact diagWrites_raw S1 pair (S1 0) k.toNat (k + TURN + l) _ 0 0
    (fun _ _ => by rw [hk]) w hd

/-- C19: with `noLonelyPairs` unset and `TURN >= 0` (3 in the program), for an encoded
sequence of length `n = S1[0]`, every assignment of `make_ptypes` goes to a cell `(i, j)`
with `1 <= i < j <= n` and `j - i > TURN` and stores `pair[S1[i]][S1[j]]`; each such cell is
assigned exactly once (it is assigned, and the list of assigned cells has no
duplicates); and when the layout `indx` maps the cells `1 <= i <= j <= n` to
distinct slots, the array holds `pair[S1[i]][S1[j]]` at `indx[j] + i` for `j - i > TURN`
and its initial value (0 after `vrna_alloc`) for `j - i <= TURN`. -/
theorem make_ptypes_plain (S1 : Int → Int) (pair : Int → Int → Int) (TURN : Int)
    (indx ptype : Int → Int) (hT : 0 ≤ TURN) :
    (∀ w ∈ ptypeWrites S1 pair TURN 0,
      1 ≤ w.1 ∧ w.1 < w.2.1 ∧ w.2.1 ≤ S1 0 ∧ w.2.1 - w.1 > TURN ∧
        w.2.2 = pair (S1 w.1) (S1 w.2.1)) ∧
    (∀ i j, 1 ≤ i → j ≤ S1 0 → j - i > TURN →
      ∃ v, (i, j, v) ∈ ptypeWrites S1 pair TURN 0) ∧
    ((ptypeWrites S1 pair TURN 0).map (fun w => (w.1, w.2.1))).Nodup ∧
    ((∀ i j i2 j2, 1 ≤ i → i ≤ j → j ≤ S1 0 → 1 ≤ i2 → i2 ≤ j2 → j2 ≤ S1 0 →
        indx j + i = indx j2 + i2 → i = i2 ∧ j = j2) →
      ∀ i j, 1 ≤ i → i ≤ j → j ≤ S1 0 →
        make_ptypes S1 pair TURN 0 indx ptype (indx j + i) =
          if j - i > TURN then pair (S1 i) (S1 j) else ptype (indx j + i)) := by
  refine ⟨?_, ptypeWrites_mem S1 pair TURN 0, ptypeWrites_nodup S1 pair TURN 0, ?_⟩
  · intro w hw
    obtain ⟨c1, c2, c3⟩ := ptypeWrites_cells hw
    exact ⟨c1, by omega, c2, c3, ptypeWrites_raw S1 pair TURN hw⟩
  · intro hinj i j h1 h2 h3
    have hcell : ∀ w ∈ ptypeWrites S1 pair TURN 0, indx j + i = indx w.2.1 + w.1 →
        w.1 = i ∧ w.2.1 = j := by
      intro w hw hx
      obtain ⟨c1, c2, c3⟩ := ptypeWrites_cells hw
      have := hinj i j w.1 w.2.1 h1 h2 h3 c1 (by omega) c2 hx
      exact ⟨this.1.symm, this.2.symm⟩
    unfold make_ptypes
    by_cases hd : j - i > TURN
    · rw [if_pos hd]
      apply foldl_write_value
      · intro w hw hx
        obtain ⟨e1, e2⟩ := hcell w hw hx
        rw [ptypeWrites_raw S1 pair TURN hw, e1, e2]
      · obtain ⟨v, hv⟩ := ptypeWrites_mem S1 pair TURN 0 i j h1 h3 hd
        exact ⟨(i, j, v), hv, rfl⟩
    · rw [if_neg hd]
      apply foldl_write_untouched
      intro w hw hx
      obtain ⟨e1, e2⟩ := hcell w hw hx
      obtain ⟨_, _, c3⟩ := ptypeWrites_cells hw
      omega

theorem make_ptypes_plain_witness :
    (0 : Int) ≤ 3 ∧
    ((∀ w ∈ ptypeWrites seqEnd pairStd 3 0,
      1 ≤ w.1 ∧ w.1 < w.2.1 ∧ w.2.1 ≤ seqEnd 0 ∧ w.2.1 - w.1 > 3 ∧
        w.2.2 = pairStd (seqEnd w.1) (seqEnd w.2.1)) ∧
    (∀ i j, 1 ≤ i → j ≤ seqEnd 0 → j - i > 3 →
      ∃ v, (i, j, v) ∈ ptypeWrites seqEnd pairStd 3 0) ∧
    ((ptypeWrites seqEnd pairStd 3 0).map (fun w => (w.1, w.2.1))).Nodup ∧
    ((∀ i j i2 j2, 1 ≤ i → i ≤ j → j ≤ seqEnd 0 → 1 ≤ i2 → i2 ≤ j2 → j2 ≤ seqEnd 0 →
        colWise j + i = colWise j2 + i2 → i = i2 ∧ j = j2) →
      ∀ i j, 1 ≤ i → i ≤ j → j ≤ seqEnd 0 →
        make_ptypes seqEnd pairStd 3 0 colWise (fun _ => 0) (colWise j + i) =
          if j - i > 3 then pairStd (seqEnd i) (seqEnd j)
          else (fun _ => (0 : Int)) (colWise j + i))) :=
  ⟨by decide, make_ptypes_plain seqEnd pairStd 3 colWise (fun _ => 0) (by decide)⟩

/-- C18 (failing input): with `noLonelyPairs` set, for the sequence `seqEnd` of length 7
the pair `(1, 7)` touches both sequence ends, its enclosed neighbour `(2, 6)` cannot pair
and its enclosing neighbour `(0, 8)` lies outside the sequence, yet `make_ptypes` stores
the pair type 5 for it: at the border `ntype` is not recomputed and still holds the type
of `(1, 7)` itself. The same pair one position inside the sequence `seqMid`, `(2, 8)`, is
stored with type 0. -/
theorem make_ptypes_lonely_end :
    pairStd (seqEnd 2) (seqEnd 6) = 0 ∧
    ptypeWrites seqEnd pairStd 3 1 =
      [(1, 5, 0), (1, 6, 0), (2, 6, 0), (1, 7, 5), (2, 7, 0), (3, 7, 0)] ∧
    make_ptypes seqEnd pairStd 3 1 colWise (fun _ => 0) (colWise 7 + 1) = 5 ∧
    pairStd (seqMid 3) (seqMid 7) = 0 ∧ pairStd (seqMid 1) (seqMid 9) = 0 ∧
    make_ptypes seqMid pairStd 3 1 colWise (fun _ => 0) (colWise 8 + 2) = 0 ∧
    make_ptypes seqMid pairStd 3 0 colWise (fun _ => 0) (colWise 8 + 2) = 5 := by
  decide

/-! ### The pair-type table with `noLonelyPairs` -/

/-- With `noLonelyPairs` set, the inner loop stores type 0 for a cell that touches neither
sequence end when neither its enclosed nor its enclosing neighbour can pair. On entry
`t` is the raw type of the first cell and `ot` the type stored for its enclosed neighbour. -/
theorem diagWrites_lonely (S1 : Int → Int) (pair : Int → Int → Int) (nlp n TURN : Int)
    (hnlp : nlp ≠ 0) :
    ∀ (m : Nat) (j t nt ot : Int),
      (1 ≤ (m : Int) → j ≤ n → t = pair (S1 (m : Int)) (S1 j)) →
      j - (m : Int) > TURN →
      (ot ≠ 0 → pair (S1 ((m : Int) + 1)) (S1 (j - 1)) ≠ 0 ∧ j - 1 - ((m : Int) + 1) > TURN) →
      ∀ w ∈ diagWrites S1 pair nlp n m j t nt ot, 1 < w.1 → w.2.1 < n →
        (w.2.1 - 1 - (w.1 + 1) ≤ TURN ∨ pair (S1 (w.1 + 1)) (S1 (w.2.1 - 1)) = 0) →
        pair (S1 (w.1 - 1)) (S1 (w.2.1 + 1)) = 0 → w.2.2 = 0 := by
  intro m
  induction m with
  | zero => intro j t nt ot _ _ _ w hw; rw [diagWrites_zero] at hw; simp at hw
  | succ m ih =>
    intro j t nt ot ht hd hot w hw
    rw [diagWrites_succ] at hw
    simp only [Nat.cast_add, Nat.cast_one] at ht hd hot
    by_cases hj : j ≤ n
    · rw [if_pos hj] at hw
      have ht2 := ht (by omega) hj
      rcases List.mem_cons.mp hw with rfl | hw
      · intro h1 h2 hin hout
        simp only at h1 h2 hin hout ⊢
        have hot0 : ot = 0 := by
          by_contra hne
          obtain ⟨a1, a2⟩ := hot hne
          rcases hin with hin | hin
          · omega
          · exact a1 hin
        rw [if_pos]
        exact ⟨hnlp, hot0, by rw [if_pos ⟨h1, h2⟩]; exact hout⟩
      · apply ih (j + 1) _ _ _ _ (by omega) _ w hw
        · intro hm hj1
          rw [if_pos ⟨by omega, by omega⟩]
          simp only [add_sub_cancel_right]
        · intro hne
          simp only [add_sub_cancel_right]
          refine ⟨?_, by omega⟩
          rw [← ht2]
          intro h0
          apply hne
          rw [h0]
          simp
    · rw [if_neg hj] at hw
      simp at hw

/-- With `noLonelyPairs` set and a layout `indx` that maps the cells `1 <= i <= j <= n` to
distinct slots, `make_ptypes` stores pair type 0 for every pair `(i, j)` with
`1 < i`, `j < n` and `j - i > TURN` whose enclosed neighbour `(i+1, j-1)` cannot pair (it
is closer than the minimum turn or its raw pair type is 0) and whose enclosing neighbour
`(i-1, j+1)` has raw pair type 0. -/
theorem make_ptypes_lonely_inner (S1 : Int → Int) (pair : Int → Int → Int)
    (TURN noLonelyPairs : Int) (indx ptype : Int → Int) (hT : 0 ≤ TURN)
    (hnlp : noLonelyPairs ≠ 0)
    (hinj : ∀ i j i2 j2, 1 ≤ i → i ≤ j → j ≤ S1 0 → 1 ≤ i2 → i2 ≤ j2 → j2 ≤ S1 0 →
      indx j + i = indx j2 + i2 → i = i2 ∧ j = j2)
    (i j : Int) (h1 : 1 < i) (h2 : j < S1 0) (h3 : j - i > TURN)
    (hin : j - 1 - (i + 1) ≤ TURN ∨ pair (S1 (i + 1)) (S1 (j - 1)) = 0)
    (hout : pair (S1 (i - 1)) (S1 (j + 1)) = 0) :
    make_ptypes S1 pair TURN noLonelyPairs indx ptype (indx j + i) = 0 := by
  unfold make_ptypes
  apply foldl_write_value
  · intro w hw hx
    obtain ⟨c1, c2, c3⟩ := ptypeWrites_cells hw
    obtain ⟨e1, e2⟩ := hinj i j w.1 w.2.1 (by omega) (by omega) (by omega) c1 (by omega) c2 hx
    obtain ⟨k, l, g1, _, g3, _, hd⟩ := mem_ptypeWrites.mp hw
    have hk : ((k.toNat : Nat) : Int) = k := Int.toNat_of_nonneg (by omega)
    apply diagWrites_lonely S1 pair noLonelyPairs (S1 0) TURN hnlp k.toNat (k + TURN + l) _ 0 0
      (fun _ _ => by rw [hk]) (by omega) (fun h => absurd rfl h) w hd
    · omega
    · omega
    · rw [← e1, ← e2]; exact hin
    · rw [← e1, ← e2]; exact hout
  · obtain ⟨v, hv⟩ := ptypeWrites_mem S1 pair TURN noLonelyPairs i j (by omega) (by omega) h3
    exact ⟨(i, j, v), hv, rfl⟩

/-! ## The result list: order and capacity -/

theorem length_rangeDown (hi lo : Int) :
    ((rangeDown hi lo).length : Int) = max 0 (hi - lo) := by
  unfold rangeDown
  simp only [List.length_map, List.length_range]
  omega

theorem pairwise_scanTargets (length : Int) :
    ((scanPositions length).map (fun i => i - 10)).Pairwise (fun a b => b < a) := by
  rw [List.pairwise_map]
  exact (pairwise_rangeDown _ _).imp (fun h => by omega)

/-- C25: the list returned by `duplexfold_XS` is ordered by strictly decreasing `te`: the
`te` values form a sublist of `length - 20, ..., 1` (the values `i - 10` of the scan
positions `i = length - 10, ..., 11` in the order of the scan), so each scan position
contributes at most one entry, no two entries share a `te`, and the list has at most
`max(0, length - 20)` entries. -/
theorem result_order (e : Env) (length : Int) (access_s1 : Int → Int → Int)
    (penalty W : Int) (hits : List vrna_pkplex_t)
    (h : duplexfold_XS e length access_s1 penalty W = Outcome.ok hits) :
    hits.Pairwise (fun a b => b.te < a.te) ∧
    (hits.map (fun h => h.te)).Sublist ((scanPositions length).map (fun i => i - 10)) ∧
    scanPositions length = rangeDown (length - 10) 10 ∧
    (hits.map (fun h => h.te)).Nodup ∧
    (∀ hit ∈ hits, 1 ≤ hit.te ∧ hit.te ≤ length - 20) ∧
    (hits.length : Int) ≤ max 0 (length - 20) := by
  obtain ⟨s, hs, rfl⟩ := duplexfold_ok e length access_s1 penalty W hits h
  obtain ⟨L, hL, hsub, _⟩ := scanAll_trace e length access_s1 penalty W _ _ _ hs
  have hL2 : s.store.storage = L := by rw [hL]; rfl
  rw [hL2]
  have hpw : (L.map (fun h => h.te)).Pairwise (fun a b => b < a) :=
    (pairwise_scanTargets length).sublist hsub
  refine ⟨?_, hsub, rfl, ?_, ?_, ?_⟩
  · exact List.pairwise_map.mp hpw
  · exact hpw.imp (fun h => by omega)
  · intro hit hh
    have h1 : hit.te ∈ (scanPositions length).map (fun i => i - 10) :=
      hsub.subset (List.mem_map_of_mem _ hh)
    obtain ⟨i, hi, hte⟩ := List.mem_map.mp h1
    have := mem_scanPositions.mp hi
    omega
  · have h1 := hsub.length_le
    simp only [List.length_map] at h1
    have h2 := length_rangeDown (length - 10) 10
    unfold scanPositions at h1
    omega

theorem result_order_witness :
    duplexfold_XS envNear 27 (fun _ _ => 0) 100 3 = Outcome.ok [hitNear] ∧
    ([hitNear].Pairwise (fun a b => b.te < a.te) ∧
    ([hitNear].map (fun h => h.te)).Sublist ((scanPositions 27).map (fun i => i - 10)) ∧
    scanPositions 27 = rangeDown (27 - 10) 10 ∧
    ([hitNear].map (fun h => h.te)).Nodup ∧
    (∀ hit ∈ [hitNear], 1 ≤ hit.te ∧ hit.te ≤ 27 - 20) ∧
    (([hitNear] : List vrna_pkplex_t).length : Int) ≤ max 0 (27 - 20)) :=
  ⟨duplexfold_near, result_order envNear 27 (fun _ _ => 0) 100 3 [hitNear] duplexfold_near⟩

/-! ### The capacity of `storage` -/

theorem append_capacity (s : Storage) (hit : vrna_pkplex_t) (h : withinCapacity s) :
    withinCapacity (append s hit) ∧
    (append s hit).storage_fill = s.storage_fill + 1 ∧
    (s.storage_fill + 1 = s.storage_size - 1 →
      (append s hit).storage_size = s.storage_size * 14 / 10 ∧
      s.storage_size < (append s hit).storage_size) ∧
    (s.storage_fill + 1 ≠ s.storage_size - 1 →
      (append s hit).storage_size = s.storage_size) := by
  obtain ⟨h1, h2, h3⟩ := h
  unfold append withinCapacity
  dsimp only
  by_cases hc : s.storage_fill + 1 = s.storage_size - 1
  · rw [if_pos hc]
    dsimp only
    simp only [List.length_append, List.length_singleton, Nat.cast_add, Nat.cast_one]
    refine ⟨⟨by omega, by omega, by omega⟩, trivial, fun _ => ⟨trivial, by omega⟩,
      fun h => absurd hc h⟩
  · rw [if_neg hc]
    dsimp only
    simp only [List.length_append, List.length_singleton, Nat.cast_add, Nat.cast_one]
    refine ⟨⟨by omega, by omega, by omega⟩, trivial, fun h => absurd h hc, fun _ => trivial⟩

theorem append_grows (L : List vrna_pkplex_t) (hit : vrna_pkplex_t) :
    append (Storage.mk L 64 62) hit = Storage.mk (L ++ [hit]) 89 63 := by
  rfl

theorem withinCapacity_start : withinCapacity scanStart.store := by
  unfold withinCapacity scanStart
  decide

theorem accept_capacity (e : Env) (access_s1 : Int → Int → Int) (penalty W i : Int)
    (c3 : Matrix) (b : Best) (s s2 : Storage) (hs : withinCapacity s)
    (h : accept e access_s1 penalty W i c3 b s = Outcome.ok s2) : withinCapacity s2 := by
  unfold accept at h
  by_cases h1 : b.Emin < penalty
  · rw [if_pos h1] at h
    cases hb : backtrack_XS e c3 b.k_min b.l_min i b.j_min W with
    | fuel => rw [hb] at h; simp at h
    | undef => rw [hb] at h; simp at h
    | fail msg => rw [hb] at h; simp at h
    | ok t =>
      rw [hb] at h
      dsimp only at h
      by_cases h2 : wrapInt (wrapInt (b.Emin - access_s1 (i - b.k_min + 1) i)
          - access_s1 (b.l_min - b.j_min + 1) b.l_min) < penalty
      · rw [if_pos h2] at h
        simp only [Outcome.ok.injEq] at h
        rw [← h]
        exact (append_capacity s _ hs).1
      · rw [if_neg h2] at h
        simp only [Outcome.ok.injEq] at h
        rw [← h]
        exact hs
  · rw [if_neg h1] at h
    simp only [Outcome.ok.injEq] at h
    rw [← h]
    exact hs

theorem scanPosition_capacity (e : Env) (length : Int) (access_s1 : Int → Int → Int)
    (penalty W i : Int) (s s2 : Scan) (hs : withinCapacity s.store)
    (h : scanPosition e length access_s1 penalty W i s = Outcome.ok s2) :
    withinCapacity s2.store := by
  unfold scanPosition at h
  dsimp only at h
  cases ha : accept e access_s1 penalty W i (filled e length W i s.c3)
      (readout e access_s1 W i (filled e length W i s.c3)) s.store with
  | fuel => rw [ha] at h; simp at h
  | undef => rw [ha] at h; simp at h
  | fail msg => rw [ha] at h; simp at h
  | ok st =>
    rw [ha] at h
    simp only [Outcome.ok.injEq] at h
    rw [← h]
    exact accept_capacity e access_s1 penalty W i _ _ _ _ hs ha

theorem scanAll_capacity (e : Env) (length : Int) (access_s1 : Int → Int → Int)
    (penalty W : Int) :
    ∀ (is : List Int) (s s2 : Scan), withinCapacity s.store →
      scanAll e length access_s1 penalty W is s = Outcome.ok s2 → withinCapacity s2.store := by
  intro is
  induction is with
  | nil =>
    intro s s2 hs h
    rw [scanAll_nil] at h
    simp only [Outcome.ok.injEq] at h
    rw [← h]
    exact hs
  | cons i is ih =>
    intro s s2 hs h
    cases hp : scanPosition e length access_s1 penalty W i s with
    | fuel =>
      rw [scanAll] at h
      simp only [hp] at h
      simp at h
    | undef =>
      rw [scanAll] at h
      simp only [hp] at h
      simp at h
    | fail msg =>
      rw [scanAll_cons_fail e length access_s1 penalty W i is s msg hp] at h
      simp at h
    | ok s1 =>
      rw [scanAll_cons_ok e length access_s1 penalty W i is s s1 hp] at h
      exact ih s1 s2 (scanPosition_capacity e length access_s1 penalty W i s s1 hs hp) h

/-- C24: in every state that the scan of `duplexfold_XS` reaches from its start (capacity
64, no entries), after any list of scan positions and so after any number of stored
entries, `storage_fill <= storage_size - 2` and `storage_fill` is the number of entries
stored. Writing one more entry there uses the slot `storage_fill < storage_size`, raises
`storage_fill` by one, replaces the capacity by `storage_size * 14 / 10` (the truncation of
1.4 times the capacity, a strictly larger value) exactly when the new `storage_fill` equals
`storage_size - 1`, and leaves `storage_fill <= storage_size - 2` again, so the slot of the
end marker is within the capacity too. -/
theorem storage_capacity (e : Env) (length : Int) (access_s1 : Int → Int → Int)
    (penalty W : Int) (is : List Int) (s : Scan)
    (h : scanAll e length access_s1 penalty W is scanStart = Outcome.ok s) :
    scanStart.store.storage_size = 64 ∧ scanStart.store.storage_fill = 0 ∧
    withinCapacity s.store ∧
    s.store.storage_fill ≤ s.store.storage_size - 2 ∧
    ∀ hit : vrna_pkplex_t,
      (append s.store hit).storage = s.store.storage ++ [hit] ∧
      (append s.store hit).storage_fill = s.store.storage_fill + 1 ∧
      (s.store.storage_fill + 1 = s.store.storage_size - 1 →
        (append s.store hit).storage_size = s.store.storage_size * 14 / 10 ∧
        s.store.storage_size < (append s.store hit).storage_size) ∧
      (s.store.storage_fill + 1 ≠ s.store.storage_size - 1 →
        (append s.store hit).storage_size = s.store.storage_size) ∧
      withinCapacity (append s.store hit) ∧
      (append s.store hit).storage_fill ≤ (append s.store hit).storage_size - 2 := by
  have hs : withinCapacity s.store :=
    scanAll_capacity e length access_s1 penalty W is scanStart s withinCapacity_start h
  refine ⟨rfl, rfl, hs, ?_, ?_⟩
  · have := hs.2.1
    omega
  · intro hit
    obtain ⟨h1, h2, h3, h4⟩ := append_capacity s.store hit hs
    refine ⟨append_storage _ _, h2, h3, h4, h1, ?_⟩
    have := h1.2.1
    omega

theorem storage_capacity_witness :
    ∃ s, scanAll envNear 27 (fun _ _ => 0) 100 3 (scanPositions 27) scanStart = Outcome.ok s ∧
      s.store.storage = [hitNear] ∧ withinCapacity s.store ∧
      s.store.storage_fill ≤ s.store.storage_size - 2 := by
  obtain ⟨s, hs, hl⟩ := duplexfold_ok envNear 27 (fun _ _ => 0) 100 3 [hitNear] duplexfold_near
  have h := storage_capacity envNear 27 (fun _ _ => 0) 100 3 (scanPositions 27) s hs
  exact ⟨s, hs, hl, h.2.2.1, h.2.2.2.1⟩

/-! ## The decomposition points of the backtracking, and the bounds of the matrix accesses -/

theorem takeWhile_eq_filter {α : Type} (P : α → Bool) :
    ∀ (xs : List α), xs.Pairwise (fun a b => P b = true → P a = true) →
      xs.takeWhile P = xs.filter P := by
  intro xs
  induction xs with
  | nil => intro _; rfl
  | cons x xs ih =>
    intro h
    rw [List.pairwise_cons] at h
    by_cases hx : P x = true
    · rw [List.takeWhile_cons_of_pos hx, List.filter_cons_of_pos hx, ih h.2]
    · rw [List.takeWhile_cons_of_neg hx, List.filter_cons_of_neg hx]
      symm
      rw [List.filter_eq_nil_iff]
      intro b hb hPb
      exact hx (h.1 b hb hPb)

/-- The `q` loop of `backtrack_XS` leaves at the first `q` with too large a loop; every
later `q` has a larger loop still, so the loop visits the `q` that pass the size test. -/
theorem backtrackPoints_eq (e : Env) (i j k l : Int) :
    backtrackPoints e i j k l =
      (rangeUp (k + 1) (i + 1)).flatMap (fun p =>
        (((rangeDown (l - 1) (j - 1)).filter
            (fun q => decide (¬ p - k + l - q - 2 > MAXLOOP))).filter
          (fun q => decide (e.pt p q ≠ 0))).map (fun q => (p, q))) := by
  unfold backtrackPoints
  congr 1
  funext p
  rw [takeWhile_eq_filter]
  exact (pairwise_rangeDown _ _).imp (fun {a b} hab hb => by
    simp only [decide_eq_true_eq] at hb ⊢
    omega)

theorem mem_backtrackPoints {e : Env} {i j k l : Int} {pq : Int × Int} :
    pq ∈ backtrackPoints e i j k l ↔
      k < pq.1 ∧ pq.1 ≤ i ∧ j ≤ pq.2 ∧ pq.2 < l ∧ pq.1 - k + l - pq.2 - 2 ≤ MAXLOOP ∧
        e.pt pq.1 pq.2 ≠ 0 := by
  obtain ⟨p, q⟩ := pq
  rw [backtrackPoints_eq]
  simp only [List.mem_flatMap, List.mem_map, List.mem_filter, mem_rangeUp, mem_rangeDown,
    decide_eq_true_eq, Prod.mk.injEq]
  constructor
  · rintro ⟨p', hp, q', ⟨⟨hq, hs⟩, hpt⟩, rfl, rfl⟩
    exact ⟨by omega, by omega, by omega, by omega, by omega, hpt⟩
  · rintro ⟨h1, h2, h3, h4, h5, h6⟩
    exact ⟨p, ⟨by omega, by omega⟩, q, ⟨⟨⟨by omega, by omega⟩, by omega⟩, h6⟩, rfl, rfl⟩

theorem fill_base_row (e : Env) (W i : Int) (m : Matrix) (a c : Int) :
    fill e W i m a (W - 1) c = m a (W - 1) c := by
  unfold fill
  obtain ⟨r1, _⟩ := fill_rows e W i (rangeDown (i - 1) (max 9 (i - W))) m
    (pairwise_rangeDown _ _)
  exact r1 _ _ _ (fun k hk => by rw [mem_rangeDown] at hk; omega)

/-- C23: with the global `n1` equal to the sequence length, a window `W >= 1` and a scan
position `i >= 11`, every index triple `(a, b, c)` at which `c3` is accessed lies in the
allocated box `0 <= a < length`, `0 <= b < W`, `0 <= c < W`: the triples of the
initialisation; the base-case entry `(j - 11, W - 1, 0)`; the target and the source of every
relaxation of the fill step, whose target has middle index at most `W - 2` and last index at
least 1, so that the fill step leaves every entry with middle index `W - 1` unchanged; the
entry read by the readout for every combination; and, in `backtrack_XS` called with the
combination selected by a readout with `Emin < INF`, the entry read at every pair of the
walk and at every decomposition point examined there. -/
theorem matrix_bounds (e : Env) (length W i : Int) (access_s1 : Int → Int → Int)
    (c3 : Matrix) (hn : e.n1 = length) (hW : 1 ≤ W) (hi : 11 ≤ i) :
    (∀ a ∈ rangeUp 0 length, ∀ b ∈ rangeUp 0 W, ∀ c ∈ rangeUp 0 W, inBox length W a b c) ∧
    (∀ j ∈ rangeUp (i + 4) (e.n1 - 10), inBox length W (j - 11) (W - 1) 0) ∧
    (∀ k ∈ rangeDown (i - 1) (max 9 (i - W)), ∀ o ∈ opsL e W i k,
      inBox length W o.ta o.tb o.tc ∧ inBox length W o.sa o.sb o.sc ∧
        o.tb ≤ W - 2 ∧ 1 ≤ o.tc) ∧
    (∀ (m : Matrix) (a c : Int), fill e W i m a (W - 1) c = m a (W - 1) c) ∧
    (∀ c ∈ readoutCands e W i, inBox length W (c.1 - 11) (W - i + c.2.1 - 1) (c.2.2 - c.1)) ∧
    ((readout e access_s1 W i (filled e length W i c3)).Emin < e.INF →
      ∀ (fuel : Nat), ∀ a ∈ walkPairs e (filled e length W i c3) W i
          (readout e access_s1 W i (filled e length W i c3)).j_min fuel
          (readout e access_s1 W i (filled e length W i c3)).k_min
          (readout e access_s1 W i (filled e length W i c3)).l_min,
        inBox length W ((readout e access_s1 W i (filled e length W i c3)).j_min - 11)
          (W - i + a.1 - 1) (a.2 - (readout e access_s1 W i (filled e length W i c3)).j_min) ∧
        ∀ pq ∈ backtrackPoints e i (readout e access_s1 W i (filled e length W i c3)).j_min
            a.1 a.2,
          inBox length W ((readout e access_s1 W i (filled e length W i c3)).j_min - 11)
            (W - i + pq.1 - 1)
            (pq.2 - (readout e access_s1 W i (filled e length W i c3)).j_min)) := by
  refine ⟨?_, ?_, ?_, ?_, ?_, ?_⟩
  · intro a ha b hb c hc
    rw [mem_rangeUp] at ha hb hc
    unfold inBox
    omega
  · intro j hj
    rw [mem_rangeUp] at hj
    unfold inBox
    omega
  · intro k hk o ho
    rw [mem_rangeDown] at hk
    refine ⟨?_, opsL_source_box hi hn hk.1 ho, ?_⟩
    · obtain ⟨l, p, q, j, h1, h2, h3, h4, h5, h6, h7, h8, h9, h10, h11, h12, h13, rfl⟩ :=
        mem_opsL.mp ho
      unfold relaxOf inBox
      simp only
      omega
    · obtain ⟨l, p, q, j, h1, h2, h3, h4, h5, h6, h7, h8, h9, h10, h11, h12, h13, rfl⟩ :=
        mem_opsL.mp ho
      unfold relaxOf
      simp only
      omega
  · exact fill_base_row e W i
  · intro c hc
    have h := mem_readoutCands.mp hc
    unfold inReadout at h
    unfold inBox
    omega
  · intro hE fuel a ha
    have h := readout_selected e access_s1 W i _ hE
    generalize (readout e access_s1 W i (filled e length W i c3)).j_min = j at *
    generalize (readout e access_s1 W i (filled e length W i c3)).k_min = k at *
    generalize (readout e access_s1 W i (filled e length W i c3)).l_min = l at *
    unfold inReadout at h
    obtain ⟨hb, _, _⟩ := walkPairs_bounds e (filled e length W i c3) W i j fuel k l
    have hab := hb a ha
    refine ⟨by unfold inBox; omega, ?_⟩
    intro pq hpq
    rw [mem_backtrackPoints] at hpq
    unfold inBox
    omega

theorem matrix_bounds_witness :
    envNear.n1 = 27 ∧
    (readout envNear (fun _ _ => 0) 3 11 (filled envNear 27 3 11 (fun _ _ _ => 0))).Emin <
      envNear.INF ∧
    (∀ k ∈ rangeDown (11 - 1) (max 9 (11 - 3)), ∀ o ∈ opsL envNear 3 11 k,
      inBox 27 3 o.ta o.tb o.tc ∧ inBox 27 3 o.sa o.sb o.sc ∧ o.tb ≤ 3 - 2 ∧ 1 ≤ o.tc) ∧
    ∀ (fuel : Nat), ∀ a ∈ walkPairs envNear (filled envNear 27 3 11 (fun _ _ _ => 0)) 3 11
        (readout envNear (fun _ _ => 0) 3 11 (filled envNear 27 3 11 (fun _ _ _ => 0))).j_min
        fuel
        (readout envNear (fun _ _ => 0) 3 11 (filled envNear 27 3 11 (fun _ _ _ => 0))).k_min
        (readout envNear (fun _ _ => 0) 3 11 (filled envNear 27 3 11 (fun _ _ _ => 0))).l_min,
      inBox 27 3
        ((readout envNear (fun _ _ => 0) 3 11
          (filled envNear 27 3 11 (fun _ _ _ => 0))).j_min - 11)
        (3 - 11 + a.1 - 1)
        (a.2 - (readout envNear (fun _ _ => 0) 3 11
          (filled envNear 27 3 11 (fun _ _ _ => 0))).j_min) := by
  have hE : (readout envNear (fun _ _ => 0) 3 11
      (filled envNear 27 3 11 (fun _ _ _ => 0))).Emin < envNear.INF := by
    show (bestOf envNear 27 (fun _ _ => 0) 3 11).Emin < envNear.INF
    rw [bestOf_near_values.1]
    decide
  have h := matrix_bounds envNear 27 3 11 (fun _ _ => 0) (fun _ _ _ => 0) rfl (by decide)
    (by decide)
  exact ⟨rfl, hE, h.2.2.1, fun fuel a ha => (h.2.2.2.2.2 hE fuel a ha).1⟩

/-! ## The raw total of a returned candidate -/

theorem readout_total (e : Env) (access_s1 : Int → Int → Int) (W i : Int) (c3 : Matrix)
    (h : (readout e access_s1 W i c3).Emin < e.INF) :
    (readout e access_s1 W i c3).Emin =
      total e access_s1 W i c3 (readout e access_s1 W i c3).j_min
        (readout e access_s1 W i c3).k_min (readout e access_s1 W i c3).l_min := by
  rw [readout_eq_foldl] at h ⊢
  rcases pickBest_foldl e access_s1 W i c3 (readoutCands e W i) with
    ⟨hb, _⟩ | ⟨pre, c, post, _, hb, _, _, _⟩
  · rw [hb] at h; exact absurd h (lt_irrefl _)
  · rw [hb]

theorem smallEnergies_INF {e : Env} {W B : Int} (hs : smallEnergies e W B) (hW : 1 ≤ W) :
    0 ≤ B ∧ B < e.INF := by
  have hB0 : 0 ≤ B := le_trans (abs_nonneg _) (hs.2.1 0 0 0)
  have h1 : B ≤ W * B := le_mul_of_one_le_left hB0 hW
  have h2 := hs.2.2
  constructor
  · exact hB0
  · omega

/-- When `backtrack_XS` succeeds on the filled matrix from a combination of the readout, the
walk ends at the inner pair `(i, j)`, and the entry of `(k, l)` is the sum of the
interior-loop energies along the decoded pairs plus the external-stem energy of `(i, j)`. -/
theorem walk_ends (e : Env) (length W i B : Int) (c3 : Matrix) (j k l : Int) (hi : 11 ≤ i)
    (hn : e.n1 = length) (hs : smallEnergies e W B) (hr : inReadout e W i j k l) (t : Traced)
    (h : backtrack_XS e (filled e length W i c3) k l i j W = Outcome.ok t) :
    (decode t.struc k j).head? = some (k, l) ∧
    (decode t.struc k j).getLast? = some (i, j) ∧
    entry (filled e length W i c3) W i j (k, l) =
      loopSum e (decode t.struc k j) + stemEnergy e (i, j) := by
  obtain ⟨r1, r2, r3, r4, r5, r6, r7, r8⟩ := hr
  have hW : 1 ≤ W := by omega
  obtain ⟨hB0, hBI⟩ := smallEnergies_INF hs hW
  rw [decode_backtrack e _ k l i j W t h]
  obtain ⟨_, _, _, hchain, hlast⟩ := backtrack_XS_ok e _ k l i j W t h
  obtain ⟨hb, _, _⟩ := walkPairs_bounds e (filled e length W i c3) W i j
    ((i - k).toNat + (l - j).toNat + 1) k l
  have hhead := walkPairs_head e (filled e length W i c3) W i j k l
    ((i - k).toNat + (l - j).toNat) (by omega) (by omega)
  generalize walkPairs e (filled e length W i c3) W i j
    ((i - k).toNat + (l - j).toNat + 1) k l = ps at *
  have hne : ps ≠ [] := by
    intro h0
    rw [h0] at hhead
    simp at hhead
  obtain ⟨stop, hstop, hmem⟩ : ∃ stop, ps.getLast? = some stop ∧ stop ∈ ps :=
    ⟨ps.getLast hne, List.getLast?_eq_getLast _ hne, List.getLast_mem hne⟩
  obtain ⟨hent, hno⟩ := hlast stop hstop
  obtain ⟨b1, b2, b3, b4⟩ := hb stop hmem
  have hstem : |stemEnergy e stop| ≤ B := hs.2.1 _ _ _
  have hnotINF : entry (filled e length W i c3) W i j stop ≠ e.INF := by
    rw [hent]
    intro h0
    rw [h0] at hstem
    have := le_abs_self e.INF
    omega
  have hstopeq : stop = (i, j) := by
    obtain ⟨s1, s2⟩ := stop
    simp only at b1 b2 b3 b4
    by_cases hs1 : s1 = i
    · subst hs1
      have hin := filled_inner e length W s1 c3 hi hn j s2 r1 r2 r7 b3 (by omega)
      by_cases hs2 : s2 = j
      · rw [hs2]
      · rw [if_neg hs2] at hin
        exact absurd hin hnotINF
    · exfalso
      rcases filled_ge e length W i c3 hi hn j s1 s2 r1 r2 (by omega) (by omega) b3 (by omega)
        with h0 | ⟨p, q, h1, h2, h3, h4, h5, h6, _, h8⟩
      · exact hnotINF h0
      · exact hno (p, q) ⟨h1, h2, h3, h4, h5, h6, h8⟩
  subst hstopeq
  refine ⟨hhead, hstop, ?_⟩
  exact entry_chain e _ W i j ps (k, l) (i, j) (hchain.imp (fun _ _ h => h.1)) hhead hstop hent

/-- C22 (amended): when every value of `E_IntLoop` and of `vrna_E_ext_stem` is at most `B`
in absolute value with `2 * W * B < INF`, the window is at least 1 and `2 * penalty < INF`,
every entry returned by `duplexfold_XS` belongs to a combination `(i, j, k, l)` of the
readout with `tb = k - 10`, `te = i - 10`, `qb = j - 10`, `qe = l - 10`; its structure
string encodes pairs that start at `(k, l)` and end at `(i, j)`; and its raw total `ddG` is
the `int` value of `dG1 + dG2 + ext_stem(type(k,l), outer flanks) +
2 * ext_stem(rtype[type(i,j)], SS1[j-1], SS1[i+1])` plus the sum of `E_IntLoop` over the
consecutive encoded pairs: the value of `[-2^31, 2^31)` congruent to that sum modulo `2^32`,
and the sum itself whenever it lies in the range. The closing energy of `(i, j)` enters once through the base
case of the matrix and once more in the readout. -/
theorem candidate_total (e : Env) (length : Int) (access_s1 : Int → Int → Int)
    (penalty W B : Int) (hits : List vrna_pkplex_t) (hn : e.n1 = length) (hW : 1 ≤ W)
    (hs : smallEnergies e W B) (hp : 2 * penalty < e.INF)
    (h : duplexfold_XS e length access_s1 penalty W = Outcome.ok hits) :
    ∀ hit ∈ hits, ∃ i j k l,
      hit.tb = k - 10 ∧ hit.te = i - 10 ∧ hit.qb = j - 10 ∧ hit.qe = l - 10 ∧
      inReadout e W i j k l ∧
      (decode hit.struc k j).head? = some (k, l) ∧
      (decode hit.struc k j).getLast? = some (i, j) ∧
      hit.ddG = wrapInt (hit.dG1 + hit.dG2
        + e.vrna_E_ext_stem (e.pt k l)
            (if k > max 9 (i - W) + 1 then e.SS1 (k - 1) else -1)
            (if l < min (e.n1 - 9) (j + W) - 1 then e.SS1 (l + 1) else -1)
        + 2 * e.vrna_E_ext_stem (e.rtype (e.pt i j)) (e.SS1 (j - 1)) (e.SS1 (i + 1))
        + loopSum e (decode hit.struc k j)) ∧
      -2147483648 ≤ hit.ddG ∧ hit.ddG < 2147483648 ∧
      (hit.ddG - (hit.dG1 + hit.dG2
        + e.vrna_E_ext_stem (e.pt k l)
            (if k > max 9 (i - W) + 1 then e.SS1 (k - 1) else -1)
            (if l < min (e.n1 - 9) (j + W) - 1 then e.SS1 (l + 1) else -1)
        + 2 * e.vrna_E_ext_stem (e.rtype (e.pt i j)) (e.SS1 (j - 1)) (e.SS1 (i + 1))
        + loopSum e (decode hit.struc k j))) % 4294967296 = 0 ∧
      (-2147483648 ≤ hit.dG1 + hit.dG2
        + e.vrna_E_ext_stem (e.pt k l)
            (if k > max 9 (i - W) + 1 then e.SS1 (k - 1) else -1)
            (if l < min (e.n1 - 9) (j + W) - 1 then e.SS1 (l + 1) else -1)
        + 2 * e.vrna_E_ext_stem (e.rtype (e.pt i j)) (e.SS1 (j - 1)) (e.SS1 (i + 1))
        + loopSum e (decode hit.struc k j) →
        hit.dG1 + hit.dG2
        + e.vrna_E_ext_stem (e.pt k l)
            (if k > max 9 (i - W) + 1 then e.SS1 (k - 1) else -1)
            (if l < min (e.n1 - 9) (j + W) - 1 then e.SS1 (l + 1) else -1)
        + 2 * e.vrna_E_ext_stem (e.rtype (e.pt i j)) (e.SS1 (j - 1)) (e.SS1 (i + 1))
        + loopSum e (decode hit.struc k j) < 2147483648 →
        hit.ddG = hit.dG1 + hit.dG2
        + e.vrna_E_ext_stem (e.pt k l)
            (if k > max 9 (i - W) + 1 then e.SS1 (k - 1) else -1)
            (if l < min (e.n1 - 9) (j + W) - 1 then e.SS1 (l + 1) else -1)
        + 2 * e.vrna_E_ext_stem (e.rtype (e.pt i j)) (e.SS1 (j - 1)) (e.SS1 (i + 1))
        + loopSum e (decode hit.struc k j)) := by
  intro hit hh
  obtain ⟨i, hi, c3, t, h1, _, hbt, rfl⟩ :=
    (duplexfold_trace e length access_s1 penalty W hits hn h).2 hit hh
  obtain ⟨hi1, hi2⟩ := mem_scanPositions.mp hi
  obtain ⟨hB0, hBI⟩ := smallEnergies_INF hs hW
  have hbo : bestOf e length access_s1 W i =
      readout e access_s1 W i (filled e length W i (fun _ _ _ => 0)) := rfl
  rcases readout_cases e access_s1 W i (filled e length W i (fun _ _ _ => 0)) with
    hc | ⟨hlt, hr⟩
  · rw [hbo, hc] at h1
    simp only at h1
    omega
  · have htot := readout_total e access_s1 W i _ hlt
    rw [← hbo] at hr htot
    generalize bestOf e length access_s1 W i = b at *
    obtain ⟨hd1, hd2, hd3⟩ := walk_ends e length W i B c3 b.j_min b.k_min b.l_min hi1 hn hs hr
      t hbt
    have hag : entry (filled e length W i c3) W i b.j_min (b.k_min, b.l_min) =
        entry (filled e length W i (fun _ _ _ => 0)) W i b.j_min (b.k_min, b.l_min) := by
      unfold entry
      apply filled_agree e length W i hi1 hn
      obtain ⟨r1, r2, r3, r4, r5, r6, _, _⟩ := hr
      unfold inBox
      simp only
      omega
    have hsum : b.Emin = wrapInt (b.dGx access_s1 i + b.dGy access_s1
        + e.vrna_E_ext_stem (e.pt b.k_min b.l_min)
            (if b.k_min > max 9 (i - W) + 1 then e.SS1 (b.k_min - 1) else -1)
            (if b.l_min < min (e.n1 - 9) (b.j_min + W) - 1 then e.SS1 (b.l_min + 1) else -1)
        + 2 * e.vrna_E_ext_stem (e.rtype (e.pt i b.j_min)) (e.SS1 (b.j_min - 1))
            (e.SS1 (i + 1))
        + loopSum e (decode t.struc b.k_min b.j_min)) := by
      rw [htot, total_eq]
      unfold entry at hd3 hag
      unfold stemEnergy at hd3
      simp only at hd3 hag
      rw [← hag, hd3]
      unfold Best.dGx Best.dGy
      congr 1
      ring
    refine ⟨i, b.j_min, b.k_min, b.l_min, rfl, rfl, rfl, rfl, hr, hd1, hd2, hsum, ?_, ?_, ?_,
      ?_⟩
    · show -2147483648 ≤ b.Emin
      rw [hsum]
      exact (wrapInt_char _).1
    · show b.Emin < 2147483648
      rw [hsum]
      exact (wrapInt_char _).2.1
    · have := (wrapInt_char (b.dGx access_s1 i + b.dGy access_s1
        + e.vrna_E_ext_stem (e.pt b.k_min b.l_min)
            (if b.k_min > max 9 (i - W) + 1 then e.SS1 (b.k_min - 1) else -1)
            (if b.l_min < min (e.n1 - 9) (b.j_min + W) - 1 then e.SS1 (b.l_min + 1) else -1)
        + 2 * e.vrna_E_ext_stem (e.rtype (e.pt i b.j_min)) (e.SS1 (b.j_min - 1))
            (e.SS1 (i + 1))
        + loopSum e (decode t.struc b.k_min b.j_min))).2.2.1
      rw [← hsum] at this
      exact this
    · intro g1 g2
      exact hsum.trans (wrapInt_of_range _ g1 g2)

set_option maxRecDepth 1000000 in
set_option maxHeartbeats 4000000 in
theorem duplexfoldBox_big :
    duplexfoldBox envNear 27 accessBig 100 3 = Outcome.ok [hitBig] := by
  rfl

theorem duplexfold_big :
    duplexfold_XS envNear 27 accessBig 100 3 = Outcome.ok [hitBig] := by
  rw [duplexfold_eq_box envNear 27 accessBig 100 3 rfl]
  exact duplexfoldBox_big

theorem candidate_total_witness :
    duplexfold_XS envNear 27 (fun _ _ => 0) 100 3 = Outcome.ok [hitNear] ∧
    smallEnergies envNear 3 5 ∧ 2 * (100 : Int) < envNear.INF ∧
    ∀ hit ∈ [hitNear], ∃ i j k l,
      hit.tb = k - 10 ∧ hit.te = i - 10 ∧ hit.qb = j - 10 ∧ hit.qe = l - 10 ∧
      inReadout envNear 3 i j k l ∧
      (decode hit.struc k j).head? = some (k, l) ∧
      (decode hit.struc k j).getLast? = some (i, j) ∧
      hit.ddG = wrapInt (hit.dG1 + hit.dG2
        + envNear.vrna_E_ext_stem (envNear.pt k l)
            (if k > max 9 (i - 3) + 1 then envNear.SS1 (k - 1) else -1)
            (if l < min (envNear.n1 - 9) (j + 3) - 1 then envNear.SS1 (l + 1) else -1)
        + 2 * envNear.vrna_E_ext_stem (envNear.rtype (envNear.pt i j)) (envNear.SS1 (j - 1)) (envNear.SS1 (i + 1))
        + loopSum envNear (decode hit.struc k j)) ∧
      -2147483648 ≤ hit.ddG ∧ hit.ddG < 2147483648 ∧
      (hit.ddG - (hit.dG1 + hit.dG2
        + envNear.vrna_E_ext_stem (envNear.pt k l)
            (if k > max 9 (i - 3) + 1 then envNear.SS1 (k - 1) else -1)
            (if l < min (envNear.n1 - 9) (j + 3) - 1 then envNear.SS1 (l + 1) else -1)
        + 2 * envNear.vrna_E_ext_stem (envNear.rtype (envNear.pt i j)) (envNear.SS1 (j - 1)) (envNear.SS1 (i + 1))
        + loopSum envNear (decode hit.struc k j))) % 4294967296 = 0 ∧
      (-2147483648 ≤ hit.dG1 + hit.dG2
        + envNear.vrna_E_ext_stem (envNear.pt k l)
            (if k > max 9 (i - 3) + 1 then envNear.SS1 (k - 1) else -1)
            (if l < min (envNear.n1 - 9) (j + 3) - 1 then envNear.SS1 (l + 1) else -1)
        + 2 * envNear.vrna_E_ext_stem (envNear.rtype (envNear.pt i j)) (envNear.SS1 (j - 1)) (envNear.SS1 (i + 1))
        + loopSum envNear (decode hit.struc k j) →
        hit.dG1 + hit.dG2
        + envNear.vrna_E_ext_stem (envNear.pt k l)
            (if k > max 9 (i - 3) + 1 then envNear.SS1 (k - 1) else -1)
            (if l < min (envNear.n1 - 9) (j + 3) - 1 then envNear.SS1 (l + 1) else -1)
        + 2 * envNear.vrna_E_ext_stem (envNear.rtype (envNear.pt i j)) (envNear.SS1 (j - 1)) (envNear.SS1 (i + 1))
        + loopSum envNear (decode hit.struc k j) < 2147483648 →
        hit.ddG = hit.dG1 + hit.dG2
        + envNear.vrna_E_ext_stem (envNear.pt k l)
            (if k > max 9 (i - 3) + 1 then envNear.SS1 (k - 1) else -1)
            (if l < min (envNear.n1 - 9) (j + 3) - 1 then envNear.SS1 (l + 1) else -1)
        + 2 * envNear.vrna_E_ext_stem (envNear.rtype (envNear.pt i j)) (envNear.SS1 (j - 1)) (envNear.SS1 (i + 1))
        + loopSum envNear (decode hit.struc k j)) :=
  ⟨duplexfold_near, smallEnergies_near, by decide,
    candidate_total envNear 27 (fun _ _ => 0) 100 3 5 [hitNear] rfl (by decide)
      smallEnergies_near (by decide) duplexfold_near⟩

set_option maxRecDepth 100000 in
/-- C22 (counterexample): in `envNear` with window 3, threshold 100 and every accessibility
penalty equal to `2^30`, the energy model is small relative to `INF` and the threshold is
below `INF / 2`; the search returns one entry, for `(i, j, k, l) = (11, 15, 10, 16)`, with
`ddG = 12 - 2^31`, while the sum of the claim is `2^31 + 12`. -/
theorem candidate_total_counterexample :
    duplexfold_XS envNear 27 accessBig 100 3 = Outcome.ok [hitBig] ∧
    smallEnergies envNear 3 5 ∧ 2 * (100 : Int) < envNear.INF ∧
    hitBig.tb = 10 - 10 ∧ hitBig.te = 11 - 10 ∧ hitBig.qb = 15 - 10 ∧ hitBig.qe = 16 - 10 ∧
    hitBig.ddG = -2147483636 ∧
    hitBig.dG1 + hitBig.dG2
      + envNear.vrna_E_ext_stem (envNear.pt 10 16)
          (if (10 : Int) > max 9 (11 - 3) + 1 then envNear.SS1 (10 - 1) else -1)
          (if 16 < min (envNear.n1 - 9) (15 + 3) - 1 then envNear.SS1 (16 + 1) else -1)
      + 2 * envNear.vrna_E_ext_stem (envNear.rtype (envNear.pt 11 15)) (envNear.SS1 (15 - 1))
          (envNear.SS1 (11 + 1))
      + loopSum envNear (decode hitBig.struc 10 15) = 2147483660 :=
  ⟨duplexfold_big, smallEnergies_near, by decide, rfl, rfl, rfl, rfl, rfl, by decide⟩

/-! ## The decomposition points of the fill step and of the backtracking -/

theorem findQ_eq_find (e : Env) (c3 : Matrix) (W i j k l E type p : Int) :
    ∀ qs : List Int,
      findQ e c3 W i j k l E type p qs =
        (((qs.takeWhile (fun q => decide (¬ p - k + l - q - 2 > MAXLOOP))).filter
          (fun q => decide (e.pt p q ≠ 0))).find?
            (fun q => matchAt e c3 W i j k l E type (p, q))) := by
  intro qs
  induction qs with
  | nil => rfl
  | cons q qs ih =>
    unfold findQ
    by_cases hsz : p - k + l - q - 2 > MAXLOOP
    · have h1 : (q :: qs).takeWhile (fun q => decide (¬ p - k + l - q - 2 > MAXLOOP)) = [] :=
        List.takeWhile_cons_of_neg (fun h => (of_decide_eq_true h) hsz)
      rw [if_pos hsz, h1]
      rfl
    · have h1 : (q :: qs).takeWhile (fun q => decide (¬ p - k + l - q - 2 > MAXLOOP)) =
          q :: qs.takeWhile (fun q => decide (¬ p - k + l - q - 2 > MAXLOOP)) :=
        List.takeWhile_cons_of_pos (decide_eq_true hsz)
      rw [if_neg hsz, h1]
      by_cases hpt : e.pt p q = 0
      · have h2 : ∀ xs : List Int, (q :: xs).filter (fun q => decide (e.pt p q ≠ 0)) =
            xs.filter (fun q => decide (e.pt p q ≠ 0)) :=
          fun xs => List.filter_cons_of_neg (fun h => (of_decide_eq_true h) hpt)
        simp only [hpt, if_true]
        rw [h2, ih]
      · have h2 : ∀ xs : List Int, (q :: xs).filter (fun q => decide (e.pt p q ≠ 0)) =
            q :: xs.filter (fun q => decide (e.pt p q ≠ 0)) :=
          fun xs => List.filter_cons_of_pos (decide_eq_true hpt)
        simp only [hpt, if_false]
        rw [h2]
        by_cases hm : E = c3 (j - 11) (W - i + p - 1) (q - j) +
            e.E_IntLoop (p - k - 1) (l - q - 1) type (e.rtype (e.pt p q))
              (e.SS1 (k + 1)) (e.SS1 (l - 1)) (e.SS1 (p - 1)) (e.SS1 (q + 1))
        · rw [if_pos hm, List.find?_cons_of_pos]
          exact decide_eq_true hm
        · rw [if_neg hm, List.find?_cons_of_neg, ih]
          exact fun h => hm (of_decide_eq_true h)

theorem findP_eq_find (e : Env) (c3 : Matrix) (W i j k l E type : Int) :
    ∀ ps : List Int,
      findP e c3 W i j k l E type ps =
        (ps.flatMap (fun p =>
          (((rangeDown (l - 1) (j - 1)).takeWhile
              (fun q => decide (¬ p - k + l - q - 2 > MAXLOOP))).filter
            (fun q => decide (e.pt p q ≠ 0))).map (fun q => (p, q)))).find?
          (matchAt e c3 W i j k l E type) := by
  intro ps
  induction ps with
  | nil => rfl
  | cons p ps ih =>
    unfold findP
    rw [findQ_eq_find, List.flatMap_cons, List.find?_append, List.find?_map, ih]
    have hcomp : (matchAt e c3 W i j k l E type ∘ fun q => (p, q)) =
        fun q => matchAt e c3 W i j k l E type (p, q) := rfl
    rw [hcomp]
    cases (((rangeDown (l - 1) (j - 1)).takeWhile
        (fun q => decide (¬ p - k + l - q - 2 > MAXLOOP))).filter
      (fun q => decide (e.pt p q ≠ 0))).find?
        (fun q => matchAt e c3 W i j k l E type (p, q)) with
    | none => rfl
    | some q => rfl

theorem eq_of_pairwise_mem {α : Type} (r : α → α → Prop) (hr : ∀ a b, r a b → ¬ r b a) :
    ∀ (xs ys : List α), xs.Pairwise r → ys.Pairwise r → (∀ a, a ∈ xs ↔ a ∈ ys) → xs = ys := by
  intro xs
  induction xs with
  | nil =>
    intro ys _ _ h
    cases ys with
    | nil => rfl
    | cons b u => exact absurd ((h b).mpr (List.mem_cons_self _ _)) (List.not_mem_nil _)
  | cons a t ih =>
    intro ys hx hy h
    cases ys with
    | nil => exact absurd ((h a).mp (List.mem_cons_self _ _)) (List.not_mem_nil _)
    | cons b u =>
      rw [List.pairwise_cons] at hx hy
      have hab : a = b := by
        rcases List.mem_cons.mp ((h a).mp (List.mem_cons_self _ _)) with h1 | h1
        · exact h1
        · rcases List.mem_cons.mp ((h b).mpr (List.mem_cons_self _ _)) with h2 | h2
          · exact h2.symm
          · exact absurd (hx.1 b h2) (hr _ _ (hy.1 a h1))
      subst hab
      congr 1
      apply ih u hx.2 hy.2
      intro x
      constructor
      · intro hxt
        rcases List.mem_cons.mp ((h x).mp (List.mem_cons_of_mem _ hxt)) with h1 | h1
        · subst h1
          exact absurd (hx.1 x hxt) (hr _ _ (hx.1 x hxt))
        · exact h1
      · intro hxu
        rcases List.mem_cons.mp ((h x).mpr (List.mem_cons_of_mem _ hxu)) with h1 | h1
        · subst h1
          exact absurd (hy.1 x hxu) (hr _ _ (hy.1 x hxu))
        · exact h1

theorem pointBefore_asymm (a b : Int × Int) (h : pointBefore a b) : ¬ pointBefore b a := by
  unfold pointBefore at *
  omega

theorem pairwise_backtrackPoints (e : Env) (i j k l : Int) :
    (backtrackPoints e i j k l).Pairwise pointBefore := by
  rw [backtrackPoints_eq, List.pairwise_flatMap]
  constructor
  · intro p _
    rw [List.pairwise_map]
    apply List.Pairwise.filter
    apply List.Pairwise.filter
    exact (pairwise_rangeDown _ _).imp (fun h => Or.inr ⟨rfl, h⟩)
  · refine (pairwise_rangeUp _ _).imp ?_
    intro p1 p2 hp x hx y hy
    simp only [List.mem_map, List.mem_filter] at hx hy
    obtain ⟨_, _, rfl⟩ := hx
    obtain ⟨_, _, rfl⟩ := hy
    exact Or.inl hp

theorem mem_opsJ {e : Env} {W i k l p q : Int} {o : Relax} (h : o ∈ opsJ e W i k l p q) :
    ∃ j, o = relaxOf e W i k l p q j := by
  unfold opsJ at h
  simp only [List.mem_map, List.mem_filter] at h
  obtain ⟨j, _, rfl⟩ := h
  exact ⟨j, rfl⟩

theorem mem_opsQ {e : Env} {W i k l p : Int} {o : Relax} (h : o ∈ opsQ e W i k l p) :
    ∃ q j, o = relaxOf e W i k l p q j := by
  unfold opsQ at h
  simp only [List.mem_flatMap] at h
  obtain ⟨q, _, hq⟩ := h
  obtain ⟨j, rfl⟩ := mem_opsJ hq
  exact ⟨q, j, rfl⟩

theorem mem_opsP {e : Env} {W i k l : Int} {o : Relax} (h : o ∈ opsP e W i k l) :
    ∃ p q j, o = relaxOf e W i k l p q j := by
  unfold opsP at h
  simp only [List.mem_flatMap] at h
  obtain ⟨p, _, hp⟩ := h
  obtain ⟨q, j, rfl⟩ := mem_opsQ hp
  exact ⟨p, q, j, rfl⟩

/-- The order of the relaxations of iteration `k` of the fill step that share a target:
the source column `p` increases, and for the same `p` the source index `q` decreases. -/
theorem pairwise_opsL (e : Env) (W i k : Int) :
    (opsL e W i k).Pairwise (fun o1 o2 => o1.ta = o2.ta → o1.tc = o2.tc →
      (o1.sb < o2.sb ∨ (o1.sb = o2.sb ∧ o2.sc < o1.sc))) := by
  unfold opsL
  rw [List.pairwise_flatMap]
  constructor
  · intro l _
    unfold opsP
    rw [List.pairwise_flatMap]
    constructor
    · intro p _
      unfold opsQ
      rw [List.pairwise_flatMap]
      constructor
      · intro q _
        unfold opsJ
        rw [List.pairwise_map]
        apply List.Pairwise.filter
        refine (pairwise_rangeUp _ _).imp ?_
        intro j1 j2 hj h1 _
        unfold relaxOf at h1
        simp only at h1
        omega
      · refine ((pairwise_rangeDown _ _).filter _).imp ?_
        intro q1 q2 hq x hx y hy h1 _
        obtain ⟨j1, rfl⟩ := mem_opsJ hx
        obtain ⟨j2, rfl⟩ := mem_opsJ hy
        unfold relaxOf at h1
        simp only at h1
        refine Or.inr ⟨rfl, ?_⟩
        show q2 - j2 < q1 - j1
        omega
    · refine (pairwise_rangeUp _ _).imp ?_
      intro p1 p2 hp x hx y hy _ _
      obtain ⟨q1, j1, rfl⟩ := mem_opsQ hx
      obtain ⟨q2, j2, rfl⟩ := mem_opsQ hy
      refine Or.inl ?_
      show W - i + p1 - 1 < W - i + p2 - 1
      omega
  · refine ((pairwise_rangeUp _ _).filter _).imp ?_
    intro l1 l2 hl x hx y hy h1 h2
    obtain ⟨p1, q1, j1, rfl⟩ := mem_opsP hx
    obtain ⟨p2, q2, j2, rfl⟩ := mem_opsP hy
    unfold relaxOf at h1 h2
    simp only at h1 h2
    omega

theorem mem_fillUpdates {e : Env} {W i j k l : Int} {o : Relax} :
    o ∈ fillUpdates e W i j k l ↔
      ∃ p q, i + 5 ≤ l ∧ l ≤ e.n1 - 10 ∧ e.pt k l ≠ 0 ∧ k < p ∧ p ≤ i ∧ i + 4 ≤ q ∧ q < l ∧
        p - k + l - q - 2 ≤ MAXLOOP ∧ e.pt p q ≠ 0 ∧ i + 4 ≤ j ∧ l - W + 1 ≤ j ∧ j ≤ q ∧
        e.pt i j ≠ 0 ∧ o = relaxOf e W i k l p q j := by
  unfold fillUpdates
  simp only [List.mem_filter, decide_eq_true_eq]
  rw [mem_opsL]
  constructor
  · rintro ⟨⟨l2, p, q, j2, h1, h2, h3, h4, h5, h6, h7, h8, h9, h10, h11, h12, h13, rfl⟩, t1, _, t3⟩
    unfold relaxOf at t1 t3
    simp only at t1 t3
    have hj : j2 = j := by omega
    have hl : l2 = l := by omega
    subst hj hl
    exact ⟨p, q, h1, h2, h3, h4, h5, h6, h7, h8, h9, h10, h11, h12, h13, rfl⟩
  · rintro ⟨p, q, h1, h2, h3, h4, h5, h6, h7, h8, h9, h10, h11, h12, h13, rfl⟩
    exact ⟨⟨l, p, q, j, h1, h2, h3, h4, h5, h6, h7, h8, h9, h10, h11, h12, h13, rfl⟩,
      rfl, rfl, rfl⟩

theorem mem_fillPoints {e : Env} {W i j k l : Int} {pq : Int × Int} :
    pq ∈ fillPoints e W i j k l ↔
      i + 5 ≤ l ∧ l ≤ e.n1 - 10 ∧ e.pt k l ≠ 0 ∧ k < pq.1 ∧ pq.1 ≤ i ∧ i + 4 ≤ pq.2 ∧
        pq.2 < l ∧ pq.1 - k + l - pq.2 - 2 ≤ MAXLOOP ∧ e.pt pq.1 pq.2 ≠ 0 ∧ i + 4 ≤ j ∧
        l - W + 1 ≤ j ∧ j ≤ pq.2 ∧ e.pt i j ≠ 0 := by
  obtain ⟨p, q⟩ := pq
  unfold fillPoints
  simp only [List.mem_map, mem_fillUpdates, Prod.mk.injEq]
  constructor
  · rintro ⟨o, ⟨p2, q2, h1, h2, h3, h4, h5, h6, h7, h8, h9, h10, h11, h12, h13, rfl⟩, t1, t2⟩
    unfold relaxOf at t1 t2
    simp only at t1 t2
    have hp : p2 = p := by omega
    have hq : q2 = q := by omega
    subst hp hq
    exact ⟨h1, h2, h3, h4, h5, h6, h7, h8, h9, h10, h11, h12, h13⟩
  · rintro ⟨h1, h2, h3, h4, h5, h6, h7, h8, h9, h10, h11, h12, h13⟩
    refine ⟨relaxOf e W i k l p q j,
      ⟨p, q, h1, h2, h3, h4, h5, h6, h7, h8, h9, h10, h11, h12, h13, rfl⟩, ?_, ?_⟩
    · unfold relaxOf
      simp only
      omega
    · unfold relaxOf
      simp only
      omega

theorem pairwise_fillPoints (e : Env) (W i j k l : Int) :
    (fillPoints e W i j k l).Pairwise pointBefore := by
  unfold fillPoints fillUpdates
  rw [List.pairwise_map]
  have h := (pairwise_opsL e W i k).filter
    (fun o => decide (o.ta = j - 11 ∧ o.tb = W - i + k - 1 ∧ o.tc = l - j))
  refine h.imp_of_mem ?_
  intro o1 o2 h1 h2 hr
  simp only [List.mem_filter, decide_eq_true_eq] at h1 h2
  have := hr (by rw [h1.2.1, h2.2.1]) (by rw [h1.2.2.2, h2.2.2.2])
  unfold pointBefore
  simp only
  omega

/-- The fill step updates the entry of `(j, k, l)` through the decomposition points that
`backtrack_XS` examines at `(k, l)`, in the same order. -/
theorem fillPoints_eq (e : Env) (W i j k l : Int) (hl1 : i + 5 ≤ l) (hl2 : l ≤ e.n1 - 10)
    (hkl : e.pt k l ≠ 0) (hj1 : i + 4 ≤ j) (hj2 : l - W + 1 ≤ j) (hij : e.pt i j ≠ 0) :
    fillPoints e W i j k l = backtrackPoints e i j k l := by
  apply eq_of_pairwise_mem pointBefore pointBefore_asymm _ _ (pairwise_fillPoints e W i j k l)
    (pairwise_backtrackPoints e i j k l)
  intro pq
  rw [mem_fillPoints, mem_backtrackPoints]
  constructor
  · rintro ⟨h1, h2, h3, h4, h5, h6, h7, h8, h9, h10, h11, h12, h13⟩
    exact ⟨h4, h5, h12, h7, h8, h9⟩
  · rintro ⟨h1, h2, h3, h4, h5, h6⟩
    exact ⟨hl1, hl2, hkl, h1, h2, by omega, h4, h5, h6, hj1, hj2, h3, hij⟩

theorem fillUpdates_eq (e : Env) (W i j k l : Int) (hl1 : i + 5 ≤ l) (hl2 : l ≤ e.n1 - 10)
    (hkl : e.pt k l ≠ 0) (hj1 : i + 4 ≤ j) (hj2 : l - W + 1 ≤ j) (hij : e.pt i j ≠ 0) :
    fillUpdates e W i j k l =
      (backtrackPoints e i j k l).map (fun pq => relaxOf e W i k l pq.1 pq.2 j) := by
  rw [← fillPoints_eq e W i j k l hl1 hl2 hkl hj1 hj2 hij]
  unfold fillPoints
  rw [List.map_map]
  symm
  conv_rhs => rw [← List.map_id (fillUpdates e W i j k l)]
  apply List.map_congr_left
  intro o ho
  obtain ⟨p, q, _, _, _, _, _, _, _, _, _, _, _, _, _, rfl⟩ := mem_fillUpdates.mp ho
  unfold relaxOf
  simp only [Function.comp_apply, id_eq, Relax.mk.injEq, true_and]
  constructor
  · omega
  · constructor
    · omega
    · congr 2 <;> omega

/-- C21: for a scan position `i`, an inner partner `j` and a boundary pair `(k, l)` of the
fill step (`max(9, i-W) < k < i`, `i + 5 <= l <= n1 - 10`, `max(i+4, l-W+1) <= j`, both
pair types nonzero), iteration `k` of the fill step is the list of relaxations `opsL`, and
the two loops of `backtrack_XS` at `(k, l)` return the first point of the list
`backtrackPoints` (`k < p <= i`, `q` from `l - 1` down to `j`, leaving the `q` loop once
`p - k + l - q - 2 > MAXLOOP`, skipping pair type 0) whose entry matches. The points through
which the fill step updates the entry of `(j, k, l)` are exactly that list, in the same
order: the updates are the relaxations of those points with source `c3[j-11][W-i+p-1][q-j]`,
and the energy added by each is the value of `E_IntLoop` with the arguments of the call in
`backtrack_XS`. -/
theorem decomposition_points (e : Env) (W i j k l E : Int) (c3 : Matrix)
    (hk1 : max 9 (i - W) < k) (hk2 : k < i) (hl1 : i + 5 ≤ l) (hl2 : l ≤ e.n1 - 10)
    (hkl : e.pt k l ≠ 0) (hj1 : i + 4 ≤ j) (hj2 : l - W + 1 ≤ j) (hij : e.pt i j ≠ 0) :
    k ∈ rangeDown (i - 1) (max 9 (i - W)) ∧
    (∀ m : Matrix, fillL e W i k m = (opsL e W i k).foldl applyRelax m) ∧
    findP e c3 W i j k l E (e.pt k l) (rangeUp (k + 1) (i + 1)) =
      (backtrackPoints e i j k l).find? (matchAt e c3 W i j k l E (e.pt k l)) ∧
    fillPoints e W i j k l = backtrackPoints e i j k l ∧
    fillUpdates e W i j k l =
      (backtrackPoints e i j k l).map (fun pq => relaxOf e W i k l pq.1 pq.2 j) ∧
    ∀ pq ∈ backtrackPoints e i j k l,
      (relaxOf e W i k l pq.1 pq.2 j).add =
        e.E_IntLoop (pq.1 - k - 1) (l - pq.2 - 1) (e.pt k l) (e.rtype (e.pt pq.1 pq.2))
          (e.SS1 (k + 1)) (e.SS1 (l - 1)) (e.SS1 (pq.1 - 1)) (e.SS1 (pq.2 + 1)) ∧
      (relaxOf e W i k l pq.1 pq.2 j).sa = j - 11 ∧
      (relaxOf e W i k l pq.1 pq.2 j).sb = W - i + pq.1 - 1 ∧
      (relaxOf e W i k l pq.1 pq.2 j).sc = pq.2 - j ∧
      matchAt e c3 W i j k l E (e.pt k l) pq =
        decide (E = c3 (j - 11) (W - i + pq.1 - 1) (pq.2 - j) +
          (relaxOf e W i k l pq.1 pq.2 j).add) := by
  refine ⟨mem_rangeDown.mpr ⟨hk1, by omega⟩, fun m => fillL_eq e W i k m, ?_,
    fillPoints_eq e W i j k l hl1 hl2 hkl hj1 hj2 hij,
    fillUpdates_eq e W i j k l hl1 hl2 hkl hj1 hj2 hij, ?_⟩
  · rw [findP_eq_find]
    rfl
  · intro pq _
    exact ⟨rfl, rfl, rfl, rfl, rfl⟩

theorem decomposition_points_witness :
    backtrackPoints envNear 11 15 10 16 = [(11, 15)] ∧
    fillPoints envNear 3 11 15 10 16 = backtrackPoints envNear 11 15 10 16 ∧
    fillUpdates envNear 3 11 15 10 16 =
      (backtrackPoints envNear 11 15 10 16).map
        (fun pq => relaxOf envNear 3 11 10 16 pq.1 pq.2 15) ∧
    findP envNear c3Near 3 11 15 10 16 2 (envNear.pt 10 16) (rangeUp (10 + 1) (11 + 1)) =
      (backtrackPoints envNear 11 15 10 16).find?
        (matchAt envNear c3Near 3 11 15 10 16 2 (envNear.pt 10 16)) := by
  have h := decomposition_points envNear 3 11 15 10 16 2 c3Near (by decide) (by decide)
    (by decide) (by decide) (by decide) (by decide) (by decide) (by decide)
  exact ⟨by decide, h.2.2.2.1, h.2.2.2.2.1, h.2.2.1⟩

end PKplex
